import Mathlib

/-!
# Poco notification queues: hand-off protocol

A shallow embedding of `Foundation/src/NotificationQueue.cpp` and
`Foundation/src/PriorityNotificationQueue.cpp`.

Every member function that takes `FastMutex::ScopedLock lock(_mutex)` is one
atomic step on the queue state.  The two blocking dequeues consist of several
such steps (the first critical section, then either the signalled resumption
or the timeout critical section); each of them is a separate definition.
-/

namespace Poco

/-- Identity of a `Notification` object (the address a non-null pointer holds). -/
abbrev Notification := Nat

/-- `Notification::Ptr` (an `AutoPtr<Notification>`): `none` is the null pointer. -/
abbrev Ptr := Option Notification

/-- Address of a heap-allocated `WaitInfo`. -/
abbrev WaitInfoPtr := Nat

/-- Modelled from the spec: the `WaitInfo` record is declared in the header, which is
not part of the sources.  A wait slot holds a single item field (initially empty) and
a binary ready signal (initially not set; the `Poco::Event` member `nfAvailable`). -/
structure WaitInfo where
  pNf : Ptr
  nfAvailable : Bool
deriving DecidableEq, Repr

/-- Modelled from the spec: `poco_check_ptr` is a macro of `Bugcheck.h`, which is not part
of the sources.  Passing an absent item fails fast with a precondition violation
(`nullPointer`).  `assertion` is the failure of a `poco_assert_dbg`. -/
inductive Bugcheck where
  | nullPointer
  | assertion
deriving DecidableEq, Repr

/-- The free store holding the `WaitInfo` records that have been allocated with
`new WaitInfo` and not yet been `delete`d, keyed by address. -/
abbrev Heap := List (WaitInfoPtr × WaitInfo)

namespace Heap

/-- Dereference `pWI`: the record stored at that address, if it is allocated. -/
def deref (pWI : WaitInfoPtr) (h : Heap) : Option WaitInfo :=
  match h with
  | [] => none
  | (a, w) :: rest => if a = pWI then some w else deref pWI rest

/-- Result of `new WaitInfo` returning address `pWI`: a default-constructed record
(null `pNf`, event not signalled) is allocated there. -/
def alloc (pWI : WaitInfoPtr) (h : Heap) : Heap :=
  h ++ [(pWI, { pNf := none, nfAvailable := false })]

/-- Assignment `pWI->pNf = pNotification` (no record changes if `pWI` is not allocated). -/
def setPNf (pWI : WaitInfoPtr) (pNotification : Ptr) (h : Heap) : Heap :=
  h.map fun e => if e.1 = pWI then (e.1, { e.2 with pNf := pNotification }) else e

/-- Call `pWI->nfAvailable.set()` (no record changes if `pWI` is not allocated). -/
def setEvent (pWI : WaitInfoPtr) (h : Heap) : Heap :=
  h.map fun e => if e.1 = pWI then (e.1, { e.2 with nfAvailable := true }) else e

/-- Statement `delete pWI`. -/
def free (pWI : WaitInfoPtr) (h : Heap) : Heap :=
  h.filter fun e => e.1 ≠ pWI

end Heap

/-- Modelled from the spec: `NotificationCenter` is an external collaborator (the sink);
only `postNotification` is used.  It is represented by the sequence of items posted to
it so far, oldest first. -/
abbrev NotificationCenter := List Ptr

/-- Modelled from the spec: `post(item)` of the sink collaborator records one more item. -/
def NotificationCenter.postNotification (nc : NotificationCenter) (pNf : Ptr) :
    NotificationCenter :=
  nc ++ [pNf]

/-- `AutoPtr::duplicate`: bumps the reference count and yields the raw pointer; the
pointer value is unchanged (null stays null). -/
def Ptr.duplicate (p : Ptr) : Ptr := p

/-- `static_cast<int>` of a container size: the value modulo `2 ^ 32`, read as a signed
32-bit integer. -/
def toInt (n : Nat) : Int :=
  if n % 2 ^ 32 < 2 ^ 31 then ((n % 2 ^ 32 : Nat) : Int) else ((n % 2 ^ 32 : Nat) : Int) - 2 ^ 32

/-- `std::deque<WaitInfo*>::erase` of the first position holding `pWI`, as done by the
search loop in the timeout branch (`if (*it == pWI) { erase(it); break; }`). -/
def eraseFirst (pWI : WaitInfoPtr) : List WaitInfoPtr → List WaitInfoPtr
  | [] => []
  | a :: rest => if a = pWI then rest else a :: eraseFirst pWI rest

/-- The loop of `wakeUpAll`: `(*it)->nfAvailable.set()` for each element in order. -/
def signalAll : List WaitInfoPtr → Heap → Heap
  | [], h => h
  | a :: rest, h => signalAll rest (Heap.setEvent a h)

/-- What the first critical section of a blocking dequeue hands to its caller: either the
call returns at once with an item, or the caller is parked on the slot `pWI`. -/
inductive Entered where
  | returned (pNf : Ptr)
  | parked (pWI : WaitInfoPtr)
deriving DecidableEq, Repr

/-- What an atomic step did, as seen from outside the queue: an enqueue accepted an item
or raised; a dequeue call returned to its caller (`returned`, possibly with null) or its
caller went to sleep on a fresh slot (`parked`); `dispatch` posted the listed items;
`wakeUpAll` ran; `clear` dropped the listed items. -/
inductive Outcome where
  | accepted (pNotification : Ptr)
  | raised (e : Bugcheck)
  | returned (pNf : Ptr)
  | parked (pWI : WaitInfoPtr)
  | posted (items : List Ptr)
  | woken
  | discarded (items : List Ptr)
deriving DecidableEq, Repr

/-- The items currently held in the item fields of allocated slots. -/
def Heap.items (h : Heap) : List Notification :=
  h.filterMap fun e => e.2.pNf

/-- The non-null items of a list of pointers. -/
def nonNull (l : List Ptr) : List Notification :=
  l.filterMap id

/-- The item an event shows to have been accepted by an enqueue, if any. -/
def Outcome.acceptedItems : Outcome → List Notification
  | .accepted pNotification => nonNull [pNotification]
  | _ => []

/-- The item an event shows to have been returned to the caller of a dequeue, if any. -/
def Outcome.returnedItems : Outcome → List Notification
  | .returned pNf => nonNull [pNf]
  | _ => []

/-- The items an event shows to have left the queue through `dispatch` or `clear`. -/
def Outcome.droppedItems : Outcome → List Notification
  | .posted items => nonNull items
  | .discarded items => nonNull items
  | _ => []

/-- All items accepted along a trace, in order. -/
def acceptedItems : List Outcome → List Notification
  | [] => []
  | e :: es => e.acceptedItems ++ acceptedItems es

/-- All items returned by dequeue calls along a trace, one entry per returning call. -/
def returnedItems : List Outcome → List Notification
  | [] => []
  | e :: es => e.returnedItems ++ returnedItems es

/-- All items posted by `dispatch` or dropped by `clear` along a trace. -/
def droppedItems : List Outcome → List Notification
  | [] => []
  | e :: es => e.droppedItems ++ droppedItems es

/-- At-most-once delivery for a trace `es` that ends in a state holding the items `held`
(buffered, or written to a slot whose owner has not returned yet): the accepted items are,
as a multiset, exactly the held, returned and dropped ones; no more non-null results were
returned than items accepted; every returned item was accepted; if the accepted items are
pairwise distinct then no item was returned twice and no item is in two places; and if
nothing is held or dropped, the returned items are exactly the accepted ones. -/
def AtMostOnce (es : List Outcome) (held : List Notification) : Prop :=
  List.Perm (acceptedItems es) (held ++ (returnedItems es ++ droppedItems es)) ∧
  (returnedItems es).length ≤ (acceptedItems es).length ∧
  (∀ x ∈ returnedItems es, x ∈ acceptedItems es) ∧
  ((acceptedItems es).Nodup →
    (returnedItems es).Nodup ∧ (held ++ (returnedItems es ++ droppedItems es)).Nodup) ∧
  (held = [] → droppedItems es = [] → List.Perm (returnedItems es) (acceptedItems es))

/-- Well-formedness of the wait queue against the free store, shared by both flavors: no
address is allocated twice, no slot is queued twice, every queued slot is allocated with an
empty item field and an unset event, and every allocated slot that is not queued has its
event set. -/
structure WaitInv (wq : List WaitInfoPtr) (h : Heap) : Prop where
  keysNodup : (h.map Prod.fst).Nodup
  waitNodup : wq.Nodup
  parked : ∀ a ∈ wq, Heap.deref a h = some { pNf := none, nfAvailable := false }
  detached : ∀ a w, Heap.deref a h = some w → a ∉ wq → w.nfAvailable = true

/-- The ways in which an atomic step other than `wakeUpAll` can act on the wait queue and
the free store: not at all; hand an item to the front slot; park the caller on a fresh
slot; let a signalled caller resume and delete its slot; let a caller time out, erase its
slot from the wait queue and delete it. -/
inductive QuietStep (wq : List WaitInfoPtr) (h : Heap) : List WaitInfoPtr → Heap → Prop where
  | same : QuietStep wq h wq h
  | handOff (pWI : WaitInfoPtr) (rest : List WaitInfoPtr) (n : Notification) :
      wq = pWI :: rest →
      QuietStep wq h rest (Heap.setEvent pWI (Heap.setPNf pWI (some n) h))
  | park (pWI : WaitInfoPtr) :
      Heap.deref pWI h = none → QuietStep wq h (wq ++ [pWI]) (Heap.alloc pWI h)
  | resume (pWI : WaitInfoPtr) (w : WaitInfo) :
      Heap.deref pWI h = some w → w.nfAvailable = true → QuietStep wq h wq (Heap.free pWI h)
  | timeout (pWI : WaitInfoPtr) (w : WaitInfo) :
      Heap.deref pWI h = some w → QuietStep wq h (eraseFirst pWI wq) (Heap.free pWI h)

/-- State of a `NotificationQueue`: its two member containers, together with the
`WaitInfo` records currently allocated by callers blocked in this queue. -/
structure NotificationQueue where
  _nfQueue : List Ptr
  _waitQueue : List WaitInfoPtr
  heap : Heap
deriving DecidableEq, Repr

namespace NotificationQueue

/-- `NotificationQueue::NotificationQueue()`: both containers start empty. -/
def new : NotificationQueue := { _nfQueue := [], _waitQueue := [], heap := [] }

/-- `NotificationQueue::enqueueNotification`. -/
def enqueueNotification (pNotification : Ptr) (q : NotificationQueue) :
    Except Bugcheck NotificationQueue :=
  if pNotification = none then .error .nullPointer
  else
    match q._waitQueue with
    | [] => .ok { q with _nfQueue := q._nfQueue ++ [pNotification] }
    | pWI :: rest =>
      .ok { q with
        _waitQueue := rest
        heap := Heap.setEvent pWI (Heap.setPNf pWI pNotification q.heap) }

/-- `NotificationQueue::enqueueUrgentNotification`. -/
def enqueueUrgentNotification (pNotification : Ptr) (q : NotificationQueue) :
    Except Bugcheck NotificationQueue :=
  if pNotification = none then .error .nullPointer
  else
    match q._waitQueue with
    | [] => .ok { q with _nfQueue := pNotification :: q._nfQueue }
    | pWI :: rest =>
      .ok { q with
        _waitQueue := rest
        heap := Heap.setEvent pWI (Heap.setPNf pWI pNotification q.heap) }

/-- `NotificationQueue::dequeueOne`. -/
def dequeueOne (q : NotificationQueue) : Ptr × NotificationQueue :=
  match q._nfQueue with
  | [] => (none, q)
  | pNf :: rest => (pNf, { q with _nfQueue := rest })

/-- `NotificationQueue::dequeueNotification`. -/
def dequeueNotification (q : NotificationQueue) : Ptr × NotificationQueue :=
  let r := dequeueOne q
  (Ptr.duplicate r.1, r.2)

/-- First critical section of `waitDequeueNotification()` and of
`waitDequeueNotification(long)` (the two are textually identical).  `pWI` is the
address `new WaitInfo` yields if it is reached. -/
def waitDequeueNotification_enter (pWI : WaitInfoPtr) (q : NotificationQueue) :
    Entered × NotificationQueue :=
  let r := dequeueOne q
  match r.1 with
  | some n => (.returned (Ptr.duplicate (some n)), r.2)
  | none =>
    (.parked pWI,
      { r.2 with heap := Heap.alloc pWI r.2.heap, _waitQueue := r.2._waitQueue ++ [pWI] })

/-- First critical section of `NotificationQueue::waitDequeueNotification(long milliseconds)`,
spelled out with its argument: the timeout is not looked at before the caller is parked
(it is only passed to `tryWait` afterwards). -/
def waitDequeueNotification_ms_enter (milliseconds : Int) (pWI : WaitInfoPtr)
    (q : NotificationQueue) : Entered × NotificationQueue :=
  let _ := milliseconds
  let r := dequeueOne q
  match r.1 with
  | some n => (.returned (Ptr.duplicate (some n)), r.2)
  | none =>
    (.parked pWI,
      { r.2 with heap := Heap.alloc pWI r.2.heap, _waitQueue := r.2._waitQueue ++ [pWI] })

/-- Resumption after the event was observed set: the tail of `waitDequeueNotification()`
after `nfAvailable.wait()` returns, and the `tryWait(milliseconds)` true branch of the
timed variant.  Blocked (`none`) while the event of `pWI` is not set. -/
def waitDequeueNotification_signalled (pWI : WaitInfoPtr) (q : NotificationQueue) :
    Option (Ptr × NotificationQueue) :=
  match Heap.deref pWI q.heap with
  | none => none
  | some w =>
    if w.nfAvailable then
      some (Ptr.duplicate w.pNf, { q with heap := Heap.free pWI q.heap })
    else none

/-- Timeout branch of `waitDequeueNotification(long)` (the `else` of `tryWait`): under
the lock read `pWI->pNf`, erase `pWI` from the wait queue if still there, then delete it.
Undefined (`none`) if `pWI` is not an allocated slot. -/
def waitDequeueNotification_timeout (pWI : WaitInfoPtr) (q : NotificationQueue) :
    Option (Ptr × NotificationQueue) :=
  match Heap.deref pWI q.heap with
  | none => none
  | some w =>
    some (Ptr.duplicate w.pNf,
      { q with _waitQueue := eraseFirst pWI q._waitQueue, heap := Heap.free pWI q.heap })

/-- The `while (pNf)` loop of `dispatch`. -/
def dispatchLoop (notificationCenter : NotificationCenter) (pNf : Ptr)
    (q : NotificationQueue) : NotificationCenter × NotificationQueue :=
  match pNf with
  | none => (notificationCenter, q)
  | some n =>
    dispatchLoop (notificationCenter.postNotification (some n)) (dequeueOne q).1
      (dequeueOne q).2
termination_by (if pNf.isSome then 1 else 0) + q._nfQueue.length
decreasing_by
  obtain ⟨store, _, _⟩ := q
  cases store with
  | nil => simp [dequeueOne]
  | cons a t =>
    cases a with
    | none => simp [dequeueOne]; omega
    | some b => simp [dequeueOne]

/-- `NotificationQueue::dispatch`. -/
def dispatch (notificationCenter : NotificationCenter) (q : NotificationQueue) :
    NotificationCenter × NotificationQueue :=
  dispatchLoop notificationCenter (dequeueOne q).1 (dequeueOne q).2

/-- `NotificationQueue::wakeUpAll`. -/
def wakeUpAll (q : NotificationQueue) : NotificationQueue :=
  { q with heap := signalAll q._waitQueue q.heap, _waitQueue := [] }

/-- `NotificationQueue::empty`. -/
def empty (q : NotificationQueue) : Bool := q._nfQueue.isEmpty

/-- `NotificationQueue::size`. -/
def size (q : NotificationQueue) : Int := toInt q._nfQueue.length

/-- `NotificationQueue::clear`. -/
def clear (q : NotificationQueue) : NotificationQueue := { q with _nfQueue := [] }

/-- `NotificationQueue::hasIdleThreads`. -/
def hasIdleThreads (q : NotificationQueue) : Bool := !q._waitQueue.isEmpty

/-- The atomic steps callers can take on a queue. -/
inductive Action where
  | enqueueNotification (pNotification : Ptr)
  | enqueueUrgentNotification (pNotification : Ptr)
  | dequeueNotification
  | waitDequeueNotification_enter (pWI : WaitInfoPtr)
  | waitDequeueNotification_signalled (pWI : WaitInfoPtr)
  | waitDequeueNotification_timeout (pWI : WaitInfoPtr)
  | dispatch
  | wakeUpAll
  | clear
deriving DecidableEq, Repr

/-- One atomic step.  `none` means the step cannot be taken in `q`: the caller is still
blocked, the address is not that of an allocated slot, or `new` cannot return an address
that is currently allocated.  An exception leaves the queue as it was. -/
def step (a : Action) (q : NotificationQueue) : Option (Outcome × NotificationQueue) :=
  match a with
  | .enqueueNotification p =>
    match enqueueNotification p q with
    | .ok q' => some (.accepted p, q')
    | .error e => some (.raised e, q)
  | .enqueueUrgentNotification p =>
    match enqueueUrgentNotification p q with
    | .ok q' => some (.accepted p, q')
    | .error e => some (.raised e, q)
  | .dequeueNotification => some (.returned (dequeueNotification q).1, (dequeueNotification q).2)
  | .waitDequeueNotification_enter pWI =>
    match waitDequeueNotification_enter pWI q with
    | (.returned pNf, q') => some (.returned pNf, q')
    | (.parked a, q') => if Heap.deref pWI q.heap = none then some (.parked a, q') else none
  | .waitDequeueNotification_signalled pWI =>
    (waitDequeueNotification_signalled pWI q).map fun r => (.returned r.1, r.2)
  | .waitDequeueNotification_timeout pWI =>
    (waitDequeueNotification_timeout pWI q).map fun r => (.returned r.1, r.2)
  | .dispatch => some (.posted (dispatch [] q).1, (dispatch [] q).2)
  | .wakeUpAll => some (.woken, wakeUpAll q)
  | .clear => some (.discarded q._nfQueue, clear q)

/-- States reachable from the freshly constructed queue by atomic steps. -/
inductive Reachable : NotificationQueue → Prop where
  | init : Reachable new
  | step {q q' : NotificationQueue} {e : Outcome} (a : Action) :
      Reachable q → step a q = some (e, q') → Reachable q'

/-- Run a schedule of atomic steps, collecting the events; `none` if some step of the
schedule cannot be taken. -/
def run : List Action → NotificationQueue → Option (List Outcome × NotificationQueue)
  | [], q => some ([], q)
  | a :: rest, q =>
    match step a q with
    | none => none
    | some (e, q') =>
      match run rest q' with
      | none => none
      | some (es, q2) => some (e :: es, q2)

/-- The invariant of reachable states of a `NotificationQueue`. -/
structure Inv (q : NotificationQueue) : Prop where
  wait : WaitInv q._waitQueue q.heap
  storeEmpty : q._waitQueue ≠ [] → q._nfQueue = []
  noNull : none ∉ q._nfQueue

/-- The items the queue currently holds: buffered ones, then those handed to slots. -/
def items (q : NotificationQueue) : List Notification :=
  nonNull q._nfQueue ++ q.heap.items

/-- Call `enqueueNotification` for each pointer of the list in order; stops at the first
call that raises. -/
def enqueueAll : List Ptr → NotificationQueue → Except Bugcheck NotificationQueue
  | [], q => .ok q
  | p :: rest, q =>
    match enqueueNotification p q with
    | .ok q' => enqueueAll rest q'
    | .error e => .error e

/-- Call `dequeueNotification` `n` times, collecting the results in order. -/
def dequeueMany : Nat → NotificationQueue → List Ptr × NotificationQueue
  | 0, q => ([], q)
  | n + 1, q =>
    let r := dequeueNotification q
    let rs := dequeueMany n r.2
    (r.1 :: rs.1, rs.2)

end NotificationQueue

/-- Modelled from the spec: the `NfQueue` typedef of `PriorityNotificationQueue` is in the
header, which is not part of the sources; it is a priority-ordered multi-map keyed by an
integer priority.  This is `insert(value_type(priority, pNotification))`: the entry goes
behind every entry whose key is not greater than `priority`, so the container stays in
ascending key order. -/
def multimapInsert (priority : Int) (pNotification : Ptr) :
    List (Int × Ptr) → List (Int × Ptr)
  | [] => [(priority, pNotification)]
  | e :: rest =>
    if priority < e.1 then (priority, pNotification) :: e :: rest
    else e :: multimapInsert priority pNotification rest

/-- State of a `PriorityNotificationQueue`: the multimap (entries in iteration order, i.e.
ascending key), the wait queue, and the `WaitInfo` records currently allocated by callers
blocked in this queue. -/
structure PriorityNotificationQueue where
  _nfQueue : List (Int × Ptr)
  _waitQueue : List WaitInfoPtr
  heap : Heap
deriving DecidableEq, Repr

namespace PriorityNotificationQueue

/-- `PriorityNotificationQueue::PriorityNotificationQueue()`: both containers start empty. -/
def new : PriorityNotificationQueue := { _nfQueue := [], _waitQueue := [], heap := [] }

/-- `PriorityNotificationQueue::enqueueNotification`, with `poco_assert_dbg` checked (a
build without the check behaves identically wherever the check passes). -/
def enqueueNotification (pNotification : Ptr) (priority : Int)
    (q : PriorityNotificationQueue) : Except Bugcheck PriorityNotificationQueue :=
  if pNotification = none then .error .nullPointer
  else
    match q._waitQueue with
    | [] => .ok { q with _nfQueue := multimapInsert priority pNotification q._nfQueue }
    | pWI :: rest =>
      if q._nfQueue.isEmpty then
        .ok { q with
          _waitQueue := rest
          heap := Heap.setEvent pWI (Heap.setPNf pWI pNotification q.heap) }
      else .error .assertion

/-- `PriorityNotificationQueue::dequeueOne`. -/
def dequeueOne (q : PriorityNotificationQueue) : Ptr × PriorityNotificationQueue :=
  match q._nfQueue with
  | [] => (none, q)
  | it :: rest => (it.2, { q with _nfQueue := rest })

/-- `PriorityNotificationQueue::dequeueNotification`. -/
def dequeueNotification (q : PriorityNotificationQueue) : Ptr × PriorityNotificationQueue :=
  let r := dequeueOne q
  (Ptr.duplicate r.1, r.2)

/-- First critical section of `waitDequeueNotification()` and of
`waitDequeueNotification(long)`.  `pWI` is the address `new WaitInfo` yields if it is
reached. -/
def waitDequeueNotification_enter (pWI : WaitInfoPtr) (q : PriorityNotificationQueue) :
    Entered × PriorityNotificationQueue :=
  let r := dequeueOne q
  match r.1 with
  | some n => (.returned (Ptr.duplicate (some n)), r.2)
  | none =>
    (.parked pWI,
      { r.2 with heap := Heap.alloc pWI r.2.heap, _waitQueue := r.2._waitQueue ++ [pWI] })

/-- First critical section of `PriorityNotificationQueue::waitDequeueNotification(long milliseconds)`,
spelled out with its argument: the timeout is not looked at before the caller is parked
(it is only passed to `tryWait` afterwards). -/
def waitDequeueNotification_ms_enter (milliseconds : Int) (pWI : WaitInfoPtr)
    (q : PriorityNotificationQueue) : Entered × PriorityNotificationQueue :=
  let _ := milliseconds
  let r := dequeueOne q
  match r.1 with
  | some n => (.returned (Ptr.duplicate (some n)), r.2)
  | none =>
    (.parked pWI,
      { r.2 with heap := Heap.alloc pWI r.2.heap, _waitQueue := r.2._waitQueue ++ [pWI] })

/-- Resumption after the event was observed set (after `nfAvailable.wait()`, or the
`tryWait(milliseconds)` true branch).  Blocked (`none`) while the event is not set. -/
def waitDequeueNotification_signalled (pWI : WaitInfoPtr) (q : PriorityNotificationQueue) :
    Option (Ptr × PriorityNotificationQueue) :=
  match Heap.deref pWI q.heap with
  | none => none
  | some w =>
    if w.nfAvailable then
      some (Ptr.duplicate w.pNf, { q with heap := Heap.free pWI q.heap })
    else none

/-- Timeout branch of `waitDequeueNotification(long)`: under the lock read `pWI->pNf`,
erase `pWI` from the wait queue if still there, then delete it.  Undefined (`none`) if
`pWI` is not an allocated slot. -/
def waitDequeueNotification_timeout (pWI : WaitInfoPtr) (q : PriorityNotificationQueue) :
    Option (Ptr × PriorityNotificationQueue) :=
  match Heap.deref pWI q.heap with
  | none => none
  | some w =>
    some (Ptr.duplicate w.pNf,
      { q with _waitQueue := eraseFirst pWI q._waitQueue, heap := Heap.free pWI q.heap })

/-- The `while (pNf)` loop of `dispatch`. -/
def dispatchLoop (notificationCenter : NotificationCenter) (pNf : Ptr)
    (q : PriorityNotificationQueue) : NotificationCenter × PriorityNotificationQueue :=
  match pNf with
  | none => (notificationCenter, q)
  | some n =>
    dispatchLoop (notificationCenter.postNotification (some n)) (dequeueOne q).1
      (dequeueOne q).2
termination_by (if pNf.isSome then 1 else 0) + q._nfQueue.length
decreasing_by
  obtain ⟨store, _, _⟩ := q
  cases store with
  | nil => simp [dequeueOne]
  | cons a t =>
    obtain ⟨k, a⟩ := a
    cases a with
    | none => simp [dequeueOne]; omega
    | some b => simp [dequeueOne]

/-- `PriorityNotificationQueue::dispatch`. -/
def dispatch (notificationCenter : NotificationCenter) (q : PriorityNotificationQueue) :
    NotificationCenter × PriorityNotificationQueue :=
  dispatchLoop notificationCenter (dequeueOne q).1 (dequeueOne q).2

/-- `PriorityNotificationQueue::wakeUpAll`. -/
def wakeUpAll (q : PriorityNotificationQueue) : PriorityNotificationQueue :=
  { q with heap := signalAll q._waitQueue q.heap, _waitQueue := [] }

/-- `PriorityNotificationQueue::empty`. -/
def empty (q : PriorityNotificationQueue) : Bool := q._nfQueue.isEmpty

/-- `PriorityNotificationQueue::size`. -/
def size (q : PriorityNotificationQueue) : Int := toInt q._nfQueue.length

/-- `PriorityNotificationQueue::clear`. -/
def clear (q : PriorityNotificationQueue) : PriorityNotificationQueue :=
  { q with _nfQueue := [] }

/-- `PriorityNotificationQueue::hasIdleThreads`. -/
def hasIdleThreads (q : PriorityNotificationQueue) : Bool := !q._waitQueue.isEmpty

/-- The atomic steps callers can take on a priority queue. -/
inductive Action where
  | enqueueNotification (pNotification : Ptr) (priority : Int)
  | dequeueNotification
  | waitDequeueNotification_enter (pWI : WaitInfoPtr)
  | waitDequeueNotification_signalled (pWI : WaitInfoPtr)
  | waitDequeueNotification_timeout (pWI : WaitInfoPtr)
  | dispatch
  | wakeUpAll
  | clear
deriving DecidableEq, Repr

/-- One atomic step.  `none` means the step cannot be taken in `q`: the caller is still
blocked, the address is not that of an allocated slot, or `new` cannot return an address
that is currently allocated.  An exception leaves the queue as it was. -/
def step (a : Action) (q : PriorityNotificationQueue) :
    Option (Outcome × PriorityNotificationQueue) :=
  match a with
  | .enqueueNotification p priority =>
    match enqueueNotification p priority q with
    | .ok q' => some (.accepted p, q')
    | .error e => some (.raised e, q)
  | .dequeueNotification => some (.returned (dequeueNotification q).1, (dequeueNotification q).2)
  | .waitDequeueNotification_enter pWI =>
    match waitDequeueNotification_enter pWI q with
    | (.returned pNf, q') => some (.returned pNf, q')
    | (.parked a, q') => if Heap.deref pWI q.heap = none then some (.parked a, q') else none
  | .waitDequeueNotification_signalled pWI =>
    (waitDequeueNotification_signalled pWI q).map fun r => (.returned r.1, r.2)
  | .waitDequeueNotification_timeout pWI =>
    (waitDequeueNotification_timeout pWI q).map fun r => (.returned r.1, r.2)
  | .dispatch => some (.posted (dispatch [] q).1, (dispatch [] q).2)
  | .wakeUpAll => some (.woken, wakeUpAll q)
  | .clear => some (.discarded (q._nfQueue.map Prod.snd), clear q)

/-- States reachable from the freshly constructed queue by atomic steps. -/
inductive Reachable : PriorityNotificationQueue → Prop where
  | init : Reachable new
  | step {q q' : PriorityNotificationQueue} {e : Outcome} (a : Action) :
      Reachable q → step a q = some (e, q') → Reachable q'

/-- Run a schedule of atomic steps, collecting the events; `none` if some step of the
schedule cannot be taken. -/
def run : List Action → PriorityNotificationQueue →
    Option (List Outcome × PriorityNotificationQueue)
  | [], q => some ([], q)
  | a :: rest, q =>
    match step a q with
    | none => none
    | some (e, q') =>
      match run rest q' with
      | none => none
      | some (es, q2) => some (e :: es, q2)

/-- The invariant of reachable states of a `PriorityNotificationQueue`. -/
structure Inv (q : PriorityNotificationQueue) : Prop where
  wait : WaitInv q._waitQueue q.heap
  storeEmpty : q._waitQueue ≠ [] → q._nfQueue = []
  noNull : ∀ e ∈ q._nfQueue, e.2 ≠ none
  sorted : q._nfQueue.Pairwise fun e₁ e₂ => e₁.1 ≤ e₂.1

/-- The items the queue currently holds: buffered ones, then those handed to slots. -/
def items (q : PriorityNotificationQueue) : List Notification :=
  nonNull (q._nfQueue.map Prod.snd) ++ q.heap.items

/-- Call `enqueueNotification` for each (priority, pointer) pair of the list in order;
stops at the first call that raises. -/
def enqueueAll : List (Int × Ptr) → PriorityNotificationQueue →
    Except Bugcheck PriorityNotificationQueue
  | [], q => .ok q
  | e :: rest, q =>
    match enqueueNotification e.2 e.1 q with
    | .ok q' => enqueueAll rest q'
    | .error err => .error err

/-- Call `dequeueNotification` `n` times, collecting the results in order. -/
def dequeueMany : Nat → PriorityNotificationQueue → List Ptr × PriorityNotificationQueue
  | 0, q => ([], q)
  | n + 1, q =>
    let r := dequeueNotification q
    let rs := dequeueMany n r.2
    (r.1 :: rs.1, rs.2)

end PriorityNotificationQueue

/-! ## Free store and wait queue lemmas -/

namespace Heap

theorem deref_cons (b k : WaitInfoPtr) (w : WaitInfo) (t : Heap) :
    deref b ((k, w) :: t) = if k = b then some w else deref b t := rfl

theorem deref_map (f : WaitInfoPtr → WaitInfo → WaitInfo) (b : WaitInfoPtr) (h : Heap) :
    deref b (h.map fun e => (e.1, f e.1 e.2)) = (deref b h).map (f b) := by
  induction h with
  | nil => rfl
  | cons e t ih =>
    obtain ⟨k, w⟩ := e
    rw [List.map_cons, deref_cons, deref_cons, ih]
    by_cases hk : k = b
    · subst hk; simp
    · simp [hk]

theorem setPNf_eq (a : WaitInfoPtr) (p : Ptr) (h : Heap) :
    setPNf a p h = h.map fun e => (e.1, if e.1 = a then { e.2 with pNf := p } else e.2) := by
  unfold setPNf
  apply List.map_congr_left
  intro e _
  split <;> rfl

theorem setEvent_eq (a : WaitInfoPtr) (h : Heap) :
    setEvent a h =
      h.map fun e => (e.1, if e.1 = a then { e.2 with nfAvailable := true } else e.2) := by
  unfold setEvent
  apply List.map_congr_left
  intro e _
  split <;> rfl

theorem deref_setPNf (a b : WaitInfoPtr) (p : Ptr) (h : Heap) :
    deref b (setPNf a p h) =
      if b = a then (deref a h).map (fun w => { w with pNf := p }) else deref b h := by
  rw [setPNf_eq, deref_map (fun k w => if k = a then { w with pNf := p } else w)]
  by_cases hb : b = a
  · subst hb; simp
  · simp [hb]

theorem deref_setEvent (a b : WaitInfoPtr) (h : Heap) :
    deref b (setEvent a h) =
      if b = a then (deref a h).map (fun w => { w with nfAvailable := true }) else deref b h := by
  rw [setEvent_eq, deref_map (fun k w => if k = a then { w with nfAvailable := true } else w)]
  by_cases hb : b = a
  · subst hb; simp
  · simp [hb]

theorem deref_free (a b : WaitInfoPtr) (h : Heap) :
    deref b (free a h) = if b = a then none else deref b h := by
  induction h with
  | nil => simp [free, deref]
  | cons e t ih =>
    obtain ⟨k, w⟩ := e
    unfold free at ih ⊢
    by_cases hk : k = a
    · subst hk
      rw [List.filter_cons_of_neg (by simp), ih, deref_cons]
      by_cases hb : b = k
      · simp [hb]
      · have hb' : ¬ k = b := fun h => hb h.symm
        simp [hb, hb']
    · rw [List.filter_cons_of_pos (by simpa using hk), deref_cons, deref_cons, ih]
      by_cases hb : b = a
      · subst hb; simp [hk]
      · simp [hb]

theorem deref_alloc (a b : WaitInfoPtr) (h : Heap) :
    deref b (alloc a h) =
      match deref b h with
      | some w => some w
      | none => if b = a then some { pNf := none, nfAvailable := false } else none := by
  induction h with
  | nil =>
    by_cases hb : b = a
    · subst hb; simp [alloc, deref]
    · have hb' : ¬ a = b := fun h => hb h.symm
      simp [alloc, deref, hb, hb']
  | cons e t ih =>
    obtain ⟨k, w⟩ := e
    unfold alloc at ih ⊢
    rw [List.cons_append, deref_cons, deref_cons, ih]
    by_cases hk : k = b
    · simp [hk]
    · simp [hk]

theorem deref_eq_none_iff (a : WaitInfoPtr) (h : Heap) :
    deref a h = none ↔ a ∉ h.map Prod.fst := by
  induction h with
  | nil => simp [deref]
  | cons e t ih =>
    obtain ⟨k, w⟩ := e
    rw [deref_cons]
    by_cases hk : k = a
    · subst hk; simp
    · have hk' : ¬ a = k := fun h => hk h.symm
      simp only [hk, if_false, ih, List.map_cons, List.mem_cons, hk', false_or]

theorem keys_setPNf (a : WaitInfoPtr) (p : Ptr) (h : Heap) :
    (setPNf a p h).map Prod.fst = h.map Prod.fst := by
  rw [setPNf_eq, List.map_map]; rfl

theorem keys_setEvent (a : WaitInfoPtr) (h : Heap) :
    (setEvent a h).map Prod.fst = h.map Prod.fst := by
  rw [setEvent_eq, List.map_map]; rfl

theorem keys_free (a : WaitInfoPtr) (h : Heap) :
    (free a h).map Prod.fst = (h.map Prod.fst).filter (fun k => k ≠ a) := by
  simp only [free, List.filter_map]
  rfl

theorem keys_alloc (a : WaitInfoPtr) (h : Heap) :
    (alloc a h).map Prod.fst = h.map Prod.fst ++ [a] := by
  simp [alloc]

end Heap

theorem deref_signalAll (l : List WaitInfoPtr) (b : WaitInfoPtr) (h : Heap) :
    Heap.deref b (signalAll l h) =
      if b ∈ l then (Heap.deref b h).map (fun w => { w with nfAvailable := true })
      else Heap.deref b h := by
  induction l generalizing h with
  | nil => simp [signalAll]
  | cons a t ih =>
    simp only [signalAll, ih, Heap.deref_setEvent, List.mem_cons]
    by_cases hb : b = a
    · subst hb
      by_cases ht : b ∈ t
      · simp [ht]; cases Heap.deref b h <;> simp
      · simp [ht]
    · simp [hb]

theorem keys_signalAll (l : List WaitInfoPtr) (h : Heap) :
    (signalAll l h).map Prod.fst = h.map Prod.fst := by
  induction l generalizing h with
  | nil => rfl
  | cons a t ih => simp only [signalAll, ih, Heap.keys_setEvent]

theorem mem_eraseFirst_of_ne {a b : WaitInfoPtr} {l : List WaitInfoPtr} (hne : b ≠ a) :
    b ∈ eraseFirst a l ↔ b ∈ l := by
  induction l with
  | nil => simp [eraseFirst]
  | cons c t ih =>
    unfold eraseFirst
    by_cases hc : c = a
    · subst hc; simp [hne]
    · simp [hc, ih]

theorem eraseFirst_eq_erase (a : WaitInfoPtr) (l : List WaitInfoPtr) :
    eraseFirst a l = l.erase a := by
  induction l with
  | nil => rfl
  | cons c t ih =>
    unfold eraseFirst
    by_cases hc : c = a
    · subst hc; simp
    · rw [List.erase_cons_tail (by simpa using hc), ih]; simp [hc]

namespace WaitInv

theorem init : WaitInv [] [] :=
  ⟨by simp, by simp, by simp, by intro a w h; simp [Heap.deref] at h⟩

/-- hand-off to the front slot -/
theorem handOff {a : WaitInfoPtr} {rest : List WaitInfoPtr} {h : Heap} (p : Ptr)
    (inv : WaitInv (a :: rest) h) :
    WaitInv rest (Heap.setEvent a (Heap.setPNf a p h)) := by
  have hnd := inv.waitNodup
  rw [List.nodup_cons] at hnd
  refine ⟨?_, hnd.2, ?_, ?_⟩
  · rw [Heap.keys_setEvent, Heap.keys_setPNf]; exact inv.keysNodup
  · intro b hb
    have hne : b ≠ a := fun e => hnd.1 (e ▸ hb)
    rw [Heap.deref_setEvent, if_neg hne, Heap.deref_setPNf, if_neg hne]
    exact inv.parked b (List.mem_cons_of_mem _ hb)
  · intro b w hw hb
    rw [Heap.deref_setEvent] at hw
    by_cases hba : b = a
    · subst hba
      rw [if_pos rfl] at hw
      cases hd : Heap.deref b (Heap.setPNf b p h) with
      | none => rw [hd] at hw; simp at hw
      | some w0 => rw [hd] at hw; simp at hw; rw [← hw]
    · rw [if_neg hba, Heap.deref_setPNf, if_neg hba] at hw
      exact inv.detached b w hw (by simp [hba, hb])

theorem park {a : WaitInfoPtr} {wq : List WaitInfoPtr} {h : Heap}
    (fresh : Heap.deref a h = none) (inv : WaitInv wq h) :
    WaitInv (wq ++ [a]) (Heap.alloc a h) := by
  have hnotin : a ∉ wq := fun hm => by
    have := inv.parked a hm
    rw [fresh] at this; cases this
  refine ⟨?_, ?_, ?_, ?_⟩
  · rw [Heap.keys_alloc]
    exact List.Nodup.append inv.keysNodup (List.nodup_singleton a)
      (by
        rw [List.disjoint_singleton]  
        exact (Heap.deref_eq_none_iff a h).1 fresh)
  · exact List.Nodup.append inv.waitNodup (List.nodup_singleton a)
      (by rw [List.disjoint_singleton]; exact hnotin)
  · intro b hb
    rw [Heap.deref_alloc]
    rcases List.mem_append.1 hb with hb | hb
    · rw [inv.parked b hb]
    · have : b = a := by simpa using hb
      subst this
      rw [fresh]; simp
  · intro b w hw hb
    rw [Heap.deref_alloc] at hw
    have hb1 : b ∉ wq := fun hm => hb (List.mem_append_left _ hm)
    have hb2 : b ≠ a := fun e => hb (by simp [e])
    cases hd : Heap.deref b h with
    | none => rw [hd] at hw; simp [hb2] at hw
    | some w0 =>
      rw [hd] at hw
      simp at hw
      subst hw
      exact inv.detached b w0 hd hb1

theorem notMem_of_signalled {a : WaitInfoPtr} {wq : List WaitInfoPtr} {h : Heap} {w : WaitInfo}
    (inv : WaitInv wq h) (hd : Heap.deref a h = some w) (hs : w.nfAvailable = true) :
    a ∉ wq := by
  intro hm
  have := inv.parked a hm
  rw [hd] at this
  simp at this
  subst this
  simp at hs

theorem free_of_notMem {a : WaitInfoPtr} {wq : List WaitInfoPtr} {h : Heap}
    (inv : WaitInv wq h) (hm : a ∉ wq) : WaitInv wq (Heap.free a h) := by
  refine ⟨?_, inv.waitNodup, ?_, ?_⟩
  · rw [Heap.keys_free]; exact inv.keysNodup.filter _
  · intro b hb
    have hne : b ≠ a := fun e => hm (e ▸ hb)
    rw [Heap.deref_free, if_neg hne]
    exact inv.parked b hb
  · intro b w hw hb
    rw [Heap.deref_free] at hw
    by_cases hba : b = a
    · rw [if_pos hba] at hw; cases hw
    · rw [if_neg hba] at hw
      exact inv.detached b w hw hb

theorem timeout {wq : List WaitInfoPtr} {h : Heap} (a : WaitInfoPtr) (inv : WaitInv wq h) :
    WaitInv (eraseFirst a wq) (Heap.free a h) := by
  have hnot : a ∉ eraseFirst a wq := by
    rw [eraseFirst_eq_erase]
    exact fun hm => (List.Nodup.mem_erase_iff inv.waitNodup).1 hm |>.1 rfl
  refine ⟨?_, ?_, ?_, ?_⟩
  · rw [Heap.keys_free]; exact inv.keysNodup.filter _
  · rw [eraseFirst_eq_erase]; exact inv.waitNodup.erase a
  · intro b hb
    have hne : b ≠ a := fun e => hnot (e ▸ hb)
    rw [Heap.deref_free, if_neg hne]
    exact inv.parked b ((mem_eraseFirst_of_ne hne).1 hb)
  · intro b w hw hb
    rw [Heap.deref_free] at hw
    by_cases hba : b = a
    · rw [if_pos hba] at hw; cases hw
    · rw [if_neg hba] at hw
      exact inv.detached b w hw (fun hm => hb ((mem_eraseFirst_of_ne hba).2 hm))

theorem wakeUpAll {wq : List WaitInfoPtr} {h : Heap} (inv : WaitInv wq h) :
    WaitInv [] (signalAll wq h) := by
  refine ⟨?_, List.nodup_nil, ?_, ?_⟩
  · rw [keys_signalAll]; exact inv.keysNodup
  · intro b hb; cases hb
  · intro b w hw _
    rw [deref_signalAll] at hw
    by_cases hb : b ∈ wq
    · rw [if_pos hb, inv.parked b hb] at hw
      simp at hw; rw [← hw]
    · rw [if_neg hb] at hw
      exact inv.detached b w hw hb

end WaitInv


namespace NotificationQueue

theorem nq_dispatchLoop_none (nc : NotificationCenter) (q : NotificationQueue) :
    dispatchLoop nc none q = (nc, q) := by
  rw [dispatchLoop]

theorem nq_dispatchLoop_some (nc : NotificationCenter) (n : Notification) (q : NotificationQueue) :
    dispatchLoop nc (some n) q =
      dispatchLoop (nc.postNotification (some n)) (dequeueOne q).1 (dequeueOne q).2 := by
  rw [dispatchLoop]

theorem nq_dispatchLoop_eq (store : List Ptr) (wq : List WaitInfoPtr) (h : Heap)
    (nc : NotificationCenter) (n : Notification) :
    dispatchLoop nc (some n) ⟨store, wq, h⟩ =
      (nc ++ some n :: store.takeWhile Option.isSome,
        ⟨(store.dropWhile Option.isSome).tail, wq, h⟩) := by
  induction store generalizing nc n with
  | nil =>
    rw [nq_dispatchLoop_some]
    simp [dequeueOne, nq_dispatchLoop_none, NotificationCenter.postNotification]
  | cons p t ih =>
    rw [nq_dispatchLoop_some]
    cases p with
    | none =>
      simp [dequeueOne, nq_dispatchLoop_none, NotificationCenter.postNotification]
    | some m =>
      simp only [dequeueOne, ih, NotificationCenter.postNotification]
      simp

theorem nq_dispatch_eq (nc : NotificationCenter) (q : NotificationQueue) :
    dispatch nc q =
      (nc ++ q._nfQueue.takeWhile Option.isSome,
        { q with _nfQueue := (q._nfQueue.dropWhile Option.isSome).tail }) := by
  obtain ⟨store, wq, h⟩ := q
  unfold dispatch
  cases store with
  | nil => simp [dequeueOne, nq_dispatchLoop_none]
  | cons p t =>
    cases p with
    | none => simp [dequeueOne, nq_dispatchLoop_none]
    | some m => simp [dequeueOne, nq_dispatchLoop_eq]

theorem nq_takeWhile_isSome_of_noNull {l : List Ptr} (h : none ∉ l) :
    l.takeWhile Option.isSome = l := by
  rw [List.takeWhile_eq_self_iff]
  intro x hx
  cases x with
  | none => exact absurd hx h
  | some _ => rfl

theorem nq_dropWhile_isSome_of_noNull {l : List Ptr} (h : none ∉ l) :
    l.dropWhile Option.isSome = [] := by
  rw [List.dropWhile_eq_nil_iff]
  intro x hx
  cases x with
  | none => exact absurd hx h
  | some _ => rfl

theorem nq_inv_new : Inv new := ⟨WaitInv.init, by simp [NotificationQueue.new], by simp [NotificationQueue.new]⟩

theorem nq_inv_step {q q' : NotificationQueue} {a : Action} {e : Outcome}
    (inv : Inv q) (hs : step a q = some (e, q')) : Inv q' := by
  obtain ⟨store, wq, h⟩ := q
  obtain ⟨hw, hse, hnn⟩ := inv
  simp only at hw hse hnn
  cases a with
  | enqueueNotification p =>
    simp only [NotificationQueue.step, enqueueNotification] at hs
    cases p with
    | none => simp at hs; rw [← hs.2]; exact ⟨hw, hse, hnn⟩
    | some n =>
      cases wq with
      | nil =>
        simp at hs
        rw [← hs.2]
        exact ⟨hw, by simp, by simpa using hnn⟩
      | cons a rest =>
        simp at hs
        rw [← hs.2]
        refine ⟨hw.handOff _, fun _ => hse (by simp), hnn⟩
  | enqueueUrgentNotification p =>
    simp only [NotificationQueue.step, enqueueUrgentNotification] at hs
    cases p with
    | none => simp at hs; rw [← hs.2]; exact ⟨hw, hse, hnn⟩
    | some n =>
      cases wq with
      | nil =>
        simp at hs
        rw [← hs.2]
        exact ⟨hw, by simp, by simpa using hnn⟩
      | cons a rest =>
        simp at hs
        rw [← hs.2]
        refine ⟨hw.handOff _, fun _ => hse (by simp), hnn⟩
  | dequeueNotification =>
    simp only [NotificationQueue.step, dequeueNotification, dequeueOne] at hs
    cases store with
    | nil => simp at hs; rw [← hs.2]; exact ⟨hw, hse, hnn⟩
    | cons p t =>
      simp at hs
      rw [← hs.2]
      refine ⟨hw, fun hne => ?_, fun hm => hnn (List.mem_cons_of_mem _ hm)⟩
      have := hse hne
      simp at this
  | waitDequeueNotification_enter pWI =>
    simp only [NotificationQueue.step, waitDequeueNotification_enter, dequeueOne] at hs
    cases store with
    | nil =>
      simp at hs
      obtain ⟨hfresh, -, hq⟩ := hs
      rw [← hq]
      exact ⟨hw.park hfresh, fun _ => rfl, hnn⟩
    | cons p t =>
      cases p with
      | none => simp at hnn
      | some n =>
        simp at hs
        rw [← hs.2]
        refine ⟨hw, fun hne => ?_, fun hm => hnn (List.mem_cons_of_mem _ hm)⟩
        have := hse hne
        simp at this
  | waitDequeueNotification_signalled pWI =>
    simp only [NotificationQueue.step, waitDequeueNotification_signalled] at hs
    cases hd : Heap.deref pWI h with
    | none => rw [hd] at hs; simp at hs
    | some w =>
      rw [hd] at hs
      by_cases hsig : w.nfAvailable = true
      · simp [hsig] at hs
        rw [← hs.2]
        exact ⟨hw.free_of_notMem (hw.notMem_of_signalled hd hsig), hse, hnn⟩
      · simp [hsig] at hs
  | waitDequeueNotification_timeout pWI =>
    simp only [NotificationQueue.step, waitDequeueNotification_timeout] at hs
    cases hd : Heap.deref pWI h with
    | none => rw [hd] at hs; simp at hs
    | some w =>
      rw [hd] at hs
      simp at hs
      rw [← hs.2]
      refine ⟨hw.timeout pWI, fun hne => hse ?_, hnn⟩
      intro hnil
      rw [hnil] at hne
      exact hne rfl
  | dispatch =>
    simp only [NotificationQueue.step, nq_dispatch_eq] at hs
    simp at hs
    rw [← hs.2]
    refine ⟨hw, fun _ => ?_, ?_⟩
    · simp [nq_dropWhile_isSome_of_noNull hnn]
    · simp [nq_dropWhile_isSome_of_noNull hnn]
  | wakeUpAll =>
    simp only [NotificationQueue.step, wakeUpAll] at hs
    simp at hs
    rw [← hs.2]
    exact ⟨hw.wakeUpAll, fun hne => absurd rfl hne, hnn⟩
  | clear =>
    simp only [NotificationQueue.step, clear] at hs
    simp at hs
    rw [← hs.2]
    exact ⟨hw, fun _ => rfl, by simp⟩

theorem nq_inv_of_reachable {q : NotificationQueue} (hr : Reachable q) : Inv q := by
  induction hr with
  | init => exact nq_inv_new
  | step a _ hs ih => exact nq_inv_step ih hs

end NotificationQueue

/-! ## Priority flavor: multimap and invariant -/

theorem multimapInsert_perm (k : Int) (p : Ptr) (l : List (Int × Ptr)) :
    List.Perm (multimapInsert k p l) ((k, p) :: l) := by
  induction l with
  | nil => exact List.Perm.refl _
  | cons e t ih =>
    unfold multimapInsert
    split
    · exact List.Perm.refl _
    · exact (List.Perm.cons e ih).trans (List.Perm.swap _ _ _)

theorem multimapInsert_sorted (k : Int) (p : Ptr) (l : List (Int × Ptr))
    (hs : l.Pairwise fun e₁ e₂ => e₁.1 ≤ e₂.1) :
    (multimapInsert k p l).Pairwise fun e₁ e₂ => e₁.1 ≤ e₂.1 := by
  induction l with
  | nil => simp [multimapInsert]
  | cons e t ih =>
    rw [List.pairwise_cons] at hs
    unfold multimapInsert
    split
    · rename_i hlt
      refine List.Pairwise.cons ?_ (List.Pairwise.cons hs.1 hs.2)
      intro x hx
      rcases List.mem_cons.1 hx with hx | hx
      · subst hx; exact le_of_lt hlt
      · exact le_trans (le_of_lt hlt) (hs.1 x hx)
    · rename_i hge
      refine List.Pairwise.cons ?_ (ih hs.2)
      intro x hx
      rcases List.mem_cons.1 ((multimapInsert_perm k p t).mem_iff.1 hx) with hx | hx
      · subst hx; exact not_lt.1 hge
      · exact hs.1 x hx

namespace PriorityNotificationQueue

theorem pnq_dispatchLoop_none (nc : NotificationCenter) (q : PriorityNotificationQueue) :
    dispatchLoop nc none q = (nc, q) := by
  rw [dispatchLoop]

theorem pnq_dispatchLoop_some (nc : NotificationCenter) (n : Notification)
    (q : PriorityNotificationQueue) :
    dispatchLoop nc (some n) q =
      dispatchLoop (nc.postNotification (some n)) (dequeueOne q).1 (dequeueOne q).2 := by
  rw [dispatchLoop]

theorem pnq_dispatchLoop_eq (store : List (Int × Ptr)) (wq : List WaitInfoPtr) (h : Heap)
    (nc : NotificationCenter) (n : Notification) :
    dispatchLoop nc (some n) ⟨store, wq, h⟩ =
      (nc ++ some n :: (store.map Prod.snd).takeWhile Option.isSome,
        ⟨(store.dropWhile fun e => e.2.isSome).tail, wq, h⟩) := by
  induction store generalizing nc n with
  | nil =>
    rw [pnq_dispatchLoop_some]
    simp [dequeueOne, pnq_dispatchLoop_none, NotificationCenter.postNotification]
  | cons e t ih =>
    obtain ⟨k, p⟩ := e
    rw [pnq_dispatchLoop_some]
    cases p with
    | none =>
      simp [dequeueOne, pnq_dispatchLoop_none, NotificationCenter.postNotification]
    | some m =>
      simp only [dequeueOne, ih, NotificationCenter.postNotification]
      simp

theorem pnq_dispatch_eq (nc : NotificationCenter) (q : PriorityNotificationQueue) :
    dispatch nc q =
      (nc ++ (q._nfQueue.map Prod.snd).takeWhile Option.isSome,
        { q with _nfQueue := (q._nfQueue.dropWhile fun e => e.2.isSome).tail }) := by
  obtain ⟨store, wq, h⟩ := q
  unfold dispatch
  cases store with
  | nil => simp [dequeueOne, pnq_dispatchLoop_none]
  | cons e t =>
    obtain ⟨k, p⟩ := e
    cases p with
    | none => simp [dequeueOne, pnq_dispatchLoop_none]
    | some m => simp [dequeueOne, pnq_dispatchLoop_eq]

theorem pnq_dropWhile_isSome_of_noNull {l : List (Int × Ptr)} (h : ∀ e ∈ l, e.2 ≠ none) :
    (l.dropWhile fun e => e.2.isSome) = [] := by
  rw [List.dropWhile_eq_nil_iff]
  intro x hx
  have := h x hx
  cases hx2 : x.2 with
  | none => exact absurd hx2 this
  | some _ => rfl

theorem pnq_takeWhile_isSome_of_noNull {l : List (Int × Ptr)} (h : ∀ e ∈ l, e.2 ≠ none) :
    (l.map Prod.snd).takeWhile Option.isSome = l.map Prod.snd := by
  rw [List.takeWhile_eq_self_iff]
  intro x hx
  obtain ⟨e, he, rfl⟩ := List.mem_map.1 hx
  have := h e he
  cases hx2 : e.2 with
  | none => exact absurd hx2 this
  | some _ => rfl

theorem pnq_inv_new : Inv new :=
  ⟨WaitInv.init, by simp [PriorityNotificationQueue.new],
    by simp [PriorityNotificationQueue.new], by simp [PriorityNotificationQueue.new]⟩

theorem pnq_inv_step {q q' : PriorityNotificationQueue} {a : Action} {e : Outcome}
    (inv : Inv q) (hs : step a q = some (e, q')) : Inv q' := by
  obtain ⟨store, wq, h⟩ := q
  obtain ⟨hw, hse, hnn, hso⟩ := inv
  simp only at hw hse hnn hso
  cases a with
  | enqueueNotification p prio =>
    simp only [PriorityNotificationQueue.step, enqueueNotification] at hs
    cases p with
    | none => simp at hs; rw [← hs.2]; exact ⟨hw, hse, hnn, hso⟩
    | some n =>
      cases wq with
      | nil =>
        simp at hs
        rw [← hs.2]
        refine ⟨hw, by simp, ?_, multimapInsert_sorted _ _ _ hso⟩
        intro e he
        rcases List.mem_cons.1 ((multimapInsert_perm _ _ _).mem_iff.1 he) with he | he
        · subst he; simp
        · exact hnn e he
      | cons a rest =>
        have hem : store = [] := hse (by simp)
        subst hem
        simp at hs
        rw [← hs.2]
        refine ⟨hw.handOff _, fun _ => rfl, hnn, hso⟩
  | dequeueNotification =>
    simp only [PriorityNotificationQueue.step, dequeueNotification, dequeueOne] at hs
    cases store with
    | nil => simp at hs; rw [← hs.2]; exact ⟨hw, hse, hnn, hso⟩
    | cons p t =>
      simp at hs
      rw [← hs.2]
      refine ⟨hw, fun hne => ?_, fun e hm => hnn e (List.mem_cons_of_mem _ hm),
        (List.pairwise_cons.1 hso).2⟩
      have := hse hne
      simp at this
  | waitDequeueNotification_enter pWI =>
    simp only [PriorityNotificationQueue.step, waitDequeueNotification_enter, dequeueOne] at hs
    cases store with
    | nil =>
      simp at hs
      obtain ⟨hfresh, -, hq⟩ := hs
      rw [← hq]
      exact ⟨hw.park hfresh, fun _ => rfl, hnn, hso⟩
    | cons e t =>
      obtain ⟨k, p⟩ := e
      cases p with
      | none => simpa using hnn (k, none) (by simp)
      | some n =>
        simp at hs
        rw [← hs.2]
        refine ⟨hw, fun hne => ?_, fun e hm => hnn e (List.mem_cons_of_mem _ hm),
          (List.pairwise_cons.1 hso).2⟩
        have := hse hne
        simp at this
  | waitDequeueNotification_signalled pWI =>
    simp only [PriorityNotificationQueue.step, waitDequeueNotification_signalled] at hs
    cases hd : Heap.deref pWI h with
    | none => rw [hd] at hs; simp at hs
    | some w =>
      rw [hd] at hs
      by_cases hsig : w.nfAvailable = true
      · simp [hsig] at hs
        rw [← hs.2]
        exact ⟨hw.free_of_notMem (hw.notMem_of_signalled hd hsig), hse, hnn, hso⟩
      · simp [hsig] at hs
  | waitDequeueNotification_timeout pWI =>
    simp only [PriorityNotificationQueue.step, waitDequeueNotification_timeout] at hs
    cases hd : Heap.deref pWI h with
    | none => rw [hd] at hs; simp at hs
    | some w =>
      rw [hd] at hs
      simp at hs
      rw [← hs.2]
      refine ⟨hw.timeout pWI, fun hne => hse ?_, hnn, hso⟩
      intro hnil
      rw [hnil] at hne
      exact hne rfl
  | dispatch =>
    simp only [PriorityNotificationQueue.step, pnq_dispatch_eq] at hs
    simp at hs
    rw [← hs.2]
    refine ⟨hw, fun _ => ?_, ?_, ?_⟩
    · simp [pnq_dropWhile_isSome_of_noNull hnn]
    · simp [pnq_dropWhile_isSome_of_noNull hnn]
    · simp [pnq_dropWhile_isSome_of_noNull hnn]
  | wakeUpAll =>
    simp only [PriorityNotificationQueue.step, wakeUpAll] at hs
    simp at hs
    rw [← hs.2]
    exact ⟨hw.wakeUpAll, fun hne => absurd rfl hne, hnn, hso⟩
  | clear =>
    simp only [PriorityNotificationQueue.step, clear] at hs
    simp at hs
    rw [← hs.2]
    exact ⟨hw, fun _ => rfl, by simp, by simp⟩

theorem pnq_inv_of_reachable {q : PriorityNotificationQueue} (hr : Reachable q) : Inv q := by
  induction hr with
  | init => exact pnq_inv_new
  | step a _ hs ih => exact pnq_inv_step ih hs

end PriorityNotificationQueue

/-! ## Accounting of items -/

namespace Heap

theorem items_cons (k : WaitInfoPtr) (w : WaitInfo) (t : Heap) :
    items ((k, w) :: t) = nonNull [w.pNf] ++ items t := by
  cases hw : w.pNf <;> simp [items, nonNull, List.filterMap_cons, hw]

theorem items_setEvent (a : WaitInfoPtr) (h : Heap) : (setEvent a h).items = h.items := by
  induction h with
  | nil => rfl
  | cons e t ih =>
    obtain ⟨k, w⟩ := e
    unfold setEvent at ih ⊢
    rw [List.map_cons]
    by_cases hk : k = a
    · simp only [hk, if_true]; rw [items_cons, items_cons, ih]
    · simp only [hk, if_false]; rw [items_cons, items_cons, ih]

theorem items_alloc (a : WaitInfoPtr) (h : Heap) : (alloc a h).items = h.items := by
  simp [alloc, items, List.filterMap_append]

theorem setPNf_of_not_mem (a : WaitInfoPtr) (p : Ptr) (h : Heap)
    (hn : a ∉ h.map Prod.fst) : setPNf a p h = h := by
  unfold setPNf
  conv_rhs => rw [← List.map_id h]
  apply List.map_congr_left
  intro e he
  have : e.1 ≠ a := fun heq => hn (heq ▸ List.mem_map_of_mem Prod.fst he)
  simp [this]

theorem free_of_not_mem (a : WaitInfoPtr) (h : Heap)
    (hn : a ∉ h.map Prod.fst) : free a h = h := by
  unfold free
  rw [List.filter_eq_self]
  intro e he
  have : e.1 ≠ a := fun heq => hn (heq ▸ List.mem_map_of_mem Prod.fst he)
  simpa using this

/-- Writing an item into an empty slot adds exactly that item. -/
theorem items_setPNf (a : WaitInfoPtr) (n : Notification) (h : Heap) (b : Bool)
    (hk : (h.map Prod.fst).Nodup) (hd : deref a h = some { pNf := none, nfAvailable := b }) :
    List.Perm (setPNf a (some n) h).items (n :: h.items) := by
  induction h with
  | nil => simp [deref] at hd
  | cons e t ih =>
    obtain ⟨k, w⟩ := e
    rw [List.map_cons, List.nodup_cons] at hk
    rw [deref_cons] at hd
    by_cases hka : k = a
    · subst hka
      simp only [if_true, Option.some.injEq] at hd
      subst hd
      have h1 : setPNf k (some n) ((k, { pNf := none, nfAvailable := b }) :: t) =
          (k, { pNf := some n, nfAvailable := b }) :: setPNf k (some n) t := by
        simp [setPNf]
      rw [h1, setPNf_of_not_mem k _ t hk.1, items_cons, items_cons]
      simp [nonNull]
    · rw [if_neg hka] at hd
      have h1 : setPNf a (some n) ((k, w) :: t) = (k, w) :: setPNf a (some n) t := by
        simp [setPNf, hka]
      rw [h1, items_cons, items_cons]
      exact (List.Perm.append_left _ (ih hk.2 hd)).trans List.perm_middle

/-- Deleting a slot removes exactly what its item field held. -/
theorem items_free (a : WaitInfoPtr) (w : WaitInfo) (h : Heap)
    (hk : (h.map Prod.fst).Nodup) (hd : deref a h = some w) :
    List.Perm h.items (nonNull [w.pNf] ++ (free a h).items) := by
  induction h with
  | nil => simp [deref] at hd
  | cons e t ih =>
    obtain ⟨k, w0⟩ := e
    rw [List.map_cons, List.nodup_cons] at hk
    rw [deref_cons] at hd
    by_cases hka : k = a
    · subst hka
      simp only [if_true, Option.some.injEq] at hd
      subst hd
      have h1 : free k ((k, w0) :: t) = free k t := by
        simp [free]
      rw [h1, free_of_not_mem k t hk.1, items_cons]
    · rw [if_neg hka] at hd
      have h1 : free a ((k, w0) :: t) = (k, w0) :: free a t := by
        simp [free, hka]
      rw [h1, items_cons, items_cons]
      refine (List.Perm.append_left _ (ih hk.2 hd)).trans ?_
      rw [← List.append_assoc, ← List.append_assoc]
      exact List.Perm.append_right _ List.perm_append_comm

end Heap

theorem items_signalAll (l : List WaitInfoPtr) (h : Heap) :
    (signalAll l h).items = h.items := by
  induction l generalizing h with
  | nil => rfl
  | cons a t ih => simp only [signalAll, ih, Heap.items_setEvent]

theorem nonNull_append (l₁ l₂ : List Ptr) : nonNull (l₁ ++ l₂) = nonNull l₁ ++ nonNull l₂ := by
  simp [nonNull, List.filterMap_append]

theorem nonNull_cons_some (n : Notification) (l : List Ptr) :
    nonNull (some n :: l) = n :: nonNull l := by
  simp [nonNull]

theorem nonNull_cons_none (l : List Ptr) : nonNull (none :: l) = nonNull l := by
  simp [nonNull]

theorem nonNull_takeWhile_dropWhile (l : List Ptr) :
    nonNull l = nonNull (l.takeWhile Option.isSome) ++ nonNull (l.dropWhile Option.isSome).tail := by
  induction l with
  | nil => rfl
  | cons p t ih =>
    cases p with
    | none => simp [nonNull]
    | some n => simp [nonNull] at ih ⊢; exact ih

/-- hand-off part of the accounting -/
theorem WaitInv.items_handOff {a : WaitInfoPtr} {rest : List WaitInfoPtr} {h : Heap}
    (n : Notification) (inv : WaitInv (a :: rest) h) :
    List.Perm (Heap.setEvent a (Heap.setPNf a (some n) h)).items (n :: h.items) := by
  rw [Heap.items_setEvent]
  exact Heap.items_setPNf a n h false inv.keysNodup (inv.parked a (by simp))

namespace NotificationQueue

/-- Conservation of items across one step. -/
theorem nq_step_items {q q' : NotificationQueue} {a : Action} {e : Outcome}
    (inv : Inv q) (hs : step a q = some (e, q')) :
    List.Perm (e.acceptedItems ++ q.items) (q'.items ++ (e.returnedItems ++ e.droppedItems)) := by
  obtain ⟨store, wq, h⟩ := q
  obtain ⟨hw, hse, hnn⟩ := inv
  simp only at hw hse hnn
  cases a with
  | enqueueNotification p =>
    simp only [NotificationQueue.step, enqueueNotification] at hs
    cases p with
    | none =>
      simp at hs; rw [← hs.1, ← hs.2]
      simp [Outcome.acceptedItems, Outcome.returnedItems, Outcome.droppedItems]
    | some n =>
      cases wq with
      | nil =>
        simp at hs
        rw [← hs.1, ← hs.2]
        simp only [Outcome.acceptedItems, Outcome.returnedItems, Outcome.droppedItems, items,
          nonNull_append, nonNull_cons_some, List.append_nil]
        simp only [nonNull, List.filterMap_nil, List.singleton_append, List.append_assoc]
        exact List.perm_middle.symm
      | cons a rest =>
        simp at hs
        rw [← hs.1, ← hs.2]
        simp only [Outcome.acceptedItems, Outcome.returnedItems, Outcome.droppedItems, items,
          nonNull_cons_some, List.append_nil]
        simp only [nonNull, List.filterMap_nil, List.singleton_append]
        exact ((List.Perm.append_left _ (hw.items_handOff n)).trans List.perm_middle).symm
  | enqueueUrgentNotification p =>
    simp only [NotificationQueue.step, enqueueUrgentNotification] at hs
    cases p with
    | none =>
      simp at hs; rw [← hs.1, ← hs.2]
      simp [Outcome.acceptedItems, Outcome.returnedItems, Outcome.droppedItems]
    | some n =>
      cases wq with
      | nil =>
        simp at hs
        rw [← hs.1, ← hs.2]
        simp [Outcome.acceptedItems, Outcome.returnedItems, Outcome.droppedItems, items,
          nonNull]
      | cons a rest =>
        simp at hs
        rw [← hs.1, ← hs.2]
        simp only [Outcome.acceptedItems, Outcome.returnedItems, Outcome.droppedItems, items,
          nonNull_cons_some, List.append_nil]
        simp only [nonNull, List.filterMap_nil, List.singleton_append]
        exact ((List.Perm.append_left _ (hw.items_handOff n)).trans List.perm_middle).symm
  | dequeueNotification =>
    simp only [NotificationQueue.step, dequeueNotification, dequeueOne] at hs
    cases store with
    | nil =>
      simp at hs; rw [← hs.1, ← hs.2]
      simp [Outcome.acceptedItems, Outcome.returnedItems, Outcome.droppedItems, Ptr.duplicate, nonNull]
    | cons p t =>
      simp at hs
      rw [← hs.1, ← hs.2]
      cases p with
      | none =>
        simp [Outcome.acceptedItems, Outcome.returnedItems, Outcome.droppedItems, Ptr.duplicate,
          nonNull, items]
      | some n =>
        simp only [Outcome.acceptedItems, Outcome.returnedItems, Outcome.droppedItems, Ptr.duplicate,
          items, nonNull_cons_some, List.nil_append, List.append_nil]
        simp only [nonNull_cons_none, nonNull, List.filterMap_nil]
        rw [List.perm_iff_count]
        intro x
        simp only [List.count_append, List.count_cons, List.count_nil]
        omega
  | waitDequeueNotification_enter pWI =>
    simp only [NotificationQueue.step, waitDequeueNotification_enter, dequeueOne] at hs
    cases store with
    | nil =>
      simp at hs
      obtain ⟨hfresh, he, hq⟩ := hs
      rw [← hq, ← he]
      simp [Outcome.acceptedItems, Outcome.returnedItems, Outcome.droppedItems, items,
        Heap.items_alloc]
    | cons p t =>
      cases p with
      | none => simp at hnn
      | some n =>
        simp at hs
        rw [← hs.1, ← hs.2]
        simp only [Outcome.acceptedItems, Outcome.returnedItems, Outcome.droppedItems, Ptr.duplicate,
          items, nonNull_cons_some, List.nil_append, List.append_nil]
        simp only [nonNull_cons_none, nonNull, List.filterMap_nil]
        rw [List.perm_iff_count]
        intro x
        simp only [List.count_append, List.count_cons, List.count_nil]
        omega
  | waitDequeueNotification_signalled pWI =>
    simp only [NotificationQueue.step, waitDequeueNotification_signalled] at hs
    cases hd : Heap.deref pWI h with
    | none => rw [hd] at hs; simp at hs
    | some w =>
      rw [hd] at hs
      by_cases hsig : w.nfAvailable = true
      · simp [hsig] at hs
        rw [← hs.1, ← hs.2]
        simp only [Outcome.acceptedItems, Outcome.returnedItems, Outcome.droppedItems, Ptr.duplicate,
          items, List.nil_append, List.append_nil]
        refine (List.Perm.append_left _ (Heap.items_free pWI w h hw.keysNodup hd)).trans ?_
        refine (List.Perm.append_left _ List.perm_append_comm).trans ?_
        rw [List.append_assoc]
      · simp [hsig] at hs
  | waitDequeueNotification_timeout pWI =>
    simp only [NotificationQueue.step, waitDequeueNotification_timeout] at hs
    cases hd : Heap.deref pWI h with
    | none => rw [hd] at hs; simp at hs
    | some w =>
      rw [hd] at hs
      simp at hs
      rw [← hs.1, ← hs.2]
      simp only [Outcome.acceptedItems, Outcome.returnedItems, Outcome.droppedItems, Ptr.duplicate,
        items, List.nil_append, List.append_nil]
      refine (List.Perm.append_left _ (Heap.items_free pWI w h hw.keysNodup hd)).trans ?_
      refine (List.Perm.append_left _ List.perm_append_comm).trans ?_
      rw [List.append_assoc]
  | dispatch =>
    simp only [NotificationQueue.step, nq_dispatch_eq] at hs
    simp at hs
    rw [← hs.1, ← hs.2]
    simp only [Outcome.acceptedItems, Outcome.returnedItems, Outcome.droppedItems,
      items, List.nil_append, List.append_nil]
    rw [nonNull_takeWhile_dropWhile store, List.perm_iff_count]
    intro x
    simp only [List.count_append, List.count_cons, List.count_nil]
    omega
  | wakeUpAll =>
    simp only [NotificationQueue.step, wakeUpAll] at hs
    simp at hs
    rw [← hs.1, ← hs.2]
    simp [Outcome.acceptedItems, Outcome.returnedItems, Outcome.droppedItems, items, items_signalAll]
  | clear =>
    simp only [NotificationQueue.step, clear] at hs
    simp at hs
    rw [← hs.1, ← hs.2]
    simp only [Outcome.acceptedItems, Outcome.returnedItems, Outcome.droppedItems,
      items, List.nil_append, List.append_nil]
    simp only [nonNull, List.filterMap_nil, List.nil_append]
    exact List.perm_append_comm

end NotificationQueue
theorem map_snd_tail_dropWhile (l : List (Int × Ptr)) :
    ((l.map Prod.snd).dropWhile Option.isSome).tail =
      ((l.dropWhile fun e => e.2.isSome).tail).map Prod.snd := by
  induction l with
  | nil => rfl
  | cons e t ih =>
    obtain ⟨k, p⟩ := e
    cases p with
    | none => simp
    | some n => simpa using ih

theorem nonNull_perm {l₁ l₂ : List Ptr} (h : List.Perm l₁ l₂) :
    List.Perm (nonNull l₁) (nonNull l₂) :=
  h.filterMap id

namespace PriorityNotificationQueue

/-- Conservation of items across one step. -/
theorem pnq_step_items {q q' : PriorityNotificationQueue} {a : Action} {e : Outcome}
    (inv : Inv q) (hs : step a q = some (e, q')) :
    List.Perm (e.acceptedItems ++ q.items) (q'.items ++ (e.returnedItems ++ e.droppedItems)) := by
  obtain ⟨store, wq, h⟩ := q
  obtain ⟨hw, hse, hnn, hso⟩ := inv
  simp only at hw hse hnn hso
  cases a with
  | enqueueNotification p prio =>
    simp only [PriorityNotificationQueue.step, enqueueNotification] at hs
    cases p with
    | none =>
      simp at hs; rw [← hs.1, ← hs.2]
      simp [Outcome.acceptedItems, Outcome.returnedItems, Outcome.droppedItems]
    | some n =>
      cases wq with
      | nil =>
        simp at hs
        rw [← hs.1, ← hs.2]
        have hp := nonNull_perm ((multimapInsert_perm prio (some n) store).map Prod.snd)
        simp only [List.map_cons, nonNull_cons_some] at hp
        simp only [Outcome.acceptedItems, Outcome.returnedItems, Outcome.droppedItems, items,
          nonNull_cons_some, List.append_nil]
        simp only [nonNull_cons_none, nonNull, List.filterMap_nil] at hp ⊢
        rw [List.perm_iff_count] at hp ⊢
        intro x
        have := hp x
        simp only [List.count_append, List.count_cons, List.count_nil] at this ⊢
        omega
      | cons a rest =>
        have hem : store = [] := hse (by simp)
        subst hem
        simp at hs
        rw [← hs.1, ← hs.2]
        simp only [Outcome.acceptedItems, Outcome.returnedItems, Outcome.droppedItems, items,
          nonNull_cons_some, List.append_nil]
        simp only [nonNull, List.filterMap_nil, List.singleton_append, List.map_nil,
          List.nil_append]
        exact (hw.items_handOff n).symm
  | dequeueNotification =>
    simp only [PriorityNotificationQueue.step, dequeueNotification, dequeueOne] at hs
    cases store with
    | nil =>
      simp at hs; rw [← hs.1, ← hs.2]
      simp [Outcome.acceptedItems, Outcome.returnedItems, Outcome.droppedItems, Ptr.duplicate, nonNull]
    | cons e0 t =>
      obtain ⟨k, p⟩ := e0
      simp at hs
      rw [← hs.1, ← hs.2]
      cases p with
      | none =>
        simp [Outcome.acceptedItems, Outcome.returnedItems, Outcome.droppedItems, Ptr.duplicate,
          nonNull, items]
      | some n =>
        simp only [Outcome.acceptedItems, Outcome.returnedItems, Outcome.droppedItems, Ptr.duplicate,
          items, List.map_cons, nonNull_cons_some, List.nil_append, List.append_nil]
        simp only [nonNull_cons_none, nonNull, List.filterMap_nil]
        rw [List.perm_iff_count]
        intro x
        simp only [List.count_append, List.count_cons, List.count_nil]
        omega
  | waitDequeueNotification_enter pWI =>
    simp only [PriorityNotificationQueue.step, waitDequeueNotification_enter, dequeueOne] at hs
    cases store with
    | nil =>
      simp at hs
      obtain ⟨hfresh, he, hq⟩ := hs
      rw [← hq, ← he]
      simp [Outcome.acceptedItems, Outcome.returnedItems, Outcome.droppedItems, items,
        Heap.items_alloc]
    | cons e0 t =>
      obtain ⟨k, p⟩ := e0
      cases p with
      | none => simpa using hnn (k, none) (by simp)
      | some n =>
        simp at hs
        rw [← hs.1, ← hs.2]
        simp only [Outcome.acceptedItems, Outcome.returnedItems, Outcome.droppedItems, Ptr.duplicate,
          items, List.map_cons, nonNull_cons_some, List.nil_append, List.append_nil]
        simp only [nonNull_cons_none, nonNull, List.filterMap_nil]
        rw [List.perm_iff_count]
        intro x
        simp only [List.count_append, List.count_cons, List.count_nil]
        omega
  | waitDequeueNotification_signalled pWI =>
    simp only [PriorityNotificationQueue.step, waitDequeueNotification_signalled] at hs
    cases hd : Heap.deref pWI h with
    | none => rw [hd] at hs; simp at hs
    | some w =>
      rw [hd] at hs
      by_cases hsig : w.nfAvailable = true
      · simp [hsig] at hs
        rw [← hs.1, ← hs.2]
        simp only [Outcome.acceptedItems, Outcome.returnedItems, Outcome.droppedItems, Ptr.duplicate,
          items, List.nil_append, List.append_nil]
        refine (List.Perm.append_left _ (Heap.items_free pWI w h hw.keysNodup hd)).trans ?_
        refine (List.Perm.append_left _ List.perm_append_comm).trans ?_
        rw [List.append_assoc]
      · simp [hsig] at hs
  | waitDequeueNotification_timeout pWI =>
    simp only [PriorityNotificationQueue.step, waitDequeueNotification_timeout] at hs
    cases hd : Heap.deref pWI h with
    | none => rw [hd] at hs; simp at hs
    | some w =>
      rw [hd] at hs
      simp at hs
      rw [← hs.1, ← hs.2]
      simp only [Outcome.acceptedItems, Outcome.returnedItems, Outcome.droppedItems, Ptr.duplicate,
        items, List.nil_append, List.append_nil]
      refine (List.Perm.append_left _ (Heap.items_free pWI w h hw.keysNodup hd)).trans ?_
      refine (List.Perm.append_left _ List.perm_append_comm).trans ?_
      rw [List.append_assoc]
  | dispatch =>
    simp only [PriorityNotificationQueue.step, pnq_dispatch_eq] at hs
    simp at hs
    rw [← hs.1, ← hs.2]
    simp only [Outcome.acceptedItems, Outcome.returnedItems, Outcome.droppedItems,
      items, List.nil_append, List.append_nil]
    rw [nonNull_takeWhile_dropWhile (store.map Prod.snd), map_snd_tail_dropWhile,
      List.perm_iff_count]
    intro x
    simp only [List.count_append, List.count_cons, List.count_nil]
    omega
  | wakeUpAll =>
    simp only [PriorityNotificationQueue.step, wakeUpAll] at hs
    simp at hs
    rw [← hs.1, ← hs.2]
    simp [Outcome.acceptedItems, Outcome.returnedItems, Outcome.droppedItems, items, items_signalAll]
  | clear =>
    simp only [PriorityNotificationQueue.step, clear] at hs
    simp at hs
    rw [← hs.1, ← hs.2]
    simp only [Outcome.acceptedItems, Outcome.returnedItems, Outcome.droppedItems,
      items, List.nil_append, List.append_nil]
    simp only [nonNull, List.filterMap_nil, List.map_nil, List.nil_append]
    exact List.perm_append_comm

/-- Conservation of items along a schedule, and the invariant at its end. -/
theorem pnq_run_items {acts : List Action} {q q' : PriorityNotificationQueue} {es : List Outcome}
    (inv : Inv q) (hr : run acts q = some (es, q')) :
    Inv q' ∧
      List.Perm (acceptedItems es ++ q.items)
        (q'.items ++ (returnedItems es ++ droppedItems es)) := by
  induction acts generalizing q es with
  | nil =>
    simp only [run, Option.some.injEq, Prod.mk.injEq] at hr
    obtain ⟨rfl, rfl⟩ := hr
    exact ⟨inv, by simp [acceptedItems, returnedItems, droppedItems]⟩
  | cons a rest ih =>
    simp only [run] at hr
    cases hstep : step a q with
    | none => rw [hstep] at hr; simp at hr
    | some r =>
      obtain ⟨e, q1⟩ := r
      rw [hstep] at hr
      simp only at hr
      cases hrest : run rest q1 with
      | none => rw [hrest] at hr; simp at hr
      | some r2 =>
        obtain ⟨es2, q2⟩ := r2
        rw [hrest] at hr
        simp only [Option.some.injEq, Prod.mk.injEq] at hr
        obtain ⟨rfl, rfl⟩ := hr
        have h1 := pnq_step_items inv hstep
        obtain ⟨inv2, h2⟩ := ih (pnq_inv_step inv hstep) hrest
        refine ⟨inv2, ?_⟩
        simp only [acceptedItems, returnedItems, droppedItems]
        rw [List.perm_iff_count] at h1 h2 ⊢
        intro x
        have a1 := h1 x
        have a2 := h2 x
        simp only [List.count_append] at a1 a2 ⊢
        omega

end PriorityNotificationQueue

namespace NotificationQueue

/-- Conservation of items along a schedule, and the invariant at its end. -/
theorem nq_run_items {acts : List Action} {q q' : NotificationQueue} {es : List Outcome}
    (inv : Inv q) (hr : run acts q = some (es, q')) :
    Inv q' ∧
      List.Perm (acceptedItems es ++ q.items)
        (q'.items ++ (returnedItems es ++ droppedItems es)) := by
  induction acts generalizing q es with
  | nil =>
    simp only [run, Option.some.injEq, Prod.mk.injEq] at hr
    obtain ⟨rfl, rfl⟩ := hr
    exact ⟨inv, by simp [acceptedItems, returnedItems, droppedItems]⟩
  | cons a rest ih =>
    simp only [run] at hr
    cases hstep : step a q with
    | none => rw [hstep] at hr; simp at hr
    | some r =>
      obtain ⟨e, q1⟩ := r
      rw [hstep] at hr
      simp only at hr
      cases hrest : run rest q1 with
      | none => rw [hrest] at hr; simp at hr
      | some r2 =>
        obtain ⟨es2, q2⟩ := r2
        rw [hrest] at hr
        simp only [Option.some.injEq, Prod.mk.injEq] at hr
        obtain ⟨rfl, rfl⟩ := hr
        have h1 := nq_step_items inv hstep
        obtain ⟨inv2, h2⟩ := ih (nq_inv_step inv hstep) hrest
        refine ⟨inv2, ?_⟩
        simp only [acceptedItems, returnedItems, droppedItems]
        rw [List.perm_iff_count] at h1 h2 ⊢
        intro x
        have a1 := h1 x
        have a2 := h2 x
        simp only [List.count_append] at a1 a2 ⊢
        omega

end NotificationQueue

/-- What conservation gives for a trace from the fresh queue. -/
theorem atMostOnce_of_perm {es : List Outcome} {held : List Notification}
    (hp : List.Perm (acceptedItems es ++ [])
      (held ++ (returnedItems es ++ droppedItems es))) :
    AtMostOnce es held := by
  rw [List.append_nil] at hp
  refine ⟨hp, ?_, ?_, ?_, ?_⟩
  · have := hp.length_eq
    simp only [List.length_append] at this
    omega
  · intro x hx
    exact hp.mem_iff.2 (by simp [hx])
  · intro hnd
    have h2 := hp.nodup_iff.1 hnd
    exact ⟨(List.nodup_append.1 (List.nodup_append.1 h2).2.1).1, h2⟩
  · intro h1 h2
    rw [h1, h2] at hp
    simpa using hp.symm


/-! ## Reachability -/

theorem nq_reachable_run {acts : List NotificationQueue.Action} {q q' : NotificationQueue}
    {es : List Outcome} (hq : NotificationQueue.Reachable q)
    (hr : NotificationQueue.run acts q = some (es, q')) : NotificationQueue.Reachable q' := by
  induction acts generalizing q es with
  | nil =>
    simp only [NotificationQueue.run, Option.some.injEq, Prod.mk.injEq] at hr
    exact hr.2 ▸ hq
  | cons a rest ih =>
    simp only [NotificationQueue.run] at hr
    cases hstep : NotificationQueue.step a q with
    | none => rw [hstep] at hr; simp at hr
    | some r =>
      obtain ⟨e, q1⟩ := r
      rw [hstep] at hr
      simp only at hr
      cases hrest : NotificationQueue.run rest q1 with
      | none => rw [hrest] at hr; simp at hr
      | some r2 =>
        obtain ⟨es2, q2⟩ := r2
        rw [hrest] at hr
        simp only [Option.some.injEq, Prod.mk.injEq] at hr
        obtain ⟨-, rfl⟩ := hr
        exact ih (NotificationQueue.Reachable.step a hq hstep) hrest

theorem pnq_reachable_run {acts : List PriorityNotificationQueue.Action}
    {q q' : PriorityNotificationQueue} {es : List Outcome}
    (hq : PriorityNotificationQueue.Reachable q)
    (hr : PriorityNotificationQueue.run acts q = some (es, q')) :
    PriorityNotificationQueue.Reachable q' := by
  induction acts generalizing q es with
  | nil =>
    simp only [PriorityNotificationQueue.run, Option.some.injEq, Prod.mk.injEq] at hr
    exact hr.2 ▸ hq
  | cons a rest ih =>
    simp only [PriorityNotificationQueue.run] at hr
    cases hstep : PriorityNotificationQueue.step a q with
    | none => rw [hstep] at hr; simp at hr
    | some r =>
      obtain ⟨e, q1⟩ := r
      rw [hstep] at hr
      simp only at hr
      cases hrest : PriorityNotificationQueue.run rest q1 with
      | none => rw [hrest] at hr; simp at hr
      | some r2 =>
        obtain ⟨es2, q2⟩ := r2
        rw [hrest] at hr
        simp only [Option.some.injEq, Prod.mk.injEq] at hr
        obtain ⟨-, rfl⟩ := hr
        exact ih (PriorityNotificationQueue.Reachable.step a hq hstep) hrest

namespace NotificationQueue

theorem nq_dequeueMany_eq (n : Nat) (q : NotificationQueue) :
    dequeueMany n q =
      (q._nfQueue.take n ++ List.replicate (n - q._nfQueue.length) none,
        { q with _nfQueue := q._nfQueue.drop n }) := by
  induction n generalizing q with
  | zero => simp [dequeueMany]
  | succ n ih =>
    obtain ⟨store, wq, h⟩ := q
    cases store with
    | nil =>
      simp only [dequeueMany, dequeueNotification, dequeueOne, ih, Ptr.duplicate]
      simp [List.replicate_succ]
    | cons p t =>
      simp only [dequeueMany, dequeueNotification, dequeueOne, ih, Ptr.duplicate]
      simp

theorem nq_enqueueAll_eq (items : List Ptr) (q : NotificationQueue)
    (hwait : q._waitQueue = []) (hnn : ∀ p ∈ items, p ≠ none) :
    enqueueAll items q = .ok { q with _nfQueue := q._nfQueue ++ items } := by
  induction items generalizing q with
  | nil => simp [enqueueAll]
  | cons p t ih =>
    have hp : p ≠ none := hnn p (by simp)
    have ht : ∀ x ∈ t, x ≠ none := fun x hx => hnn x (by simp [hx])
    simp only [enqueueAll, enqueueNotification, hp, if_false, hwait]
    rw [ih _ rfl ht]
    simp

end NotificationQueue

namespace PriorityNotificationQueue

theorem pnq_dequeueMany_eq (n : Nat) (q : PriorityNotificationQueue) :
    dequeueMany n q =
      ((q._nfQueue.take n).map Prod.snd ++ List.replicate (n - q._nfQueue.length) none,
        { q with _nfQueue := q._nfQueue.drop n }) := by
  induction n generalizing q with
  | zero => simp [dequeueMany]
  | succ n ih =>
    obtain ⟨store, wq, h⟩ := q
    cases store with
    | nil =>
      simp only [dequeueMany, dequeueNotification, dequeueOne, ih, Ptr.duplicate]
      simp [List.replicate_succ]
    | cons p t =>
      simp only [dequeueMany, dequeueNotification, dequeueOne, ih, Ptr.duplicate]
      simp

/-- The store built by inserting the entries of `l` one by one into `s`. -/
theorem pnq_enqueueAll_eq (l : List (Int × Ptr)) (q : PriorityNotificationQueue)
    (hwait : q._waitQueue = []) (hnn : ∀ e ∈ l, e.2 ≠ none) :
    ∃ s, enqueueAll l q = .ok { q with _nfQueue := s } ∧
      List.Perm s (q._nfQueue ++ l) ∧
      (q._nfQueue.Pairwise (fun e₁ e₂ => e₁.1 ≤ e₂.1) →
        s.Pairwise (fun e₁ e₂ => e₁.1 ≤ e₂.1)) := by
  induction l generalizing q with
  | nil => exact ⟨q._nfQueue, by simp [enqueueAll], by simp, fun h => h⟩
  | cons e t ih =>
    have hp : e.2 ≠ none := hnn e (by simp)
    have ht : ∀ x ∈ t, x.2 ≠ none := fun x hx => hnn x (by simp [hx])
    obtain ⟨s, h1, h2, h3⟩ :=
      ih { q with _nfQueue := multimapInsert e.1 e.2 q._nfQueue } hwait ht
    refine ⟨s, ?_, ?_, ?_⟩
    · simp only [enqueueAll, enqueueNotification, hp, if_false, hwait]
      simpa [hwait] using h1
    · refine h2.trans ?_
      simp only
      refine (List.Perm.append_right _ (multimapInsert_perm e.1 e.2 q._nfQueue)).trans ?_
      simp only [List.cons_append]
      exact List.perm_middle.symm
    · intro hs
      exact h3 (multimapInsert_sorted _ _ _ hs)

end PriorityNotificationQueue

/-- Effect of the hand-off writes on the free store: the front slot, parked so far, now
holds the item with its event set; every other address is untouched. -/
theorem WaitInv.deref_handOff {a : WaitInfoPtr} {rest : List WaitInfoPtr} {h : Heap}
    (p : Ptr) (inv : WaitInv (a :: rest) h) :
    Heap.deref a (Heap.setEvent a (Heap.setPNf a p h)) =
        some { pNf := p, nfAvailable := true } ∧
      ∀ b, b ≠ a → Heap.deref b (Heap.setEvent a (Heap.setPNf a p h)) = Heap.deref b h := by
  constructor
  · rw [Heap.deref_setEvent, if_pos rfl, Heap.deref_setPNf, if_pos rfl,
      inv.parked a (by simp)]
    rfl
  · intro b hb
    rw [Heap.deref_setEvent, if_neg hb, Heap.deref_setPNf, if_neg hb]

namespace NotificationQueue

theorem nq_run_append (as bs : List Action) (q q₁ q₂ : NotificationQueue)
    (es₁ es₂ : List Outcome)
    (h₁ : run as q = some (es₁, q₁)) (h₂ : run bs q₁ = some (es₂, q₂)) :
    run (as ++ bs) q = some (es₁ ++ es₂, q₂) := by
  induction as generalizing q es₁ with
  | nil =>
    simp only [run, Option.some.injEq, Prod.mk.injEq] at h₁
    obtain ⟨rfl, rfl⟩ := h₁
    simpa using h₂
  | cons a rest ih =>
    simp only [run] at h₁
    cases hstep : step a q with
    | none => rw [hstep] at h₁; simp at h₁
    | some r =>
      obtain ⟨e, q1⟩ := r
      rw [hstep] at h₁
      simp only at h₁
      cases hrest : run rest q1 with
      | none => rw [hrest] at h₁; simp at h₁
      | some r2 =>
        obtain ⟨es2, q2⟩ := r2
        rw [hrest] at h₁
        simp only [Option.some.injEq, Prod.mk.injEq] at h₁
        obtain ⟨rfl, rfl⟩ := h₁
        simp only [List.cons_append, run, hstep, List.append_eq, ih q1 es2 hrest]

theorem nq_park_all (ws : List WaitInfoPtr) (q : NotificationQueue)
    (inv : Inv q) (hstore : q._nfQueue = [])
    (hnd : ws.Nodup) (hfresh : ∀ w ∈ ws, Heap.deref w q.heap = none) :
    ∃ q', run (ws.map Action.waitDequeueNotification_enter) q = some (ws.map Outcome.parked, q') ∧
      Inv q' ∧ q'._nfQueue = [] ∧ q'._waitQueue = q._waitQueue ++ ws := by
  induction ws generalizing q with
  | nil => exact ⟨q, rfl, inv, hstore, by simp⟩
  | cons w rest ih =>
    rw [List.nodup_cons] at hnd
    have hw : Heap.deref w q.heap = none := hfresh w (by simp)
    have hstep : step (.waitDequeueNotification_enter w) q =
        some (.parked w, { q with heap := Heap.alloc w q.heap,
                                  _waitQueue := q._waitQueue ++ [w] }) := by
      simp [step, waitDequeueNotification_enter, dequeueOne, hstore, hw]
    have inv1 := nq_inv_step inv hstep
    obtain ⟨q', h1, h2, h3, h4⟩ := ih _ inv1 hstore hnd.2 (by
      intro b hb
      simp only
      rw [Heap.deref_alloc, hfresh b (by simp [hb])]
      have : b ≠ w := fun e => hnd.1 (e ▸ hb)
      simp [this])
    refine ⟨q', ?_, h2, h3, by simpa using h4⟩
    simp only [List.map_cons, run, hstep, h1]

theorem nq_serve_all (ws : List WaitInfoPtr) (xs : List (Ptr × Bool)) (q : NotificationQueue)
    (inv : Inv q) (hwq : q._waitQueue = ws) (hlen : xs.length = ws.length)
    (hnn : ∀ x ∈ xs, x.1 ≠ none) :
    ∃ q', run (xs.map fun x => if x.2 then Action.enqueueUrgentNotification x.1
                                else Action.enqueueNotification x.1) q =
          some (xs.map fun x => Outcome.accepted x.1, q') ∧
      q'._waitQueue = [] ∧ q'._nfQueue = q._nfQueue ∧
      (∀ wx ∈ ws.zip xs,
        Heap.deref wx.1 q'.heap = some { pNf := wx.2.1, nfAvailable := true }) ∧
      (∀ b, b ∉ ws → Heap.deref b q'.heap = Heap.deref b q.heap) := by
  induction ws generalizing q xs with
  | nil =>
    have : xs = [] := List.length_eq_zero.1 hlen
    subst this
    exact ⟨q, rfl, hwq, rfl, by simp, fun _ _ => rfl⟩
  | cons w rest ih =>
    cases xs with
    | nil => simp at hlen
    | cons x xs' =>
      obtain ⟨p, u⟩ := x
      have hp : p ≠ none := hnn (p, u) (by simp)
      have hw := inv.wait
      rw [hwq] at hw
      obtain ⟨hd, hother⟩ := hw.deref_handOff p
      have hnd := hw.waitNodup
      rw [List.nodup_cons] at hnd
      have hstep : step (if u then Action.enqueueUrgentNotification p
                          else Action.enqueueNotification p) q =
          some (.accepted p,
            ⟨q._nfQueue, rest, Heap.setEvent w (Heap.setPNf w p q.heap)⟩) := by
        cases u <;> simp [step, enqueueNotification, enqueueUrgentNotification, hp, hwq]
      have inv1 := nq_inv_step inv hstep
      obtain ⟨q', h1, h2, h3, h4, h5⟩ := ih xs' _ inv1 rfl (by simpa using hlen)
        (fun y hy => hnn y (by simp [hy]))
      refine ⟨q', ?_, h2, h3, ?_, ?_⟩
      · simp only [List.map_cons, run, hstep, h1]
      · intro wx hwx
        simp only [List.zip_cons_cons, List.mem_cons] at hwx
        rcases hwx with rfl | hwx
        · simp only
          rw [h5 w hnd.1]
          exact hd
        · exact h4 wx hwx
      · intro b hb
        simp only [List.mem_cons, not_or] at hb
        rw [h5 b hb.2]
        exact hother b hb.1

end NotificationQueue

namespace PriorityNotificationQueue

theorem pnq_run_append (as bs : List Action) (q q₁ q₂ : PriorityNotificationQueue)
    (es₁ es₂ : List Outcome)
    (h₁ : run as q = some (es₁, q₁)) (h₂ : run bs q₁ = some (es₂, q₂)) :
    run (as ++ bs) q = some (es₁ ++ es₂, q₂) := by
  induction as generalizing q es₁ with
  | nil =>
    simp only [run, Option.some.injEq, Prod.mk.injEq] at h₁
    obtain ⟨rfl, rfl⟩ := h₁
    simpa using h₂
  | cons a rest ih =>
    simp only [run] at h₁
    cases hstep : step a q with
    | none => rw [hstep] at h₁; simp at h₁
    | some r =>
      obtain ⟨e, q1⟩ := r
      rw [hstep] at h₁
      simp only at h₁
      cases hrest : run rest q1 with
      | none => rw [hrest] at h₁; simp at h₁
      | some r2 =>
        obtain ⟨es2, q2⟩ := r2
        rw [hrest] at h₁
        simp only [Option.some.injEq, Prod.mk.injEq] at h₁
        obtain ⟨rfl, rfl⟩ := h₁
        simp only [List.cons_append, run, hstep, List.append_eq, ih q1 es2 hrest]

theorem pnq_park_all (ws : List WaitInfoPtr) (q : PriorityNotificationQueue)
    (inv : Inv q) (hstore : q._nfQueue = [])
    (hnd : ws.Nodup) (hfresh : ∀ w ∈ ws, Heap.deref w q.heap = none) :
    ∃ q', run (ws.map Action.waitDequeueNotification_enter) q = some (ws.map Outcome.parked, q') ∧
      Inv q' ∧ q'._nfQueue = [] ∧ q'._waitQueue = q._waitQueue ++ ws := by
  induction ws generalizing q with
  | nil => exact ⟨q, rfl, inv, hstore, by simp⟩
  | cons w rest ih =>
    rw [List.nodup_cons] at hnd
    have hw : Heap.deref w q.heap = none := hfresh w (by simp)
    have hstep : step (.waitDequeueNotification_enter w) q =
        some (.parked w, { q with heap := Heap.alloc w q.heap,
                                  _waitQueue := q._waitQueue ++ [w] }) := by
      simp [step, waitDequeueNotification_enter, dequeueOne, hstore, hw]
    have inv1 := pnq_inv_step inv hstep
    obtain ⟨q', h1, h2, h3, h4⟩ := ih _ inv1 hstore hnd.2 (by
      intro b hb
      simp only
      rw [Heap.deref_alloc, hfresh b (by simp [hb])]
      have : b ≠ w := fun e => hnd.1 (e ▸ hb)
      simp [this])
    refine ⟨q', ?_, h2, h3, by simpa using h4⟩
    simp only [List.map_cons, run, hstep, h1]

theorem pnq_serve_all (ws : List WaitInfoPtr) (xs : List (Ptr × Int)) (q : PriorityNotificationQueue)
    (inv : Inv q) (hwq : q._waitQueue = ws) (hlen : xs.length = ws.length)
    (hnn : ∀ x ∈ xs, x.1 ≠ none) :
    ∃ q', run (xs.map fun x => Action.enqueueNotification x.1 x.2) q =
          some (xs.map fun x => Outcome.accepted x.1, q') ∧
      q'._waitQueue = [] ∧ q'._nfQueue = q._nfQueue ∧
      (∀ wx ∈ ws.zip xs,
        Heap.deref wx.1 q'.heap = some { pNf := wx.2.1, nfAvailable := true }) ∧
      (∀ b, b ∉ ws → Heap.deref b q'.heap = Heap.deref b q.heap) := by
  induction ws generalizing q xs with
  | nil =>
    have : xs = [] := List.length_eq_zero.1 hlen
    subst this
    exact ⟨q, rfl, hwq, rfl, by simp, fun _ _ => rfl⟩
  | cons w rest ih =>
    cases xs with
    | nil => simp at hlen
    | cons x xs' =>
      obtain ⟨p, u⟩ := x
      have hp : p ≠ none := hnn (p, u) (by simp)
      have hw := inv.wait
      rw [hwq] at hw
      obtain ⟨hd, hother⟩ := hw.deref_handOff p
      have hnd := hw.waitNodup
      rw [List.nodup_cons] at hnd
      have hstore : q._nfQueue = [] := inv.storeEmpty (by simp [hwq])
      have hstep : step (Action.enqueueNotification p u) q =
          some (.accepted p,
            ⟨q._nfQueue, rest, Heap.setEvent w (Heap.setPNf w p q.heap)⟩) := by
        simp [step, enqueueNotification, hp, hwq, hstore]
      have inv1 := pnq_inv_step inv hstep
      obtain ⟨q', h1, h2, h3, h4, h5⟩ := ih xs' _ inv1 rfl (by simpa using hlen)
        (fun y hy => hnn y (by simp [hy]))
      refine ⟨q', ?_, h2, h3, ?_, ?_⟩
      · simp only [List.map_cons, run, hstep, h1]
      · intro wx hwx
        simp only [List.zip_cons_cons, List.mem_cons] at hwx
        rcases hwx with rfl | hwx
        · simp only
          rw [h5 w hnd.1]
          exact hd
        · exact h4 wx hwx
      · intro b hb
        simp only [List.mem_cons, not_or] at hb
        rw [h5 b hb.2]
        exact hother b hb.1

end PriorityNotificationQueue

theorem not_mem_eraseFirst_of_nodup {a : WaitInfoPtr} {l : List WaitInfoPtr} (hnd : l.Nodup) :
    a ∉ eraseFirst a l := by
  rw [eraseFirst_eq_erase]
  exact fun hm => ((List.Nodup.mem_erase_iff hnd).1 hm).1 rfl

theorem eraseFirst_of_not_mem {a : WaitInfoPtr} {l : List WaitInfoPtr} (hn : a ∉ l) :
    eraseFirst a l = l := by
  rw [eraseFirst_eq_erase]
  exact List.erase_of_not_mem hn

/-- A slot still queued has an empty item field. -/
theorem WaitInv.pNf_of_mem {wq : List WaitInfoPtr} {h : Heap} {a : WaitInfoPtr} {w : WaitInfo}
    (inv : WaitInv wq h) (hd : Heap.deref a h = some w) (hm : a ∈ wq) : w.pNf = none := by
  have := inv.parked a hm
  rw [hd] at this
  simp only [Option.some.injEq] at this
  rw [this]

/-- With no slot allocated, nothing is queued. -/
theorem WaitInv.wait_nil_of_heap_nil {wq : List WaitInfoPtr} (inv : WaitInv wq []) :
    wq = [] := by
  cases wq with
  | nil => rfl
  | cons a t =>
    have := inv.parked a (by simp)
    simp [Heap.deref] at this

namespace NotificationQueue

/-- A slot whose event is set is not touched by any step other than its owner's own
resumption or timeout. -/
theorem nq_step_signalled_stable {q q' : NotificationQueue} {a : Action} {e : Outcome}
    {b : WaitInfoPtr} {w : WaitInfo}
    (inv : Inv q) (hs : step a q = some (e, q'))
    (hd : Heap.deref b q.heap = some w) (hsig : w.nfAvailable = true)
    (h₁ : a ≠ .waitDequeueNotification_signalled b)
    (h₂ : a ≠ .waitDequeueNotification_timeout b) :
    Heap.deref b q'.heap = some w := by
  have hb : b ∉ q._waitQueue := inv.wait.notMem_of_signalled hd hsig
  obtain ⟨store, wq, h⟩ := q
  have hw := inv.wait
  simp only at hw hd hb
  cases a with
  | enqueueNotification p =>
    simp only [NotificationQueue.step, enqueueNotification] at hs
    cases p with
    | none => simp at hs; rw [← hs.2]; exact hd
    | some n =>
      cases wq with
      | nil => simp at hs; rw [← hs.2]; exact hd
      | cons a rest =>
        simp at hs
        rw [← hs.2]
        have hne : b ≠ a := fun e => hb (by simp [e])
        simp only
        rw [(hw.deref_handOff (some n)).2 b hne]
        exact hd
  | enqueueUrgentNotification p =>
    simp only [NotificationQueue.step, enqueueUrgentNotification] at hs
    cases p with
    | none => simp at hs; rw [← hs.2]; exact hd
    | some n =>
      cases wq with
      | nil => simp at hs; rw [← hs.2]; exact hd
      | cons a rest =>
        simp at hs
        rw [← hs.2]
        have hne : b ≠ a := fun e => hb (by simp [e])
        simp only
        rw [(hw.deref_handOff (some n)).2 b hne]
        exact hd
  | dequeueNotification =>
    simp only [NotificationQueue.step, dequeueNotification, dequeueOne] at hs
    cases store with
    | nil => simp at hs; rw [← hs.2]; exact hd
    | cons p t => simp at hs; rw [← hs.2]; exact hd
  | waitDequeueNotification_enter pWI =>
    simp only [NotificationQueue.step, waitDequeueNotification_enter, dequeueOne] at hs
    cases store with
    | nil =>
      simp at hs
      obtain ⟨-, -, hq⟩ := hs
      rw [← hq]
      simp only
      rw [Heap.deref_alloc, hd]
    | cons p t =>
      cases p with
      | none =>
        simp at hs
        obtain ⟨-, -, hq⟩ := hs
        rw [← hq]
        simp only
        rw [Heap.deref_alloc, hd]
      | some n => simp at hs; rw [← hs.2]; exact hd
  | waitDequeueNotification_signalled pWI =>
    have hne : b ≠ pWI := fun e => h₁ (by rw [e])
    simp only [NotificationQueue.step, waitDequeueNotification_signalled] at hs
    cases hd2 : Heap.deref pWI h with
    | none => rw [hd2] at hs; simp at hs
    | some w2 =>
      rw [hd2] at hs
      by_cases hsig2 : w2.nfAvailable = true
      · simp [hsig2] at hs
        rw [← hs.2]
        simp only
        rw [Heap.deref_free, if_neg hne]
        exact hd
      · simp [hsig2] at hs
  | waitDequeueNotification_timeout pWI =>
    have hne : b ≠ pWI := fun e => h₂ (by rw [e])
    simp only [NotificationQueue.step, waitDequeueNotification_timeout] at hs
    cases hd2 : Heap.deref pWI h with
    | none => rw [hd2] at hs; simp at hs
    | some w2 =>
      rw [hd2] at hs
      simp at hs
      rw [← hs.2]
      simp only
      rw [Heap.deref_free, if_neg hne]
      exact hd
  | dispatch =>
    simp only [NotificationQueue.step, nq_dispatch_eq] at hs
    simp at hs
    rw [← hs.2]
    exact hd
  | wakeUpAll =>
    simp only [NotificationQueue.step, wakeUpAll] at hs
    simp at hs
    rw [← hs.2]
    simp only
    rw [deref_signalAll, if_neg hb]
    exact hd
  | clear =>
    simp only [NotificationQueue.step, clear] at hs
    simp at hs
    rw [← hs.2]
    exact hd

/-- The same along a schedule that contains no step of the slot's owner. -/
theorem nq_run_signalled_stable {acts : List Action} {q q' : NotificationQueue}
    {es : List Outcome} {b : WaitInfoPtr} {w : WaitInfo}
    (inv : Inv q) (hr : run acts q = some (es, q'))
    (hd : Heap.deref b q.heap = some w) (hsig : w.nfAvailable = true)
    (hacts : ∀ a ∈ acts, a ≠ .waitDequeueNotification_signalled b ∧
      a ≠ .waitDequeueNotification_timeout b) :
    Heap.deref b q'.heap = some w := by
  induction acts generalizing q es with
  | nil =>
    simp only [run, Option.some.injEq, Prod.mk.injEq] at hr
    obtain ⟨-, rfl⟩ := hr
    exact hd
  | cons a rest ih =>
    simp only [run] at hr
    cases hstep : step a q with
    | none => rw [hstep] at hr; simp at hr
    | some r =>
      obtain ⟨e, q1⟩ := r
      rw [hstep] at hr
      simp only at hr
      cases hrest : run rest q1 with
      | none => rw [hrest] at hr; simp at hr
      | some r2 =>
        obtain ⟨es2, q2⟩ := r2
        rw [hrest] at hr
        simp only [Option.some.injEq, Prod.mk.injEq] at hr
        obtain ⟨-, rfl⟩ := hr
        have ha := hacts a (by simp)
        exact ih (nq_inv_step inv hstep) hrest
          (nq_step_signalled_stable inv hstep hd hsig ha.1 ha.2)
          (fun x hx => hacts x (by simp [hx]))

end NotificationQueue

namespace PriorityNotificationQueue

/-- A slot whose event is set is not touched by any step other than its owner's own
resumption or timeout. -/
theorem pnq_step_signalled_stable {q q' : PriorityNotificationQueue} {a : Action} {e : Outcome}
    {b : WaitInfoPtr} {w : WaitInfo}
    (inv : Inv q) (hs : step a q = some (e, q'))
    (hd : Heap.deref b q.heap = some w) (hsig : w.nfAvailable = true)
    (h₁ : a ≠ .waitDequeueNotification_signalled b)
    (h₂ : a ≠ .waitDequeueNotification_timeout b) :
    Heap.deref b q'.heap = some w := by
  have hb : b ∉ q._waitQueue := inv.wait.notMem_of_signalled hd hsig
  obtain ⟨store, wq, h⟩ := q
  have hw := inv.wait
  simp only at hw hd hb
  cases a with
  | enqueueNotification p prio =>
    simp only [PriorityNotificationQueue.step, enqueueNotification] at hs
    cases p with
    | none => simp at hs; rw [← hs.2]; exact hd
    | some n =>
      cases wq with
      | nil => simp at hs; rw [← hs.2]; exact hd
      | cons a rest =>
        have hem : store = [] := inv.storeEmpty (by simp)
        subst hem
        simp at hs
        rw [← hs.2]
        have hne : b ≠ a := fun e => hb (by simp [e])
        simp only
        rw [(hw.deref_handOff (some n)).2 b hne]
        exact hd
  | dequeueNotification =>
    simp only [PriorityNotificationQueue.step, dequeueNotification, dequeueOne] at hs
    cases store with
    | nil => simp at hs; rw [← hs.2]; exact hd
    | cons p t => simp at hs; rw [← hs.2]; exact hd
  | waitDequeueNotification_enter pWI =>
    simp only [PriorityNotificationQueue.step, waitDequeueNotification_enter, dequeueOne] at hs
    cases store with
    | nil =>
      simp at hs
      obtain ⟨-, -, hq⟩ := hs
      rw [← hq]
      simp only
      rw [Heap.deref_alloc, hd]
    | cons e0 t =>
      obtain ⟨k, p⟩ := e0
      cases p with
      | none =>
        simp at hs
        obtain ⟨-, -, hq⟩ := hs
        rw [← hq]
        simp only
        rw [Heap.deref_alloc, hd]
      | some n => simp at hs; rw [← hs.2]; exact hd
  | waitDequeueNotification_signalled pWI =>
    have hne : b ≠ pWI := fun e => h₁ (by rw [e])
    simp only [PriorityNotificationQueue.step, waitDequeueNotification_signalled] at hs
    cases hd2 : Heap.deref pWI h with
    | none => rw [hd2] at hs; simp at hs
    | some w2 =>
      rw [hd2] at hs
      by_cases hsig2 : w2.nfAvailable = true
      · simp [hsig2] at hs
        rw [← hs.2]
        simp only
        rw [Heap.deref_free, if_neg hne]
        exact hd
      · simp [hsig2] at hs
  | waitDequeueNotification_timeout pWI =>
    have hne : b ≠ pWI := fun e => h₂ (by rw [e])
    simp only [PriorityNotificationQueue.step, waitDequeueNotification_timeout] at hs
    cases hd2 : Heap.deref pWI h with
    | none => rw [hd2] at hs; simp at hs
    | some w2 =>
      rw [hd2] at hs
      simp at hs
      rw [← hs.2]
      simp only
      rw [Heap.deref_free, if_neg hne]
      exact hd
  | dispatch =>
    simp only [PriorityNotificationQueue.step, pnq_dispatch_eq] at hs
    simp at hs
    rw [← hs.2]
    exact hd
  | wakeUpAll =>
    simp only [PriorityNotificationQueue.step, wakeUpAll] at hs
    simp at hs
    rw [← hs.2]
    simp only
    rw [deref_signalAll, if_neg hb]
    exact hd
  | clear =>
    simp only [PriorityNotificationQueue.step, clear] at hs
    simp at hs
    rw [← hs.2]
    exact hd

/-- The same along a schedule that contains no step of the slot's owner. -/
theorem pnq_run_signalled_stable {acts : List Action} {q q' : PriorityNotificationQueue}
    {es : List Outcome} {b : WaitInfoPtr} {w : WaitInfo}
    (inv : Inv q) (hr : run acts q = some (es, q'))
    (hd : Heap.deref b q.heap = some w) (hsig : w.nfAvailable = true)
    (hacts : ∀ a ∈ acts, a ≠ .waitDequeueNotification_signalled b ∧
      a ≠ .waitDequeueNotification_timeout b) :
    Heap.deref b q'.heap = some w := by
  induction acts generalizing q es with
  | nil =>
    simp only [run, Option.some.injEq, Prod.mk.injEq] at hr
    obtain ⟨-, rfl⟩ := hr
    exact hd
  | cons a rest ih =>
    simp only [run] at hr
    cases hstep : step a q with
    | none => rw [hstep] at hr; simp at hr
    | some r =>
      obtain ⟨e, q1⟩ := r
      rw [hstep] at hr
      simp only at hr
      cases hrest : run rest q1 with
      | none => rw [hrest] at hr; simp at hr
      | some r2 =>
        obtain ⟨es2, q2⟩ := r2
        rw [hrest] at hr
        simp only [Option.some.injEq, Prod.mk.injEq] at hr
        obtain ⟨-, rfl⟩ := hr
        have ha := hacts a (by simp)
        exact ih (pnq_inv_step inv hstep) hrest
          (pnq_step_signalled_stable inv hstep hd hsig ha.1 ha.2)
          (fun x hx => hacts x (by simp [hx]))

end PriorityNotificationQueue

/-- A quiet step does not make slot `b` signalled with an empty item field. -/
theorem QuietStep.signalled_full {wq wq' : List WaitInfoPtr} {h h' : Heap}
    (st : QuietStep wq h wq' h') (inv : WaitInv wq h) (b : WaitInfoPtr)
    (full : ∀ w, Heap.deref b h = some w → w.nfAvailable = true → w.pNf ≠ none) :
    ∀ w, Heap.deref b h' = some w → w.nfAvailable = true → w.pNf ≠ none := by
  intro w hd hsig
  cases st with
  | same => exact full w hd hsig
  | handOff pWI rest n hwq =>
    rw [hwq] at inv
    obtain ⟨h1, h2⟩ := inv.deref_handOff (some n)
    by_cases hb : b = pWI
    · subst hb
      rw [h1] at hd
      simp only [Option.some.injEq] at hd
      rw [← hd]
      simp
    · rw [h2 b hb] at hd
      exact full w hd hsig
  | park pWI hfresh =>
    rw [Heap.deref_alloc] at hd
    cases hdb : Heap.deref b h with
    | some w0 =>
      rw [hdb] at hd
      simp only [Option.some.injEq] at hd
      exact full w (hd ▸ hdb) hsig
    | none =>
      rw [hdb] at hd
      by_cases hb : b = pWI
      · simp only [hb, if_true, Option.some.injEq] at hd
        rw [← hd] at hsig
        simp at hsig
      · simp [hb] at hd
  | resume pWI w0 hd0 hs0 =>
    rw [Heap.deref_free] at hd
    by_cases hb : b = pWI
    · simp [hb] at hd
    · rw [if_neg hb] at hd
      exact full w hd hsig
  | timeout pWI w0 hd0 =>
    rw [Heap.deref_free] at hd
    by_cases hb : b = pWI
    · simp [hb] at hd
    · rw [if_neg hb] at hd
      exact full w hd hsig

/-- Under a quiet step, the only slot record that changes while staying allocated is that
of the front slot of the wait queue, which is popped and receives an item and the signal. -/
theorem QuietStep.changed {wq wq' : List WaitInfoPtr} {h h' : Heap}
    (st : QuietStep wq h wq' h') (inv : WaitInv wq h) {b : WaitInfoPtr} {w w' : WaitInfo}
    (hd : Heap.deref b h = some w) (hd' : Heap.deref b h' = some w') (hne : w' ≠ w) :
    ∃ rest n, wq = b :: rest ∧ wq' = rest ∧
      w = { pNf := none, nfAvailable := false } ∧
      w' = { pNf := some n, nfAvailable := true } := by
  cases st with
  | same =>
    rw [hd] at hd'
    exact absurd (Option.some.inj hd').symm hne
  | handOff pWI rest n hwq =>
    rw [hwq] at inv
    obtain ⟨h1, h2⟩ := inv.deref_handOff (some n)
    by_cases hb : b = pWI
    · subst hb
      rw [h1] at hd'
      have hp := inv.parked b (by simp)
      rw [hd] at hp
      exact ⟨_, n, hwq, rfl, Option.some.inj hp, (Option.some.inj hd').symm⟩
    · rw [h2 b hb, hd] at hd'
      exact absurd (Option.some.inj hd').symm hne
  | park pWI hfresh =>
    rw [Heap.deref_alloc, hd] at hd'
    exact absurd (Option.some.inj hd').symm hne
  | resume pWI w0 hd0 hs0 =>
    rw [Heap.deref_free] at hd'
    by_cases hb : b = pWI
    · simp [hb] at hd'
    · rw [if_neg hb, hd] at hd'
      exact absurd (Option.some.inj hd').symm hne
  | timeout pWI w0 hd0 =>
    rw [Heap.deref_free] at hd'
    by_cases hb : b = pWI
    · simp [hb] at hd'
    · rw [if_neg hb, hd] at hd'
      exact absurd (Option.some.inj hd').symm hne

/-- `signalAll` changes only records of queued slots, and only their signal. -/
theorem signalAll_changed {wq : List WaitInfoPtr} {h : Heap} (inv : WaitInv wq h)
    {b : WaitInfoPtr} {w w' : WaitInfo}
    (hd : Heap.deref b h = some w) (hd' : Heap.deref b (signalAll wq h) = some w')
    (hne : w' ≠ w) :
    b ∈ wq ∧ w = { pNf := none, nfAvailable := false } ∧
      w' = { pNf := none, nfAvailable := true } := by
  rw [deref_signalAll] at hd'
  by_cases hb : b ∈ wq
  · have hp := inv.parked b hb
    rw [if_pos hb, hp] at hd'
    rw [hd] at hp
    exact ⟨hb, Option.some.inj hp, (Option.some.inj hd').symm⟩
  · rw [if_neg hb, hd] at hd'
    exact absurd (Option.some.inj hd').symm hne

namespace NotificationQueue

/-- Every step of the FIFO flavor is `wakeUpAll` or acts quietly on wait queue and slots. -/
theorem nq_step_cases {q q' : NotificationQueue} {a : Action} {e : Outcome}
    (hs : step a q = some (e, q')) :
    (a = .wakeUpAll ∧ q'._waitQueue = [] ∧ q'.heap = signalAll q._waitQueue q.heap) ∨
      (a ≠ .wakeUpAll ∧ QuietStep q._waitQueue q.heap q'._waitQueue q'.heap) := by
  obtain ⟨store, wq, h⟩ := q
  cases a with
  | enqueueNotification p =>
    right
    refine ⟨by simp, ?_⟩
    simp only [NotificationQueue.step, enqueueNotification] at hs
    cases p with
    | none => simp at hs; rw [← hs.2]; exact .same
    | some n =>
      cases wq with
      | nil => simp at hs; rw [← hs.2]; exact .same
      | cons a rest => simp at hs; rw [← hs.2]; exact .handOff a rest n rfl
  | enqueueUrgentNotification p =>
    right
    refine ⟨by simp, ?_⟩
    simp only [NotificationQueue.step, enqueueUrgentNotification] at hs
    cases p with
    | none => simp at hs; rw [← hs.2]; exact .same
    | some n =>
      cases wq with
      | nil => simp at hs; rw [← hs.2]; exact .same
      | cons a rest => simp at hs; rw [← hs.2]; exact .handOff a rest n rfl
  | dequeueNotification =>
    right
    refine ⟨by simp, ?_⟩
    simp only [NotificationQueue.step, dequeueNotification, dequeueOne] at hs
    cases store with
    | nil => simp at hs; rw [← hs.2]; exact .same
    | cons p t => simp at hs; rw [← hs.2]; exact .same
  | waitDequeueNotification_enter pWI =>
    right
    refine ⟨by simp, ?_⟩
    simp only [NotificationQueue.step, waitDequeueNotification_enter, dequeueOne] at hs
    cases store with
    | nil =>
      simp at hs
      obtain ⟨hfresh, -, hq⟩ := hs
      rw [← hq]
      exact .park pWI hfresh
    | cons p t =>
      cases p with
      | none =>
        simp at hs
        obtain ⟨hfresh, -, hq⟩ := hs
        rw [← hq]
        exact .park pWI hfresh
      | some n => simp at hs; rw [← hs.2]; exact .same
  | waitDequeueNotification_signalled pWI =>
    right
    refine ⟨by simp, ?_⟩
    simp only [NotificationQueue.step, waitDequeueNotification_signalled] at hs
    cases hd : Heap.deref pWI h with
    | none => rw [hd] at hs; simp at hs
    | some w =>
      rw [hd] at hs
      by_cases hsig : w.nfAvailable = true
      · simp [hsig] at hs
        rw [← hs.2]
        exact .resume pWI w hd hsig
      · simp [hsig] at hs
  | waitDequeueNotification_timeout pWI =>
    right
    refine ⟨by simp, ?_⟩
    simp only [NotificationQueue.step, waitDequeueNotification_timeout] at hs
    cases hd : Heap.deref pWI h with
    | none => rw [hd] at hs; simp at hs
    | some w =>
      rw [hd] at hs
      simp at hs
      rw [← hs.2]
      exact .timeout pWI w hd
  | dispatch =>
    right
    refine ⟨by simp, ?_⟩
    simp only [NotificationQueue.step, nq_dispatch_eq] at hs
    simp at hs
    rw [← hs.2]
    exact .same
  | wakeUpAll =>
    left
    simp only [NotificationQueue.step, wakeUpAll] at hs
    simp at hs
    rw [← hs.2]
    exact ⟨rfl, rfl, rfl⟩
  | clear =>
    right
    refine ⟨by simp, ?_⟩
    simp only [NotificationQueue.step, clear] at hs
    simp at hs
    rw [← hs.2]
    exact .same

end NotificationQueue

namespace PriorityNotificationQueue

/-- Every step of the priority flavor is `wakeUpAll` or acts quietly on wait queue and
slots. -/
theorem pnq_step_cases {q q' : PriorityNotificationQueue} {a : Action} {e : Outcome}
    (hs : step a q = some (e, q')) :
    (a = .wakeUpAll ∧ q'._waitQueue = [] ∧ q'.heap = signalAll q._waitQueue q.heap) ∨
      (a ≠ .wakeUpAll ∧ QuietStep q._waitQueue q.heap q'._waitQueue q'.heap) := by
  obtain ⟨store, wq, h⟩ := q
  cases a with
  | enqueueNotification p prio =>
    right
    refine ⟨by simp, ?_⟩
    simp only [PriorityNotificationQueue.step, enqueueNotification] at hs
    cases p with
    | none => simp at hs; rw [← hs.2]; exact .same
    | some n =>
      cases wq with
      | nil => simp at hs; rw [← hs.2]; exact .same
      | cons a rest =>
        by_cases hst : store.isEmpty = true
        · simp [hst] at hs; rw [← hs.2]; exact .handOff a rest n rfl
        · simp [hst] at hs; rw [← hs.2]; exact .same
  | dequeueNotification =>
    right
    refine ⟨by simp, ?_⟩
    simp only [PriorityNotificationQueue.step, dequeueNotification, dequeueOne] at hs
    cases store with
    | nil => simp at hs; rw [← hs.2]; exact .same
    | cons p t => simp at hs; rw [← hs.2]; exact .same
  | waitDequeueNotification_enter pWI =>
    right
    refine ⟨by simp, ?_⟩
    simp only [PriorityNotificationQueue.step, waitDequeueNotification_enter, dequeueOne] at hs
    cases store with
    | nil =>
      simp at hs
      obtain ⟨hfresh, -, hq⟩ := hs
      rw [← hq]
      exact .park pWI hfresh
    | cons e0 t =>
      obtain ⟨k, p⟩ := e0
      cases p with
      | none =>
        simp at hs
        obtain ⟨hfresh, -, hq⟩ := hs
        rw [← hq]
        exact .park pWI hfresh
      | some n => simp at hs; rw [← hs.2]; exact .same
  | waitDequeueNotification_signalled pWI =>
    right
    refine ⟨by simp, ?_⟩
    simp only [PriorityNotificationQueue.step, waitDequeueNotification_signalled] at hs
    cases hd : Heap.deref pWI h with
    | none => rw [hd] at hs; simp at hs
    | some w =>
      rw [hd] at hs
      by_cases hsig : w.nfAvailable = true
      · simp [hsig] at hs
        rw [← hs.2]
        exact .resume pWI w hd hsig
      · simp [hsig] at hs
  | waitDequeueNotification_timeout pWI =>
    right
    refine ⟨by simp, ?_⟩
    simp only [PriorityNotificationQueue.step, waitDequeueNotification_timeout] at hs
    cases hd : Heap.deref pWI h with
    | none => rw [hd] at hs; simp at hs
    | some w =>
      rw [hd] at hs
      simp at hs
      rw [← hs.2]
      exact .timeout pWI w hd
  | dispatch =>
    right
    refine ⟨by simp, ?_⟩
    simp only [PriorityNotificationQueue.step, pnq_dispatch_eq] at hs
    simp at hs
    rw [← hs.2]
    exact .same
  | wakeUpAll =>
    left
    simp only [PriorityNotificationQueue.step, wakeUpAll] at hs
    simp at hs
    rw [← hs.2]
    exact ⟨rfl, rfl, rfl⟩
  | clear =>
    right
    refine ⟨by simp, ?_⟩
    simp only [PriorityNotificationQueue.step, clear] at hs
    simp at hs
    rw [← hs.2]
    exact .same

end PriorityNotificationQueue

namespace NotificationQueue

/-- Along a schedule without `wakeUpAll`, slot `b` does not become signalled with an empty
item field. -/
theorem nq_run_signalled_full {acts : List Action} {q q' : NotificationQueue}
    {es : List Outcome} (inv : Inv q) (b : WaitInfoPtr)
    (full : ∀ w, Heap.deref b q.heap = some w → w.nfAvailable = true → w.pNf ≠ none)
    (hr : run acts q = some (es, q')) (hacts : Action.wakeUpAll ∉ acts) :
    ∀ w, Heap.deref b q'.heap = some w → w.nfAvailable = true → w.pNf ≠ none := by
  induction acts generalizing q es with
  | nil =>
    simp only [run, Option.some.injEq, Prod.mk.injEq] at hr
    obtain ⟨-, rfl⟩ := hr
    exact full
  | cons a rest ih =>
    simp only [run] at hr
    cases hstep : step a q with
    | none => rw [hstep] at hr; simp at hr
    | some r =>
      obtain ⟨e, q1⟩ := r
      rw [hstep] at hr
      simp only at hr
      cases hrest : run rest q1 with
      | none => rw [hrest] at hr; simp at hr
      | some r2 =>
        obtain ⟨es2, q2⟩ := r2
        rw [hrest] at hr
        simp only [Option.some.injEq, Prod.mk.injEq] at hr
        obtain ⟨-, rfl⟩ := hr
        have ha : a ≠ .wakeUpAll := fun e => hacts (by simp [e])
        have hrest' : Action.wakeUpAll ∉ rest := fun hm => hacts (by simp [hm])
        rcases nq_step_cases hstep with ⟨hw, -⟩ | ⟨-, hquiet⟩
        · exact absurd hw ha
        · exact ih (nq_inv_step inv hstep) (hquiet.signalled_full inv.wait b full) hrest
            hrest'

end NotificationQueue

namespace PriorityNotificationQueue

/-- Along a schedule without `wakeUpAll`, slot `b` does not become signalled with an empty
item field. -/
theorem pnq_run_signalled_full {acts : List Action} {q q' : PriorityNotificationQueue}
    {es : List Outcome} (inv : Inv q) (b : WaitInfoPtr)
    (full : ∀ w, Heap.deref b q.heap = some w → w.nfAvailable = true → w.pNf ≠ none)
    (hr : run acts q = some (es, q')) (hacts : Action.wakeUpAll ∉ acts) :
    ∀ w, Heap.deref b q'.heap = some w → w.nfAvailable = true → w.pNf ≠ none := by
  induction acts generalizing q es with
  | nil =>
    simp only [run, Option.some.injEq, Prod.mk.injEq] at hr
    obtain ⟨-, rfl⟩ := hr
    exact full
  | cons a rest ih =>
    simp only [run] at hr
    cases hstep : step a q with
    | none => rw [hstep] at hr; simp at hr
    | some r =>
      obtain ⟨e, q1⟩ := r
      rw [hstep] at hr
      simp only at hr
      cases hrest : run rest q1 with
      | none => rw [hrest] at hr; simp at hr
      | some r2 =>
        obtain ⟨es2, q2⟩ := r2
        rw [hrest] at hr
        simp only [Option.some.injEq, Prod.mk.injEq] at hr
        obtain ⟨-, rfl⟩ := hr
        have ha : a ≠ .wakeUpAll := fun e => hacts (by simp [e])
        have hrest' : Action.wakeUpAll ∉ rest := fun hm => hacts (by simp [hm])
        rcases pnq_step_cases hstep with ⟨hw, -⟩ | ⟨-, hquiet⟩
        · exact absurd hw ha
        · exact ih (pnq_inv_step inv hstep) (hquiet.signalled_full inv.wait b full) hrest
            hrest'

end PriorityNotificationQueue

/-- What a step, of either kind, can do to a slot that stays allocated: if the item field
changes, the slot was the front of the wait queue, parked, and is popped and signalled; if
the slot was not in the wait queue, its record does not change and it stays out. -/
theorem slot_write_cases {wq wq' : List WaitInfoPtr} {h h' : Heap}
    (inv : WaitInv wq h) (inv' : WaitInv wq' h')
    (st : (wq' = [] ∧ h' = signalAll wq h) ∨ QuietStep wq h wq' h')
    {b : WaitInfoPtr} {w w' : WaitInfo}
    (hd : Heap.deref b h = some w) (hd' : Heap.deref b h' = some w') :
    (w'.pNf ≠ w.pNf →
      (∃ rest, wq = b :: rest ∧ wq' = rest) ∧ b ∉ wq' ∧
        w = { pNf := none, nfAvailable := false } ∧ w'.nfAvailable = true) ∧
    (b ∉ wq → w' = w ∧ b ∉ wq') := by
  constructor
  · intro hne
    have hne' : w' ≠ w := fun e => hne (by rw [e])
    rcases st with ⟨-, hh⟩ | hq
    · rw [hh] at hd'
      obtain ⟨-, h1, h2⟩ := signalAll_changed inv hd hd' hne'
      rw [h1, h2] at hne
      exact absurd rfl hne
    · obtain ⟨rest, n, h1, h2, h3, h4⟩ := hq.changed inv hd hd' hne'
      refine ⟨⟨rest, h1, h2⟩, ?_, h3, by rw [h4]⟩
      have hnd := inv.waitNodup
      rw [h1, List.nodup_cons] at hnd
      rw [h2]
      exact hnd.1
  · intro hb
    have heq : w' = w := by
      by_contra hne'
      rcases st with ⟨-, hh⟩ | hq
      · rw [hh] at hd'
        exact hb (signalAll_changed inv hd hd' hne').1
      · obtain ⟨rest, n, h1, -⟩ := hq.changed inv hd hd' hne'
        exact hb (by simp [h1])
    refine ⟨heq, ?_⟩
    have hsig : w.nfAvailable = true := inv.detached b w hd hb
    rw [heq] at hd'
    exact inv'.notMem_of_signalled hd' hsig

/-! ## The claims -/

/-- C1. Queue invariant, both flavors: in every state reachable from the freshly
constructed queue by atomic steps, a non-empty wait queue implies an empty backing store;
in particular `poco_assert_dbg(_nfQueue.empty())` in
`PriorityNotificationQueue::enqueueNotification` never fails in a reachable state. -/
theorem queue_invariant :
    (∀ q : NotificationQueue, NotificationQueue.Reachable q →
      q._waitQueue ≠ [] → q._nfQueue = []) ∧
    (∀ q : PriorityNotificationQueue, PriorityNotificationQueue.Reachable q →
      q._waitQueue ≠ [] → q._nfQueue = []) ∧
    (∀ (q : PriorityNotificationQueue) (pNotification : Ptr) (priority : Int),
      PriorityNotificationQueue.Reachable q →
      PriorityNotificationQueue.enqueueNotification pNotification priority q ≠
        .error .assertion) := by
  refine ⟨fun q hq => (NotificationQueue.nq_inv_of_reachable hq).storeEmpty,
    fun q hq => (PriorityNotificationQueue.pnq_inv_of_reachable hq).storeEmpty, ?_⟩
  intro q p prio hq
  have hse := (PriorityNotificationQueue.pnq_inv_of_reachable hq).storeEmpty
  unfold PriorityNotificationQueue.enqueueNotification
  cases p with
  | none => simp
  | some n =>
    cases hwq : q._waitQueue with
    | nil => simp
    | cons a rest =>
      have : q._nfQueue = [] := hse (by simp [hwq])
      simp [this]

/-- C1 at concrete states: one consumer parked on slot 7 in each flavor. -/
theorem queue_invariant_witness :
    (NotificationQueue.mk [] [7] [(7, ⟨none, false⟩)])._nfQueue = [] ∧
    (PriorityNotificationQueue.mk [] [7] [(7, ⟨none, false⟩)])._nfQueue = [] ∧
    PriorityNotificationQueue.enqueueNotification (some 1) 0
        (PriorityNotificationQueue.mk [] [7] [(7, ⟨none, false⟩)]) ≠ .error .assertion :=
  ⟨queue_invariant.1 _
      (NotificationQueue.Reachable.step (.waitDequeueNotification_enter 7) .init rfl)
      (by decide),
    queue_invariant.2.1 _
      (PriorityNotificationQueue.Reachable.step (.waitDequeueNotification_enter 7) .init rfl)
      (by decide),
    queue_invariant.2.2 _ (some 1) 0
      (PriorityNotificationQueue.Reachable.step (.waitDequeueNotification_enter 7) .init rfl)⟩

/-- C2. At-most-once delivery, both flavors: along every schedule of atomic steps from the
freshly constructed queue, the accepted (non-null) items are exactly, as a multiset, the
items still buffered or held in a not-yet-returned slot, the items returned by dequeue
calls, and the items dropped by `clear` or posted by `dispatch`.  Hence the number of
non-null dequeue results is at most the number of accepted items, every returned item was
enqueued, distinct items are returned at most once and are in exactly one place, and when
nothing is held or dropped every item was returned exactly once. -/
theorem at_most_once_delivery :
    (∀ (acts : List NotificationQueue.Action) (es : List Outcome) (q : NotificationQueue),
      NotificationQueue.run acts NotificationQueue.new = some (es, q) →
      AtMostOnce es q.items) ∧
    (∀ (acts : List PriorityNotificationQueue.Action) (es : List Outcome)
        (q : PriorityNotificationQueue),
      PriorityNotificationQueue.run acts PriorityNotificationQueue.new = some (es, q) →
      AtMostOnce es q.items) :=
  ⟨fun _ _ _ hr =>
      atMostOnce_of_perm (NotificationQueue.nq_run_items NotificationQueue.nq_inv_new hr).2,
    fun _ _ _ hr =>
      atMostOnce_of_perm
        (PriorityNotificationQueue.pnq_run_items PriorityNotificationQueue.pnq_inv_new hr).2⟩

/-- C2 on concrete schedules: two consumers park, three items are enqueued, one consumer
resumes, the other times out, a third call dequeues. -/
theorem at_most_once_delivery_witness :
    AtMostOnce
      [.parked 7, .parked 8, .accepted (some 1), .accepted (some 2), .accepted (some 3),
        .returned (some 2), .returned (some 1), .returned (some 3)] [] ∧
    AtMostOnce
      [.parked 7, .parked 8, .accepted (some 1), .accepted (some 2), .accepted (some 3),
        .returned (some 2), .returned (some 1), .returned (some 3)] [] :=
  ⟨at_most_once_delivery.1
      [.waitDequeueNotification_enter 7, .waitDequeueNotification_enter 8,
        .enqueueNotification (some 1), .enqueueUrgentNotification (some 2),
        .enqueueNotification (some 3), .waitDequeueNotification_signalled 8,
        .waitDequeueNotification_timeout 7, .dequeueNotification] _ _ rfl,
    at_most_once_delivery.2
      [.waitDequeueNotification_enter 7, .waitDequeueNotification_enter 8,
        .enqueueNotification (some 1) 5, .enqueueNotification (some 2) 0,
        .enqueueNotification (some 3) 2, .waitDequeueNotification_signalled 8,
        .waitDequeueNotification_timeout 7, .dequeueNotification] _ _ rfl⟩

/-- C3. FIFO order: enqueuing non-null items `e1..en` in order with `enqueueNotification`
on a queue with empty backing store and no waiting consumers succeeds, `n` calls of
`dequeueNotification` then return `e1..en` in that order, and one more call returns
null. -/
theorem fifo_order (q : NotificationQueue) (items : List Ptr)
    (hstore : q._nfQueue = []) (hwait : q._waitQueue = [])
    (hnn : ∀ p ∈ items, p ≠ none) :
    ∃ q', NotificationQueue.enqueueAll items q = .ok q' ∧
      (NotificationQueue.dequeueMany items.length q').1 = items ∧
      (NotificationQueue.dequeueNotification
        (NotificationQueue.dequeueMany items.length q').2).1 = none := by
  refine ⟨_, NotificationQueue.nq_enqueueAll_eq items q hwait hnn, ?_, ?_⟩
  · rw [NotificationQueue.nq_dequeueMany_eq]
    simp [hstore]
  · rw [NotificationQueue.nq_dequeueMany_eq]
    simp [hstore, NotificationQueue.dequeueNotification, NotificationQueue.dequeueOne,
      Ptr.duplicate]

/-- C3 on the fresh queue with three items. -/
theorem fifo_order_witness :
    ∃ q', NotificationQueue.enqueueAll [some 1, some 2, some 3] NotificationQueue.new = .ok q' ∧
      (NotificationQueue.dequeueMany [some 1, some 2, some 3].length q').1 =
        [some 1, some 2, some 3] ∧
      (NotificationQueue.dequeueNotification
        (NotificationQueue.dequeueMany [some 1, some 2, some 3].length q').2).1 = none :=
  fifo_order NotificationQueue.new [some 1, some 2, some 3] rfl rfl (by decide)

/-- C4. Urgent jumps the line: with an empty wait queue and backing store contents `s`,
`enqueueUrgentNotification(c)` for non-null `c` succeeds and leaves the store equal to `c`
followed by `s` (wait queue and slots untouched); the next `dequeueNotification` returns
`c` and restores the previous state, and the following dequeues return `s` in its order.
Example: `enqueue(a)`, `enqueue(b)`, `enqueueUrgent(c)` on the fresh queue dequeues as
`c, a, b`. -/
theorem urgent_jumps_the_line :
    (∀ (q : NotificationQueue) (c : Ptr), q._waitQueue = [] → c ≠ none →
      ∃ q', NotificationQueue.enqueueUrgentNotification c q = .ok q' ∧
        q' = { q with _nfQueue := c :: q._nfQueue } ∧
        NotificationQueue.dequeueNotification q' = (c, q) ∧
        (NotificationQueue.dequeueMany (q._nfQueue.length + 1) q').1 = c :: q._nfQueue) ∧
    (∀ a b c : Notification,
      ∃ q₁ q₂ q₃,
        NotificationQueue.enqueueNotification (some a) NotificationQueue.new = .ok q₁ ∧
        NotificationQueue.enqueueNotification (some b) q₁ = .ok q₂ ∧
        NotificationQueue.enqueueUrgentNotification (some c) q₂ = .ok q₃ ∧
        (NotificationQueue.dequeueMany 3 q₃).1 = [some c, some a, some b]) := by
  constructor
  · intro q c hwait hc
    refine ⟨_, by simp [NotificationQueue.enqueueUrgentNotification, hc, hwait], rfl, ?_, ?_⟩
    · simp [NotificationQueue.dequeueNotification, NotificationQueue.dequeueOne, Ptr.duplicate]
    · rw [NotificationQueue.nq_dequeueMany_eq]
      simp
  · intro a b c
    exact ⟨_, _, _, rfl, rfl, rfl, rfl⟩

/-- C4 at a concrete state: store `[1, 2]`, urgent item `3`. -/
theorem urgent_jumps_the_line_witness :
    ∃ q', NotificationQueue.enqueueUrgentNotification (some 3) ⟨[some 1, some 2], [], []⟩ =
        .ok q' ∧
      q' = ⟨[some 3, some 1, some 2], [], []⟩ ∧
      NotificationQueue.dequeueNotification q' = (some 3, ⟨[some 1, some 2], [], []⟩) ∧
      (NotificationQueue.dequeueMany 3 q').1 = [some 3, some 1, some 2] :=
  urgent_jumps_the_line.1 ⟨[some 1, some 2], [], []⟩ (some 3) rfl (by decide)

/-- C5. Priority order.  (1) In every reachable state of a `PriorityNotificationQueue`
whose store is non-empty, `dequeueNotification` removes exactly the first entry and returns
its item, and the priority of that entry is the minimum of the priorities buffered.
(2) Enqueuing any list of (priority, non-null item) pairs on a queue with empty store and no
waiting consumers succeeds; the store is then a rearrangement of the pairs in non-decreasing
priority order, and as many dequeues as there are pairs return the items in that order
(so in non-decreasing priority, and exactly the multiset enqueued) and empty the store.
(3) Example: `(5, low)`, `(1, high)`, `(3, mid)` dequeues as `high, mid, low`. -/
theorem priority_order :
    (∀ (q : PriorityNotificationQueue) (k : Int) (p : Ptr) (rest : List (Int × Ptr)),
      PriorityNotificationQueue.Reachable q → q._nfQueue = (k, p) :: rest →
      PriorityNotificationQueue.dequeueNotification q = (p, { q with _nfQueue := rest }) ∧
        ∀ e ∈ q._nfQueue, k ≤ e.1) ∧
    (∀ (q : PriorityNotificationQueue) (l : List (Int × Ptr)),
      q._nfQueue = [] → q._waitQueue = [] → (∀ e ∈ l, e.2 ≠ none) →
      ∃ q', PriorityNotificationQueue.enqueueAll l q = .ok q' ∧
        List.Perm q'._nfQueue l ∧
        q'._nfQueue.Pairwise (fun e₁ e₂ => e₁.1 ≤ e₂.1) ∧
        (PriorityNotificationQueue.dequeueMany l.length q').1 = q'._nfQueue.map Prod.snd ∧
        (PriorityNotificationQueue.dequeueMany l.length q').2._nfQueue = []) ∧
    (∀ low high mid : Notification,
      ∃ q', PriorityNotificationQueue.enqueueAll
          [(5, some low), (1, some high), (3, some mid)] PriorityNotificationQueue.new = .ok q' ∧
        (PriorityNotificationQueue.dequeueMany 3 q').1 = [some high, some mid, some low]) := by
  refine ⟨?_, ?_, ?_⟩
  · intro q k p rest hq hstore
    have hso := (PriorityNotificationQueue.pnq_inv_of_reachable hq).sorted
    constructor
    · simp [PriorityNotificationQueue.dequeueNotification, PriorityNotificationQueue.dequeueOne,
        hstore, Ptr.duplicate]
    · intro e he
      rw [hstore] at hso he
      rcases List.mem_cons.1 he with he | he
      · subst he; exact le_refl _
      · exact (List.pairwise_cons.1 hso).1 e he
  · intro q l hstore hwait hnn
    obtain ⟨s, h1, h2, h3⟩ := PriorityNotificationQueue.pnq_enqueueAll_eq l q hwait hnn
    rw [hstore] at h2 h3
    have hlen : s.length = l.length := by simpa using h2.length_eq
    refine ⟨_, h1, by simpa using h2, h3 List.Pairwise.nil, ?_, ?_⟩
    · rw [PriorityNotificationQueue.pnq_dequeueMany_eq]
      simp [← hlen]
    · rw [PriorityNotificationQueue.pnq_dequeueMany_eq]
      simp [← hlen]
  · intro low high mid
    exact ⟨_, rfl, rfl⟩

/-- C5 at concrete inputs: a reachable state with store `[(1, 11), (5, 10)]`, and the three
item example on the fresh queue. -/
theorem priority_order_witness :
    (PriorityNotificationQueue.dequeueNotification ⟨[(1, some 11), (5, some 10)], [], []⟩ =
        (some 11, ⟨[(5, some 10)], [], []⟩) ∧
      ∀ e ∈ [((1 : Int), some 11), (5, some 10)], (1 : Int) ≤ e.1) ∧
    (∃ q', PriorityNotificationQueue.enqueueAll
          [(5, some 10), (1, some 11), (3, some 12)] PriorityNotificationQueue.new = .ok q' ∧
        List.Perm q'._nfQueue [(5, some 10), (1, some 11), (3, some 12)] ∧
        q'._nfQueue.Pairwise (fun e₁ e₂ => e₁.1 ≤ e₂.1) ∧
        (PriorityNotificationQueue.dequeueMany
          [((5 : Int), some 10), (1, some 11), (3, some 12)].length q').1 =
            q'._nfQueue.map Prod.snd ∧
        (PriorityNotificationQueue.dequeueMany
          [((5 : Int), some 10), (1, some 11), (3, some 12)].length q').2._nfQueue = []) :=
  ⟨priority_order.1 ⟨[(1, some 11), (5, some 10)], [], []⟩ 1 (some 11) [(5, some 10)]
      (PriorityNotificationQueue.Reachable.step (.enqueueNotification (some 11) 1)
        (PriorityNotificationQueue.Reachable.step (.enqueueNotification (some 10) 5) .init rfl)
        rfl) rfl,
    priority_order.2.1 PriorityNotificationQueue.new
      [(5, some 10), (1, some 11), (3, some 12)] rfl rfl (by decide)⟩

/-- C6. Direct hand-off bypasses storage, both flavors (and the urgent enqueue of the FIFO
flavor): in a reachable state whose wait queue is `pWI :: rest`, enqueuing a non-null item
`x` succeeds, leaves the wait queue equal to `rest`, leaves the backing store unchanged
(so `size()` is unchanged and `x` is not buffered), leaves slot `pWI` holding `x` with its
event set and every other slot untouched; and after any further schedule of steps of other
callers, the consumer owning `pWI` returns `x`, whether it resumes on the signal or through
its timeout branch. -/
theorem direct_handoff :
    (∀ (q : NotificationQueue) (pWI : WaitInfoPtr) (rest : List WaitInfoPtr)
        (x : Notification) (urgent : Bool),
      NotificationQueue.Reachable q → q._waitQueue = pWI :: rest →
      ∃ q', (if urgent then NotificationQueue.enqueueUrgentNotification (some x) q
              else NotificationQueue.enqueueNotification (some x) q) = .ok q' ∧
        q'._waitQueue = rest ∧ q'._nfQueue = q._nfQueue ∧
        NotificationQueue.size q' = NotificationQueue.size q ∧ some x ∉ q'._nfQueue ∧
        Heap.deref pWI q'.heap = some { pNf := some x, nfAvailable := true } ∧
        (∀ b, b ≠ pWI → Heap.deref b q'.heap = Heap.deref b q.heap) ∧
        ∀ (acts : List NotificationQueue.Action) (es : List Outcome) (q₂ : NotificationQueue),
          NotificationQueue.run acts q' = some (es, q₂) →
          (∀ a ∈ acts, a ≠ .waitDequeueNotification_signalled pWI ∧
            a ≠ .waitDequeueNotification_timeout pWI) →
          (NotificationQueue.waitDequeueNotification_signalled pWI q₂).map Prod.fst =
            some (some x) ∧
          (NotificationQueue.waitDequeueNotification_timeout pWI q₂).map Prod.fst =
            some (some x)) ∧
    (∀ (q : PriorityNotificationQueue) (pWI : WaitInfoPtr) (rest : List WaitInfoPtr)
        (x : Notification) (priority : Int),
      PriorityNotificationQueue.Reachable q → q._waitQueue = pWI :: rest →
      ∃ q', PriorityNotificationQueue.enqueueNotification (some x) priority q = .ok q' ∧
        q'._waitQueue = rest ∧ q'._nfQueue = q._nfQueue ∧
        PriorityNotificationQueue.size q' = PriorityNotificationQueue.size q ∧
        (∀ k, (k, some x) ∉ q'._nfQueue) ∧
        Heap.deref pWI q'.heap = some { pNf := some x, nfAvailable := true } ∧
        (∀ b, b ≠ pWI → Heap.deref b q'.heap = Heap.deref b q.heap) ∧
        ∀ (acts : List PriorityNotificationQueue.Action) (es : List Outcome)
            (q₂ : PriorityNotificationQueue),
          PriorityNotificationQueue.run acts q' = some (es, q₂) →
          (∀ a ∈ acts, a ≠ .waitDequeueNotification_signalled pWI ∧
            a ≠ .waitDequeueNotification_timeout pWI) →
          (PriorityNotificationQueue.waitDequeueNotification_signalled pWI q₂).map Prod.fst =
            some (some x) ∧
          (PriorityNotificationQueue.waitDequeueNotification_timeout pWI q₂).map Prod.fst =
            some (some x)) := by
  constructor
  · intro q pWI rest x urgent hq hwq
    have inv := NotificationQueue.nq_inv_of_reachable hq
    have hstore : q._nfQueue = [] := inv.storeEmpty (by simp [hwq])
    have hw := inv.wait
    rw [hwq] at hw
    obtain ⟨hd, hother⟩ := hw.deref_handOff (some x)
    have hstep : NotificationQueue.step
        (if urgent then .enqueueUrgentNotification (some x) else .enqueueNotification (some x))
        q = some (.accepted (some x),
          ⟨q._nfQueue, rest, Heap.setEvent pWI (Heap.setPNf pWI (some x) q.heap)⟩) := by
      cases urgent <;>
        simp [NotificationQueue.step, NotificationQueue.enqueueNotification,
          NotificationQueue.enqueueUrgentNotification, hwq]
    have inv' := NotificationQueue.nq_inv_step inv hstep
    refine ⟨⟨q._nfQueue, rest, Heap.setEvent pWI (Heap.setPNf pWI (some x) q.heap)⟩,
      ?_, rfl, rfl, rfl, by simp [hstore], hd, hother, ?_⟩
    · cases urgent <;>
        simp [NotificationQueue.enqueueNotification,
          NotificationQueue.enqueueUrgentNotification, hwq]
    · intro acts es q₂ hr hacts
      have hd₂ := NotificationQueue.nq_run_signalled_stable inv' hr hd rfl hacts
      constructor
      · simp [NotificationQueue.waitDequeueNotification_signalled, hd₂, Ptr.duplicate]
      · simp [NotificationQueue.waitDequeueNotification_timeout, hd₂, Ptr.duplicate]
  · intro q pWI rest x priority hq hwq
    have inv := PriorityNotificationQueue.pnq_inv_of_reachable hq
    have hstore : q._nfQueue = [] := inv.storeEmpty (by simp [hwq])
    have hw := inv.wait
    rw [hwq] at hw
    obtain ⟨hd, hother⟩ := hw.deref_handOff (some x)
    have hstep : PriorityNotificationQueue.step (.enqueueNotification (some x) priority) q =
        some (.accepted (some x),
          ⟨q._nfQueue, rest, Heap.setEvent pWI (Heap.setPNf pWI (some x) q.heap)⟩) := by
      simp [PriorityNotificationQueue.step, PriorityNotificationQueue.enqueueNotification,
        hwq, hstore]
    have inv' := PriorityNotificationQueue.pnq_inv_step inv hstep
    refine ⟨⟨q._nfQueue, rest, Heap.setEvent pWI (Heap.setPNf pWI (some x) q.heap)⟩,
      ?_, rfl, rfl, rfl, by simp [hstore], hd, hother, ?_⟩
    · simp [PriorityNotificationQueue.enqueueNotification, hwq, hstore]
    · intro acts es q₂ hr hacts
      have hd₂ := PriorityNotificationQueue.pnq_run_signalled_stable inv' hr hd rfl hacts
      constructor
      · simp [PriorityNotificationQueue.waitDequeueNotification_signalled, hd₂, Ptr.duplicate]
      · simp [PriorityNotificationQueue.waitDequeueNotification_timeout, hd₂, Ptr.duplicate]

/-- C6 at concrete states: one consumer parked on slot 7, item 1 is enqueued, then another
caller enqueues item 2 before the consumer resumes. -/
theorem direct_handoff_witness :
    (∃ q', NotificationQueue.enqueueNotification (some 1) ⟨[], [7], [(7, ⟨none, false⟩)]⟩ =
          .ok q' ∧
        q'._waitQueue = [] ∧ q'._nfQueue = [] ∧
        Heap.deref 7 q'.heap = some { pNf := some 1, nfAvailable := true } ∧
        (NotificationQueue.waitDequeueNotification_signalled 7
          ⟨[some 2], [], [(7, ⟨some 1, true⟩)]⟩).map Prod.fst = some (some 1)) ∧
    (∃ q', PriorityNotificationQueue.enqueueNotification (some 1) 0
            ⟨[], [7], [(7, ⟨none, false⟩)]⟩ = .ok q' ∧
        q'._waitQueue = [] ∧ q'._nfQueue = [] ∧
        Heap.deref 7 q'.heap = some { pNf := some 1, nfAvailable := true } ∧
        (PriorityNotificationQueue.waitDequeueNotification_signalled 7
          ⟨[(3, some 2)], [], [(7, ⟨some 1, true⟩)]⟩).map Prod.fst = some (some 1)) := by
  constructor
  · obtain ⟨q', h1, h2, h3, -, -, h4, -, h5⟩ :=
      direct_handoff.1 ⟨[], [7], [(7, ⟨none, false⟩)]⟩ 7 [] 1 false
        (NotificationQueue.Reachable.step (.waitDequeueNotification_enter 7) .init rfl) rfl
    have hq : q' = ⟨[], [], [(7, ⟨some 1, true⟩)]⟩ := by
      have : (Except.ok q' : Except Bugcheck _) = .ok ⟨[], [], [(7, ⟨some 1, true⟩)]⟩ :=
        h1.symm.trans rfl
      exact Except.ok.inj this
    refine ⟨q', h1, h2, h3, h4, ?_⟩
    subst hq
    exact (h5 [.enqueueNotification (some 2)] _ _ rfl (by decide)).1
  · obtain ⟨q', h1, h2, h3, -, -, h4, -, h5⟩ :=
      direct_handoff.2 ⟨[], [7], [(7, ⟨none, false⟩)]⟩ 7 [] 1 0
        (PriorityNotificationQueue.Reachable.step (.waitDequeueNotification_enter 7) .init rfl)
        rfl
    have hq : q' = ⟨[], [], [(7, ⟨some 1, true⟩)]⟩ := by
      have : (Except.ok q' : Except Bugcheck _) = .ok ⟨[], [], [(7, ⟨some 1, true⟩)]⟩ :=
        h1.symm.trans rfl
      exact Except.ok.inj this
    refine ⟨q', h1, h2, h3, h4, ?_⟩
    subst hq
    exact (h5 [.enqueueNotification (some 2) 3] _ _ rfl (by decide)).1

/-- C7. Waiters are served in parking order, both flavors: starting in a reachable state
with empty backing store and empty wait queue, if consumers park on fresh, pairwise
distinct slots `w1..wk` in that order and then `k` non-null items `x1..xk` are enqueued in
that order (FIFO flavor: each by the plain or the urgent enqueue, chosen freely; priority
flavor: with arbitrary priorities), every step can be taken, slot `wi` ends up holding
`xi` with its event set, so that its owner returns `xi`, and afterwards the wait queue and
the backing store are both empty. -/
theorem waiters_served_in_parking_order :
    (∀ (q : NotificationQueue) (ws : List WaitInfoPtr) (xs : List (Ptr × Bool)),
      NotificationQueue.Reachable q → q._nfQueue = [] → q._waitQueue = [] →
      ws.Nodup → (∀ w ∈ ws, Heap.deref w q.heap = none) →
      xs.length = ws.length → (∀ x ∈ xs, x.1 ≠ none) →
      ∃ q', NotificationQueue.run
            (ws.map NotificationQueue.Action.waitDequeueNotification_enter ++
              xs.map fun x => if x.2 then NotificationQueue.Action.enqueueUrgentNotification x.1
                              else NotificationQueue.Action.enqueueNotification x.1) q =
          some (ws.map Outcome.parked ++ xs.map fun x => Outcome.accepted x.1, q') ∧
        q'._waitQueue = [] ∧ q'._nfQueue = [] ∧
        ∀ wx ∈ ws.zip xs,
          Heap.deref wx.1 q'.heap = some { pNf := wx.2.1, nfAvailable := true } ∧
          (NotificationQueue.waitDequeueNotification_signalled wx.1 q').map Prod.fst =
            some wx.2.1) ∧
    (∀ (q : PriorityNotificationQueue) (ws : List WaitInfoPtr) (xs : List (Ptr × Int)),
      PriorityNotificationQueue.Reachable q → q._nfQueue = [] → q._waitQueue = [] →
      ws.Nodup → (∀ w ∈ ws, Heap.deref w q.heap = none) →
      xs.length = ws.length → (∀ x ∈ xs, x.1 ≠ none) →
      ∃ q', PriorityNotificationQueue.run
            (ws.map PriorityNotificationQueue.Action.waitDequeueNotification_enter ++
              xs.map fun x => PriorityNotificationQueue.Action.enqueueNotification x.1 x.2) q =
          some (ws.map Outcome.parked ++ xs.map fun x => Outcome.accepted x.1, q') ∧
        q'._waitQueue = [] ∧ q'._nfQueue = [] ∧
        ∀ wx ∈ ws.zip xs,
          Heap.deref wx.1 q'.heap = some { pNf := wx.2.1, nfAvailable := true } ∧
          (PriorityNotificationQueue.waitDequeueNotification_signalled wx.1 q').map Prod.fst =
            some wx.2.1) := by
  constructor
  · intro q ws xs hq hstore hwq hnd hfresh hlen hnn
    obtain ⟨q₁, r1, inv1, s1, w1⟩ := NotificationQueue.nq_park_all ws q
      (NotificationQueue.nq_inv_of_reachable hq) hstore hnd hfresh
    rw [hwq, List.nil_append] at w1
    obtain ⟨q₂, r2, w2, s2, d2, -⟩ := NotificationQueue.nq_serve_all ws xs q₁ inv1 w1 hlen hnn
    refine ⟨q₂, NotificationQueue.nq_run_append _ _ _ _ _ _ _ r1 r2, w2, s2.trans s1, ?_⟩
    intro wx hwx
    have hd := d2 wx hwx
    exact ⟨hd, by simp [NotificationQueue.waitDequeueNotification_signalled, hd, Ptr.duplicate]⟩
  · intro q ws xs hq hstore hwq hnd hfresh hlen hnn
    obtain ⟨q₁, r1, inv1, s1, w1⟩ := PriorityNotificationQueue.pnq_park_all ws q
      (PriorityNotificationQueue.pnq_inv_of_reachable hq) hstore hnd hfresh
    rw [hwq, List.nil_append] at w1
    obtain ⟨q₂, r2, w2, s2, d2, -⟩ :=
      PriorityNotificationQueue.pnq_serve_all ws xs q₁ inv1 w1 hlen hnn
    refine ⟨q₂, PriorityNotificationQueue.pnq_run_append _ _ _ _ _ _ _ r1 r2, w2,
      s2.trans s1, ?_⟩
    intro wx hwx
    have hd := d2 wx hwx
    exact ⟨hd,
      by simp [PriorityNotificationQueue.waitDequeueNotification_signalled, hd, Ptr.duplicate]⟩

/-- C7 on the fresh queues: slots 7 and 8 park, then items 1 and 2 arrive (the second one
urgent, respectively with the smaller priority). -/
theorem waiters_served_in_parking_order_witness :
    (∃ q', NotificationQueue.run
            ([7, 8].map NotificationQueue.Action.waitDequeueNotification_enter ++
              [(some 1, false), (some 2, true)].map fun x =>
                if x.2 then NotificationQueue.Action.enqueueUrgentNotification x.1
                else NotificationQueue.Action.enqueueNotification x.1)
            NotificationQueue.new =
          some ([7, 8].map Outcome.parked ++
            [(some 1, false), (some 2, true)].map fun x => Outcome.accepted x.1, q') ∧
        q'._waitQueue = [] ∧ q'._nfQueue = [] ∧
        ∀ wx ∈ [7, 8].zip [(some 1, false), (some 2, true)],
          Heap.deref wx.1 q'.heap = some { pNf := wx.2.1, nfAvailable := true } ∧
          (NotificationQueue.waitDequeueNotification_signalled wx.1 q').map Prod.fst =
            some wx.2.1) ∧
    (∃ q', PriorityNotificationQueue.run
            ([7, 8].map PriorityNotificationQueue.Action.waitDequeueNotification_enter ++
              [(some 1, (5 : Int)), (some 2, 0)].map fun x =>
                PriorityNotificationQueue.Action.enqueueNotification x.1 x.2)
            PriorityNotificationQueue.new =
          some ([7, 8].map Outcome.parked ++
            [(some 1, (5 : Int)), (some 2, 0)].map fun x => Outcome.accepted x.1, q') ∧
        q'._waitQueue = [] ∧ q'._nfQueue = [] ∧
        ∀ wx ∈ [7, 8].zip [(some 1, (5 : Int)), (some 2, 0)],
          Heap.deref wx.1 q'.heap = some { pNf := wx.2.1, nfAvailable := true } ∧
          (PriorityNotificationQueue.waitDequeueNotification_signalled wx.1 q').map Prod.fst =
            some wx.2.1) :=
  ⟨waiters_served_in_parking_order.1 NotificationQueue.new [7, 8]
      [(some 1, false), (some 2, true)] .init rfl rfl (by decide) (by decide) rfl (by decide),
    waiters_served_in_parking_order.2 PriorityNotificationQueue.new [7, 8]
      [(some 1, 5), (some 2, 0)] .init rfl rfl (by decide) (by decide) rfl (by decide)⟩

/-- C8. Timeout correctness under race, both flavors.  In a reachable state in which `pWI`
is an allocated slot (its owner registered it and has not returned), the timeout branch can
be taken and returns exactly the current content of the slot's item field; afterwards the
slot is not in the wait queue and is no longer allocated, and the backing store is
unchanged; if the slot was still queued the result is null.  If a producer handed an item
`x` to the front slot before the re-check, the timeout branch returns `x`.  And in a
reachable state with no allocated slot (every parked consumer has returned) the wait queue
has length 0. -/
theorem timeout_correctness :
    (∀ (q : NotificationQueue) (pWI : WaitInfoPtr) (w : WaitInfo),
      NotificationQueue.Reachable q → Heap.deref pWI q.heap = some w →
      ∃ q', NotificationQueue.waitDequeueNotification_timeout pWI q = some (w.pNf, q') ∧
        pWI ∉ q'._waitQueue ∧ Heap.deref pWI q'.heap = none ∧ q'._nfQueue = q._nfQueue ∧
        (pWI ∈ q._waitQueue → w.pNf = none)) ∧
    (∀ (q q₁ : NotificationQueue) (pWI : WaitInfoPtr) (rest : List WaitInfoPtr)
        (x : Notification),
      NotificationQueue.Reachable q → q._waitQueue = pWI :: rest →
      NotificationQueue.enqueueNotification (some x) q = .ok q₁ →
      (NotificationQueue.waitDequeueNotification_timeout pWI q₁).map Prod.fst =
        some (some x)) ∧
    (∀ q : NotificationQueue, NotificationQueue.Reachable q → q.heap = [] →
      q._waitQueue.length = 0) ∧
    (∀ (q : PriorityNotificationQueue) (pWI : WaitInfoPtr) (w : WaitInfo),
      PriorityNotificationQueue.Reachable q → Heap.deref pWI q.heap = some w →
      ∃ q', PriorityNotificationQueue.waitDequeueNotification_timeout pWI q =
          some (w.pNf, q') ∧
        pWI ∉ q'._waitQueue ∧ Heap.deref pWI q'.heap = none ∧ q'._nfQueue = q._nfQueue ∧
        (pWI ∈ q._waitQueue → w.pNf = none)) ∧
    (∀ (q q₁ : PriorityNotificationQueue) (pWI : WaitInfoPtr) (rest : List WaitInfoPtr)
        (x : Notification) (priority : Int),
      PriorityNotificationQueue.Reachable q → q._waitQueue = pWI :: rest →
      PriorityNotificationQueue.enqueueNotification (some x) priority q = .ok q₁ →
      (PriorityNotificationQueue.waitDequeueNotification_timeout pWI q₁).map Prod.fst =
        some (some x)) ∧
    (∀ q : PriorityNotificationQueue, PriorityNotificationQueue.Reachable q → q.heap = [] →
      q._waitQueue.length = 0) := by
  refine ⟨?_, ?_, ?_, ?_, ?_, ?_⟩
  · intro q pWI w hq hd
    have hw := (NotificationQueue.nq_inv_of_reachable hq).wait
    refine ⟨⟨q._nfQueue, eraseFirst pWI q._waitQueue, Heap.free pWI q.heap⟩, ?_, ?_, ?_, rfl,
      fun hm => hw.pNf_of_mem hd hm⟩
    · simp [NotificationQueue.waitDequeueNotification_timeout, hd, Ptr.duplicate]
    · exact not_mem_eraseFirst_of_nodup hw.waitNodup
    · simp [Heap.deref_free]
  · intro q q₁ pWI rest x hq hwq henq
    have hw := (NotificationQueue.nq_inv_of_reachable hq).wait
    rw [hwq] at hw
    simp [NotificationQueue.enqueueNotification, hwq] at henq
    subst henq
    simp [NotificationQueue.waitDequeueNotification_timeout, (hw.deref_handOff (some x)).1,
      Ptr.duplicate]
  · intro q hq hh
    have hw := (NotificationQueue.nq_inv_of_reachable hq).wait
    rw [hh] at hw
    rw [hw.wait_nil_of_heap_nil]; rfl
  · intro q pWI w hq hd
    have hw := (PriorityNotificationQueue.pnq_inv_of_reachable hq).wait
    refine ⟨⟨q._nfQueue, eraseFirst pWI q._waitQueue, Heap.free pWI q.heap⟩, ?_, ?_, ?_, rfl,
      fun hm => hw.pNf_of_mem hd hm⟩
    · simp [PriorityNotificationQueue.waitDequeueNotification_timeout, hd, Ptr.duplicate]
    · exact not_mem_eraseFirst_of_nodup hw.waitNodup
    · simp [Heap.deref_free]
  · intro q q₁ pWI rest x priority hq hwq henq
    have inv := PriorityNotificationQueue.pnq_inv_of_reachable hq
    have hstore : q._nfQueue = [] := inv.storeEmpty (by simp [hwq])
    have hw := inv.wait
    rw [hwq] at hw
    simp [PriorityNotificationQueue.enqueueNotification, hwq, hstore] at henq
    subst henq
    simp [PriorityNotificationQueue.waitDequeueNotification_timeout,
      (hw.deref_handOff (some x)).1, Ptr.duplicate]
  · intro q hq hh
    have hw := (PriorityNotificationQueue.pnq_inv_of_reachable hq).wait
    rw [hh] at hw
    rw [hw.wait_nil_of_heap_nil]; rfl

/-- C8 at concrete states: slot 7 was parked and a producer then handed item 1 to it; the
timeout branch of its owner returns item 1 and leaves no slot behind. -/
theorem timeout_correctness_witness :
    (∃ q', NotificationQueue.waitDequeueNotification_timeout 7
            ⟨[], [], [(7, ⟨some 1, true⟩)]⟩ = some ((WaitInfo.mk (some 1) true).pNf, q') ∧
        7 ∉ q'._waitQueue ∧ Heap.deref 7 q'.heap = none ∧
        q'._nfQueue = (NotificationQueue.mk [] [] [(7, ⟨some 1, true⟩)])._nfQueue ∧
        (7 ∈ (NotificationQueue.mk [] [] [(7, ⟨some 1, true⟩)])._waitQueue →
          (WaitInfo.mk (some 1) true).pNf = none)) ∧
    (NotificationQueue.waitDequeueNotification_timeout 7
        ⟨[], [], [(7, ⟨some 1, true⟩)]⟩).map Prod.fst = some (some 1) ∧
    (NotificationQueue.mk [] [] [])._waitQueue.length = 0 ∧
    (∃ q', PriorityNotificationQueue.waitDequeueNotification_timeout 7
            ⟨[], [], [(7, ⟨some 1, true⟩)]⟩ = some ((WaitInfo.mk (some 1) true).pNf, q') ∧
        7 ∉ q'._waitQueue ∧ Heap.deref 7 q'.heap = none ∧
        q'._nfQueue = (PriorityNotificationQueue.mk [] [] [(7, ⟨some 1, true⟩)])._nfQueue ∧
        (7 ∈ (PriorityNotificationQueue.mk [] [] [(7, ⟨some 1, true⟩)])._waitQueue →
          (WaitInfo.mk (some 1) true).pNf = none)) ∧
    (PriorityNotificationQueue.waitDequeueNotification_timeout 7
        ⟨[], [], [(7, ⟨some 1, true⟩)]⟩).map Prod.fst = some (some 1) ∧
    (PriorityNotificationQueue.mk [] [] [])._waitQueue.length = 0 :=
  ⟨timeout_correctness.1 ⟨[], [], [(7, ⟨some 1, true⟩)]⟩ 7 ⟨some 1, true⟩
      (NotificationQueue.Reachable.step (.enqueueNotification (some 1))
        (NotificationQueue.Reachable.step (.waitDequeueNotification_enter 7) .init rfl) rfl)
      rfl,
    timeout_correctness.2.1 ⟨[], [7], [(7, ⟨none, false⟩)]⟩ ⟨[], [], [(7, ⟨some 1, true⟩)]⟩
      7 [] 1
      (NotificationQueue.Reachable.step (.waitDequeueNotification_enter 7) .init rfl) rfl rfl,
    timeout_correctness.2.2.1 NotificationQueue.new .init rfl,
    timeout_correctness.2.2.2.1 ⟨[], [], [(7, ⟨some 1, true⟩)]⟩ 7 ⟨some 1, true⟩
      (PriorityNotificationQueue.Reachable.step (.enqueueNotification (some 1) 0)
        (PriorityNotificationQueue.Reachable.step (.waitDequeueNotification_enter 7) .init rfl)
        rfl)
      rfl,
    timeout_correctness.2.2.2.2.1 ⟨[], [7], [(7, ⟨none, false⟩)]⟩
      ⟨[], [], [(7, ⟨some 1, true⟩)]⟩ 7 [] 1 0
      (PriorityNotificationQueue.Reachable.step (.waitDequeueNotification_enter 7) .init rfl)
      rfl rfl,
    timeout_correctness.2.2.2.2.2 PriorityNotificationQueue.new .init rfl⟩

/-- C9. `wakeUpAll` releases all waiters, both flavors: in a reachable state, `wakeUpAll`
leaves the wait queue empty (`hasIdleThreads()` is false), leaves the backing store
unchanged, writes no slot's item field, sets the event of every slot that was queued and
changes no other slot; each consumer that was parked can then resume, also after any
further schedule of steps of other callers, and returns null. -/
theorem wake_all_releases_all_waiters :
    (∀ q : NotificationQueue, NotificationQueue.Reachable q →
      (NotificationQueue.wakeUpAll q)._waitQueue = [] ∧
      NotificationQueue.hasIdleThreads (NotificationQueue.wakeUpAll q) = false ∧
      (NotificationQueue.wakeUpAll q)._nfQueue = q._nfQueue ∧
      (∀ a, (Heap.deref a (NotificationQueue.wakeUpAll q).heap).map WaitInfo.pNf =
        (Heap.deref a q.heap).map WaitInfo.pNf) ∧
      (∀ a, a ∉ q._waitQueue →
        Heap.deref a (NotificationQueue.wakeUpAll q).heap = Heap.deref a q.heap) ∧
      (∀ a ∈ q._waitQueue,
        Heap.deref a (NotificationQueue.wakeUpAll q).heap =
          some { pNf := none, nfAvailable := true } ∧
        ∀ (acts : List NotificationQueue.Action) (es : List Outcome) (q₂ : NotificationQueue),
          NotificationQueue.run acts (NotificationQueue.wakeUpAll q) = some (es, q₂) →
          (∀ x ∈ acts, x ≠ .waitDequeueNotification_signalled a ∧
            x ≠ .waitDequeueNotification_timeout a) →
          (NotificationQueue.waitDequeueNotification_signalled a q₂).map Prod.fst =
            some none)) ∧
    (∀ q : PriorityNotificationQueue, PriorityNotificationQueue.Reachable q →
      (PriorityNotificationQueue.wakeUpAll q)._waitQueue = [] ∧
      PriorityNotificationQueue.hasIdleThreads (PriorityNotificationQueue.wakeUpAll q) = false ∧
      (PriorityNotificationQueue.wakeUpAll q)._nfQueue = q._nfQueue ∧
      (∀ a, (Heap.deref a (PriorityNotificationQueue.wakeUpAll q).heap).map WaitInfo.pNf =
        (Heap.deref a q.heap).map WaitInfo.pNf) ∧
      (∀ a, a ∉ q._waitQueue →
        Heap.deref a (PriorityNotificationQueue.wakeUpAll q).heap = Heap.deref a q.heap) ∧
      (∀ a ∈ q._waitQueue,
        Heap.deref a (PriorityNotificationQueue.wakeUpAll q).heap =
          some { pNf := none, nfAvailable := true } ∧
        ∀ (acts : List PriorityNotificationQueue.Action) (es : List Outcome)
            (q₂ : PriorityNotificationQueue),
          PriorityNotificationQueue.run acts (PriorityNotificationQueue.wakeUpAll q) =
            some (es, q₂) →
          (∀ x ∈ acts, x ≠ .waitDequeueNotification_signalled a ∧
            x ≠ .waitDequeueNotification_timeout a) →
          (PriorityNotificationQueue.waitDequeueNotification_signalled a q₂).map Prod.fst =
            some none)) := by
  constructor
  · intro q hq
    have inv := NotificationQueue.nq_inv_of_reachable hq
    have hw := inv.wait
    have inv' : NotificationQueue.Inv (NotificationQueue.wakeUpAll q) :=
      NotificationQueue.nq_inv_step inv
        (show NotificationQueue.step .wakeUpAll q = some (.woken, _) from rfl)
    refine ⟨rfl, rfl, rfl, ?_, ?_, ?_⟩
    · intro a
      simp only [NotificationQueue.wakeUpAll, deref_signalAll]
      split <;> cases Heap.deref a q.heap <;> rfl
    · intro a ha
      simp only [NotificationQueue.wakeUpAll, deref_signalAll, if_neg ha]
    · intro a ha
      have hd : Heap.deref a (NotificationQueue.wakeUpAll q).heap =
          some { pNf := none, nfAvailable := true } := by
        simp only [NotificationQueue.wakeUpAll, deref_signalAll, if_pos ha, hw.parked a ha]
        rfl
      refine ⟨hd, ?_⟩
      intro acts es q₂ hr hacts
      have hd₂ := NotificationQueue.nq_run_signalled_stable inv' hr hd rfl hacts
      simp [NotificationQueue.waitDequeueNotification_signalled, hd₂, Ptr.duplicate]
  · intro q hq
    have inv := PriorityNotificationQueue.pnq_inv_of_reachable hq
    have hw := inv.wait
    have inv' : PriorityNotificationQueue.Inv (PriorityNotificationQueue.wakeUpAll q) :=
      PriorityNotificationQueue.pnq_inv_step inv
        (show PriorityNotificationQueue.step .wakeUpAll q = some (.woken, _) from rfl)
    refine ⟨rfl, rfl, rfl, ?_, ?_, ?_⟩
    · intro a
      simp only [PriorityNotificationQueue.wakeUpAll, deref_signalAll]
      split <;> cases Heap.deref a q.heap <;> rfl
    · intro a ha
      simp only [PriorityNotificationQueue.wakeUpAll, deref_signalAll, if_neg ha]
    · intro a ha
      have hd : Heap.deref a (PriorityNotificationQueue.wakeUpAll q).heap =
          some { pNf := none, nfAvailable := true } := by
        simp only [PriorityNotificationQueue.wakeUpAll, deref_signalAll, if_pos ha,
          hw.parked a ha]
        rfl
      refine ⟨hd, ?_⟩
      intro acts es q₂ hr hacts
      have hd₂ := PriorityNotificationQueue.pnq_run_signalled_stable inv' hr hd rfl hacts
      simp [PriorityNotificationQueue.waitDequeueNotification_signalled, hd₂, Ptr.duplicate]

/-- C9 at concrete states: two consumers parked on slots 7 and 8; after `wakeUpAll` the
owner of slot 7 returns first, then the owner of slot 8. -/
theorem wake_all_releases_all_waiters_witness :
    ((NotificationQueue.wakeUpAll
          ⟨[], [7, 8], [(7, ⟨none, false⟩), (8, ⟨none, false⟩)]⟩)._waitQueue = [] ∧
      (NotificationQueue.waitDequeueNotification_signalled 8
        ⟨[], [], [(8, ⟨none, true⟩)]⟩).map Prod.fst = some none) ∧
    ((PriorityNotificationQueue.wakeUpAll
          ⟨[], [7, 8], [(7, ⟨none, false⟩), (8, ⟨none, false⟩)]⟩)._waitQueue = [] ∧
      (PriorityNotificationQueue.waitDequeueNotification_signalled 8
        ⟨[], [], [(8, ⟨none, true⟩)]⟩).map Prod.fst = some none) :=
  have h₁ := wake_all_releases_all_waiters.1
    ⟨[], [7, 8], [(7, ⟨none, false⟩), (8, ⟨none, false⟩)]⟩
    (NotificationQueue.Reachable.step (.waitDequeueNotification_enter 8)
      (NotificationQueue.Reachable.step (.waitDequeueNotification_enter 7) .init rfl) rfl)
  have h₂ := wake_all_releases_all_waiters.2
    ⟨[], [7, 8], [(7, ⟨none, false⟩), (8, ⟨none, false⟩)]⟩
    (PriorityNotificationQueue.Reachable.step (.waitDequeueNotification_enter 8)
      (PriorityNotificationQueue.Reachable.step (.waitDequeueNotification_enter 7) .init rfl)
      rfl)
  ⟨⟨h₁.1, (h₁.2.2.2.2.2 8 (by decide)).2 [.waitDequeueNotification_signalled 7] _ _ rfl
      (by decide)⟩,
    ⟨h₂.1, (h₂.2.2.2.2.2 8 (by decide)).2 [.waitDequeueNotification_signalled 7] _ _ rfl
      (by decide)⟩⟩

/-- C10. Non-blocking dequeue, both flavors: in a reachable state `dequeueNotification`
returns null exactly when the backing store is empty; when the store is non-empty it
returns the item of the head entry (FIFO: the front element; priority: the first entry,
whose priority is minimal among those buffered) and removes exactly that entry; in either
case the wait queue and every slot are unchanged. -/
theorem nonblocking_dequeue :
    (∀ q : NotificationQueue, NotificationQueue.Reachable q →
      ((NotificationQueue.dequeueNotification q).1 = none ↔ q._nfQueue = []) ∧
      (∀ p rest, q._nfQueue = p :: rest →
        NotificationQueue.dequeueNotification q = (p, { q with _nfQueue := rest })) ∧
      (NotificationQueue.dequeueNotification q).2._waitQueue = q._waitQueue ∧
      (NotificationQueue.dequeueNotification q).2.heap = q.heap) ∧
    (∀ q : PriorityNotificationQueue, PriorityNotificationQueue.Reachable q →
      ((PriorityNotificationQueue.dequeueNotification q).1 = none ↔ q._nfQueue = []) ∧
      (∀ k p rest, q._nfQueue = (k, p) :: rest →
        PriorityNotificationQueue.dequeueNotification q = (p, { q with _nfQueue := rest }) ∧
        ∀ e ∈ q._nfQueue, k ≤ e.1) ∧
      (PriorityNotificationQueue.dequeueNotification q).2._waitQueue = q._waitQueue ∧
      (PriorityNotificationQueue.dequeueNotification q).2.heap = q.heap) := by
  constructor
  · intro q hq
    have inv := NotificationQueue.nq_inv_of_reachable hq
    obtain ⟨store, wq, h⟩ := q
    have hnn := inv.noNull
    simp only at hnn
    cases store with
    | nil =>
      simp [NotificationQueue.dequeueNotification, NotificationQueue.dequeueOne, Ptr.duplicate]
    | cons p t =>
      have hp : p ≠ none := fun e => hnn (by simp [e])
      simp [NotificationQueue.dequeueNotification, NotificationQueue.dequeueOne, Ptr.duplicate,
        hp]
  · intro q hq
    have inv := PriorityNotificationQueue.pnq_inv_of_reachable hq
    obtain ⟨store, wq, h⟩ := q
    have hnn := inv.noNull
    have hso := inv.sorted
    simp only at hnn hso
    cases store with
    | nil =>
      simp [PriorityNotificationQueue.dequeueNotification, PriorityNotificationQueue.dequeueOne,
        Ptr.duplicate]
    | cons e t =>
      have hp : e.2 ≠ none := hnn e (by simp)
      have hmin := (List.pairwise_cons.1 hso).1
      refine ⟨by simp [PriorityNotificationQueue.dequeueNotification,
        PriorityNotificationQueue.dequeueOne, Ptr.duplicate, hp], ?_, rfl, rfl⟩
      intro k p rest hst
      simp only [List.cons.injEq] at hst
      obtain ⟨rfl, rfl⟩ := hst
      refine ⟨rfl, ?_⟩
      intro e he
      rcases List.mem_cons.1 he with rfl | he
      · exact le_refl _
      · exact hmin e he

/-- C10 at concrete states: store `[1, 2]`, respectively `[(1, 11), (5, 10)]`. -/
theorem nonblocking_dequeue_witness :
    NotificationQueue.dequeueNotification ⟨[some 1, some 2], [], []⟩ =
      (some 1, ⟨[some 2], [], []⟩) ∧
    PriorityNotificationQueue.dequeueNotification ⟨[(1, some 11), (5, some 10)], [], []⟩ =
      (some 11, ⟨[(5, some 10)], [], []⟩) :=
  ⟨(nonblocking_dequeue.1 ⟨[some 1, some 2], [], []⟩
      (NotificationQueue.Reachable.step (.enqueueNotification (some 2))
        (NotificationQueue.Reachable.step (.enqueueNotification (some 1)) .init rfl)
        rfl)).2.1 (some 1) [some 2] rfl,
    ((nonblocking_dequeue.2 ⟨[(1, some 11), (5, some 10)], [], []⟩
      (PriorityNotificationQueue.Reachable.step (.enqueueNotification (some 11) 1)
        (PriorityNotificationQueue.Reachable.step (.enqueueNotification (some 10) 5) .init rfl)
        rfl)).2.1 1 (some 11) [(5, some 10)] rfl).1⟩

/-- C11. Idempotent clear/empty, both flavors, for every state: after `clear()`, `empty()`
is true and `size()` is 0; `clear()` on a state whose backing store is empty returns the
identical state; `clear()` applied twice equals `clear()` applied once; and `clear()`
changes neither the wait queue nor any wait slot. -/
theorem clear_idempotent :
    (∀ q : NotificationQueue,
      NotificationQueue.empty (NotificationQueue.clear q) = true ∧
      NotificationQueue.size (NotificationQueue.clear q) = 0 ∧
      (q._nfQueue = [] → NotificationQueue.clear q = q) ∧
      NotificationQueue.clear (NotificationQueue.clear q) = NotificationQueue.clear q ∧
      (NotificationQueue.clear q)._waitQueue = q._waitQueue ∧
      (NotificationQueue.clear q).heap = q.heap) ∧
    (∀ q : PriorityNotificationQueue,
      PriorityNotificationQueue.empty (PriorityNotificationQueue.clear q) = true ∧
      PriorityNotificationQueue.size (PriorityNotificationQueue.clear q) = 0 ∧
      (q._nfQueue = [] → PriorityNotificationQueue.clear q = q) ∧
      PriorityNotificationQueue.clear (PriorityNotificationQueue.clear q) =
        PriorityNotificationQueue.clear q ∧
      (PriorityNotificationQueue.clear q)._waitQueue = q._waitQueue ∧
      (PriorityNotificationQueue.clear q).heap = q.heap) := by
  constructor
  · intro q
    refine ⟨rfl, by simp [NotificationQueue.size, NotificationQueue.clear, toInt], ?_, rfl,
      rfl, rfl⟩
    intro h
    obtain ⟨store, wq, hp⟩ := q
    simp only at h
    subst h
    rfl
  · intro q
    refine ⟨rfl, by simp [PriorityNotificationQueue.size, PriorityNotificationQueue.clear,
      toInt], ?_, rfl, rfl, rfl⟩
    intro h
    obtain ⟨store, wq, hp⟩ := q
    simp only at h
    subst h
    rfl

/-- C11 at concrete states: a queue with an empty store and one parked consumer is left
identical by `clear()`. -/
theorem clear_idempotent_witness :
    NotificationQueue.clear ⟨[], [7], [(7, ⟨none, false⟩)]⟩ =
      ⟨[], [7], [(7, ⟨none, false⟩)]⟩ ∧
    PriorityNotificationQueue.clear ⟨[], [7], [(7, ⟨none, false⟩)]⟩ =
      ⟨[], [7], [(7, ⟨none, false⟩)]⟩ :=
  ⟨(clear_idempotent.1 ⟨[], [7], [(7, ⟨none, false⟩)]⟩).2.2.1 rfl,
    (clear_idempotent.2 ⟨[], [7], [(7, ⟨none, false⟩)]⟩).2.2.1 rfl⟩

/-- C12. Drain and forward, both flavors: `dispatch` is total (it terminates), and in every
reachable state with backing store contents `s`, in head-to-tail order, it appends to the
notification center exactly the items of `s` in that order (one `postNotification` per
entry, nothing else), leaves the backing store empty, and leaves the wait queue and the
slots unchanged. -/
theorem drain_and_forward :
    (∀ (q : NotificationQueue) (notificationCenter : NotificationCenter),
      NotificationQueue.Reachable q →
      NotificationQueue.dispatch notificationCenter q =
        (notificationCenter ++ q._nfQueue, { q with _nfQueue := [] })) ∧
    (∀ (q : PriorityNotificationQueue) (notificationCenter : NotificationCenter),
      PriorityNotificationQueue.Reachable q →
      PriorityNotificationQueue.dispatch notificationCenter q =
        (notificationCenter ++ q._nfQueue.map Prod.snd, { q with _nfQueue := [] })) := by
  constructor
  · intro q nc hq
    have hnn := (NotificationQueue.nq_inv_of_reachable hq).noNull
    rw [NotificationQueue.nq_dispatch_eq, NotificationQueue.nq_takeWhile_isSome_of_noNull hnn,
      NotificationQueue.nq_dropWhile_isSome_of_noNull hnn]
    rfl
  · intro q nc hq
    have hnn := (PriorityNotificationQueue.pnq_inv_of_reachable hq).noNull
    rw [PriorityNotificationQueue.pnq_dispatch_eq,
      PriorityNotificationQueue.pnq_takeWhile_isSome_of_noNull hnn,
      PriorityNotificationQueue.pnq_dropWhile_isSome_of_noNull hnn]
    rfl

/-- C12 at concrete states: stores `[1, 2]` and `[(1, 11), (5, 10)]`. -/
theorem drain_and_forward_witness :
    NotificationQueue.dispatch [] ⟨[some 1, some 2], [], []⟩ =
      ([some 1, some 2], ⟨[], [], []⟩) ∧
    PriorityNotificationQueue.dispatch [] ⟨[(1, some 11), (5, some 10)], [], []⟩ =
      ([some 11, some 10], ⟨[], [], []⟩) :=
  ⟨drain_and_forward.1 ⟨[some 1, some 2], [], []⟩ []
      (NotificationQueue.Reachable.step (.enqueueNotification (some 2))
        (NotificationQueue.Reachable.step (.enqueueNotification (some 1)) .init rfl) rfl),
    drain_and_forward.2 ⟨[(1, some 11), (5, some 10)], [], []⟩ []
      (PriorityNotificationQueue.Reachable.step (.enqueueNotification (some 11) 1)
        (PriorityNotificationQueue.Reachable.step (.enqueueNotification (some 10) 5) .init rfl)
        rfl)⟩

/-- C13. Enqueuing an absent item fails fast, both flavors, for every state: each enqueue
operation raises the null-pointer precondition failure if and only if the item is null; the
raising step leaves the queue (backing store, wait queue and every slot) identical; and in
the FIFO flavor, and in reachable states of the priority flavor, a non-null item is never
refused. -/
theorem null_enqueue_fails_fast :
    (∀ (q : NotificationQueue) (pNotification : Ptr),
      (NotificationQueue.enqueueNotification pNotification q = .error .nullPointer ↔
        pNotification = none) ∧
      (NotificationQueue.enqueueUrgentNotification pNotification q = .error .nullPointer ↔
        pNotification = none) ∧
      (pNotification ≠ none →
        (∃ q', NotificationQueue.enqueueNotification pNotification q = .ok q') ∧
        ∃ q', NotificationQueue.enqueueUrgentNotification pNotification q = .ok q')) ∧
    (∀ q : NotificationQueue,
      NotificationQueue.step (.enqueueNotification none) q = some (.raised .nullPointer, q) ∧
      NotificationQueue.step (.enqueueUrgentNotification none) q =
        some (.raised .nullPointer, q)) ∧
    (∀ (q : PriorityNotificationQueue) (pNotification : Ptr) (priority : Int),
      (PriorityNotificationQueue.enqueueNotification pNotification priority q =
          .error .nullPointer ↔ pNotification = none) ∧
      PriorityNotificationQueue.step (.enqueueNotification none priority) q =
        some (.raised .nullPointer, q) ∧
      (PriorityNotificationQueue.Reachable q → pNotification ≠ none →
        ∃ q', PriorityNotificationQueue.enqueueNotification pNotification priority q =
          .ok q')) := by
  refine ⟨?_, ?_, ?_⟩
  · intro q p
    cases p with
    | none =>
      simp [NotificationQueue.enqueueNotification, NotificationQueue.enqueueUrgentNotification]
    | some n =>
      cases hwq : q._waitQueue <;>
        simp [NotificationQueue.enqueueNotification,
          NotificationQueue.enqueueUrgentNotification, hwq]
  · intro q
    exact ⟨rfl, rfl⟩
  · intro q p prio
    refine ⟨?_, rfl, ?_⟩
    · cases p with
      | none => simp [PriorityNotificationQueue.enqueueNotification]
      | some n =>
        cases hwq : q._waitQueue with
        | nil => simp [PriorityNotificationQueue.enqueueNotification, hwq]
        | cons a rest =>
          by_cases hst : q._nfQueue.isEmpty = true <;>
            simp [PriorityNotificationQueue.enqueueNotification, hwq, hst]
    · intro hq hp
      have hse := (PriorityNotificationQueue.pnq_inv_of_reachable hq).storeEmpty
      cases p with
      | none => exact absurd rfl hp
      | some n =>
        cases hwq : q._waitQueue with
        | nil => simp [PriorityNotificationQueue.enqueueNotification, hwq]
        | cons a rest =>
          have : q._nfQueue = [] := hse (by simp [hwq])
          simp [PriorityNotificationQueue.enqueueNotification, hwq, this]

/-- C13 at concrete inputs: a non-null item is accepted. -/
theorem null_enqueue_fails_fast_witness :
    (∃ q', NotificationQueue.enqueueNotification (some 1) NotificationQueue.new = .ok q') ∧
    (∃ q', PriorityNotificationQueue.enqueueNotification (some 1) 0
        ⟨[], [7], [(7, ⟨none, false⟩)]⟩ = .ok q') :=
  ⟨((null_enqueue_fails_fast.1 NotificationQueue.new (some 1)).2.2 (by decide)).1,
    (null_enqueue_fails_fast.2.2 ⟨[], [7], [(7, ⟨none, false⟩)]⟩ (some 1) 0).2.2
      (PriorityNotificationQueue.Reachable.step (.waitDequeueNotification_enter 7) .init rfl)
      (by decide)⟩

/-- C14. Urgency is irrelevant to hand-off: for every `NotificationQueue` state whose wait
queue is non-empty, `enqueueUrgentNotification(x)` and `enqueueNotification(x)` give the
identical result (for non-null `x` the same state: store untouched, front slot popped,
written and signalled).  With an empty wait queue and non-null `x` both succeed, and the
results differ at most in the store, where `x` is put at the front respectively at the
back; wait queue and slots are the same. -/
theorem urgency_irrelevant_to_handoff :
    (∀ (q : NotificationQueue) (x : Ptr), q._waitQueue ≠ [] →
      NotificationQueue.enqueueUrgentNotification x q =
        NotificationQueue.enqueueNotification x q) ∧
    (∀ (q : NotificationQueue) (pWI : WaitInfoPtr) (rest : List WaitInfoPtr) (x : Ptr),
      q._waitQueue = pWI :: rest → x ≠ none →
      NotificationQueue.enqueueUrgentNotification x q =
        .ok ⟨q._nfQueue, rest, Heap.setEvent pWI (Heap.setPNf pWI x q.heap)⟩) ∧
    (∀ (q : NotificationQueue) (x : Ptr), q._waitQueue = [] → x ≠ none →
      NotificationQueue.enqueueUrgentNotification x q =
        .ok { q with _nfQueue := x :: q._nfQueue } ∧
      NotificationQueue.enqueueNotification x q =
        .ok { q with _nfQueue := q._nfQueue ++ [x] }) := by
  refine ⟨?_, ?_, ?_⟩
  · intro q x hwq
    cases hw : q._waitQueue with
    | nil => exact absurd hw hwq
    | cons a rest =>
      simp [NotificationQueue.enqueueUrgentNotification, NotificationQueue.enqueueNotification,
        hw]
  · intro q pWI rest x hwq hx
    simp [NotificationQueue.enqueueUrgentNotification, hwq, hx]
  · intro q x hwq hx
    simp [NotificationQueue.enqueueUrgentNotification, NotificationQueue.enqueueNotification,
      hwq, hx]

/-- C14 at a concrete state: one consumer parked on slot 7, store empty. -/
theorem urgency_irrelevant_to_handoff_witness :
    NotificationQueue.enqueueUrgentNotification (some 1) ⟨[], [7], [(7, ⟨none, false⟩)]⟩ =
      NotificationQueue.enqueueNotification (some 1) ⟨[], [7], [(7, ⟨none, false⟩)]⟩ ∧
    NotificationQueue.enqueueUrgentNotification (some 1) ⟨[], [7], [(7, ⟨none, false⟩)]⟩ =
      .ok ⟨[], [], Heap.setEvent 7 (Heap.setPNf 7 (some 1) [(7, ⟨none, false⟩)])⟩ ∧
    (NotificationQueue.enqueueUrgentNotification (some 3) ⟨[some 1, some 2], [], []⟩ =
        .ok ⟨[some 3, some 1, some 2], [], []⟩ ∧
      NotificationQueue.enqueueNotification (some 3) ⟨[some 1, some 2], [], []⟩ =
        .ok ⟨[some 1, some 2, some 3], [], []⟩) :=
  ⟨urgency_irrelevant_to_handoff.1 ⟨[], [7], [(7, ⟨none, false⟩)]⟩ (some 1) (by decide),
    urgency_irrelevant_to_handoff.2.1 ⟨[], [7], [(7, ⟨none, false⟩)]⟩ 7 [] (some 1) rfl
      (by decide),
    urgency_irrelevant_to_handoff.2.2 ⟨[some 1, some 2], [], []⟩ (some 3) rfl (by decide)⟩

/-- C15, as stated, fails in both flavors: after one consumer parks on slot 7 and
`wakeUpAll` runs, the reachable state has slot 7 with its event set and a null item field,
and the untimed `waitDequeueNotification()`, once signalled, returns null. -/
theorem signalled_slot_may_be_empty :
    (NotificationQueue.Reachable ⟨[], [], [(7, ⟨none, true⟩)]⟩ ∧
      ¬ (∀ a w, Heap.deref a (NotificationQueue.mk [] [] [(7, ⟨none, true⟩)]).heap = some w →
          w.nfAvailable = true → w.pNf ≠ none) ∧
      (NotificationQueue.waitDequeueNotification_signalled 7
        ⟨[], [], [(7, ⟨none, true⟩)]⟩).map Prod.fst = some none) ∧
    (PriorityNotificationQueue.Reachable ⟨[], [], [(7, ⟨none, true⟩)]⟩ ∧
      ¬ (∀ a w,
          Heap.deref a (PriorityNotificationQueue.mk [] [] [(7, ⟨none, true⟩)]).heap = some w →
          w.nfAvailable = true → w.pNf ≠ none) ∧
      (PriorityNotificationQueue.waitDequeueNotification_signalled 7
        ⟨[], [], [(7, ⟨none, true⟩)]⟩).map Prod.fst = some none) :=
  ⟨⟨NotificationQueue.Reachable.step .wakeUpAll
      (NotificationQueue.Reachable.step (.waitDequeueNotification_enter 7) .init rfl) rfl,
      fun h => h 7 ⟨none, true⟩ rfl rfl rfl, rfl⟩,
    ⟨PriorityNotificationQueue.Reachable.step .wakeUpAll
      (PriorityNotificationQueue.Reachable.step (.waitDequeueNotification_enter 7) .init rfl)
      rfl,
      fun h => h 7 ⟨none, true⟩ rfl rfl rfl, rfl⟩⟩

/-- C15, amended.  In both flavors: in every reachable state a slot whose event is set is
no longer in the wait queue.  Only `wakeUpAll` sets an event while leaving the item field
empty: starting in any reachable state, along any schedule that contains no `wakeUpAll`
step, a slot address that is not signalled with an empty item field at the start is not so
at the end; a slot that is signalled while holding a non-null item is returned non-null by
its owner.  In particular, from the fresh queue and without `wakeUpAll`, every signalled
slot holds a non-null item. -/
theorem signalled_slot_has_item_unless_woken :
    (∀ (q : NotificationQueue) (a : WaitInfoPtr) (w : WaitInfo),
      NotificationQueue.Reachable q → Heap.deref a q.heap = some w →
      w.nfAvailable = true → a ∉ q._waitQueue) ∧
    (∀ (q : NotificationQueue) (acts : List NotificationQueue.Action) (es : List Outcome)
        (q' : NotificationQueue) (a : WaitInfoPtr) (w : WaitInfo),
      NotificationQueue.Reachable q →
      (∀ w₀, Heap.deref a q.heap = some w₀ → w₀.nfAvailable = true → w₀.pNf ≠ none) →
      NotificationQueue.run acts q = some (es, q') →
      NotificationQueue.Action.wakeUpAll ∉ acts →
      Heap.deref a q'.heap = some w → w.nfAvailable = true →
      w.pNf ≠ none ∧
        (NotificationQueue.waitDequeueNotification_signalled a q').map Prod.fst =
          some w.pNf) ∧
    (∀ (acts : List NotificationQueue.Action) (es : List Outcome) (q : NotificationQueue)
        (a : WaitInfoPtr) (w : WaitInfo),
      NotificationQueue.run acts NotificationQueue.new = some (es, q) →
      NotificationQueue.Action.wakeUpAll ∉ acts →
      Heap.deref a q.heap = some w → w.nfAvailable = true → w.pNf ≠ none) ∧
    (∀ (q : PriorityNotificationQueue) (a : WaitInfoPtr) (w : WaitInfo),
      PriorityNotificationQueue.Reachable q → Heap.deref a q.heap = some w →
      w.nfAvailable = true → a ∉ q._waitQueue) ∧
    (∀ (q : PriorityNotificationQueue) (acts : List PriorityNotificationQueue.Action)
        (es : List Outcome) (q' : PriorityNotificationQueue) (a : WaitInfoPtr) (w : WaitInfo),
      PriorityNotificationQueue.Reachable q →
      (∀ w₀, Heap.deref a q.heap = some w₀ → w₀.nfAvailable = true → w₀.pNf ≠ none) →
      PriorityNotificationQueue.run acts q = some (es, q') →
      PriorityNotificationQueue.Action.wakeUpAll ∉ acts →
      Heap.deref a q'.heap = some w → w.nfAvailable = true →
      w.pNf ≠ none ∧
        (PriorityNotificationQueue.waitDequeueNotification_signalled a q').map Prod.fst =
          some w.pNf) ∧
    (∀ (acts : List PriorityNotificationQueue.Action) (es : List Outcome)
        (q : PriorityNotificationQueue) (a : WaitInfoPtr) (w : WaitInfo),
      PriorityNotificationQueue.run acts PriorityNotificationQueue.new = some (es, q) →
      PriorityNotificationQueue.Action.wakeUpAll ∉ acts →
      Heap.deref a q.heap = some w → w.nfAvailable = true → w.pNf ≠ none) := by
  refine ⟨?_, ?_, ?_, ?_, ?_, ?_⟩
  · intro q a w hq hd hsig
    exact (NotificationQueue.nq_inv_of_reachable hq).wait.notMem_of_signalled hd hsig
  · intro q acts es q' a w hq hfull hr hacts hd hsig
    have h := NotificationQueue.nq_run_signalled_full (NotificationQueue.nq_inv_of_reachable hq)
      a hfull hr hacts w hd hsig
    exact ⟨h, by simp [NotificationQueue.waitDequeueNotification_signalled, hd, hsig,
      Ptr.duplicate]⟩
  · intro acts es q a w hr hacts hd hsig
    exact NotificationQueue.nq_run_signalled_full NotificationQueue.nq_inv_new a
      (by intro w h; simp [NotificationQueue.new, Heap.deref] at h) hr hacts w hd hsig
  · intro q a w hq hd hsig
    exact (PriorityNotificationQueue.pnq_inv_of_reachable hq).wait.notMem_of_signalled hd hsig
  · intro q acts es q' a w hq hfull hr hacts hd hsig
    have h := PriorityNotificationQueue.pnq_run_signalled_full
      (PriorityNotificationQueue.pnq_inv_of_reachable hq) a hfull hr hacts w hd hsig
    exact ⟨h, by simp [PriorityNotificationQueue.waitDequeueNotification_signalled, hd, hsig,
      Ptr.duplicate]⟩
  · intro acts es q a w hr hacts hd hsig
    exact PriorityNotificationQueue.pnq_run_signalled_full PriorityNotificationQueue.pnq_inv_new
      a (by intro w h; simp [PriorityNotificationQueue.new, Heap.deref] at h) hr hacts w hd hsig

/-- C15 amended, on concrete schedules without `wakeUpAll`: slot 7 was woken earlier with a
null item and is still allocated; a consumer then parks on slot 8 and an item is handed to
it. -/
theorem signalled_slot_has_item_unless_woken_witness :
    ((WaitInfo.mk (some 1) true).pNf ≠ none ∧
      (NotificationQueue.waitDequeueNotification_signalled 8
        ⟨[], [], [(7, ⟨none, true⟩), (8, ⟨some 1, true⟩)]⟩).map Prod.fst =
          some (WaitInfo.mk (some 1) true).pNf) ∧
    ((WaitInfo.mk (some 1) true).pNf ≠ none ∧
      (PriorityNotificationQueue.waitDequeueNotification_signalled 8
        ⟨[], [], [(7, ⟨none, true⟩), (8, ⟨some 1, true⟩)]⟩).map Prod.fst =
          some (WaitInfo.mk (some 1) true).pNf) ∧
    7 ∉ (NotificationQueue.mk [] [] [(7, ⟨none, true⟩)])._waitQueue ∧
    7 ∉ (PriorityNotificationQueue.mk [] [] [(7, ⟨none, true⟩)])._waitQueue ∧
    (WaitInfo.mk (some 1) true).pNf ≠ none ∧
    (WaitInfo.mk (some 2) true).pNf ≠ none :=
  ⟨signalled_slot_has_item_unless_woken.2.1 ⟨[], [], [(7, ⟨none, true⟩)]⟩
      [.waitDequeueNotification_enter 8, .enqueueNotification (some 1)] _
      ⟨[], [], [(7, ⟨none, true⟩), (8, ⟨some 1, true⟩)]⟩ 8 ⟨some 1, true⟩
      (NotificationQueue.Reachable.step .wakeUpAll
        (NotificationQueue.Reachable.step (.waitDequeueNotification_enter 7) .init rfl) rfl)
      (by decide) rfl (by decide) rfl rfl,
    signalled_slot_has_item_unless_woken.2.2.2.2.1 ⟨[], [], [(7, ⟨none, true⟩)]⟩
      [.waitDequeueNotification_enter 8, .enqueueNotification (some 1) 0] _
      ⟨[], [], [(7, ⟨none, true⟩), (8, ⟨some 1, true⟩)]⟩ 8 ⟨some 1, true⟩
      (PriorityNotificationQueue.Reachable.step .wakeUpAll
        (PriorityNotificationQueue.Reachable.step (.waitDequeueNotification_enter 7) .init rfl)
        rfl)
      (by decide) rfl (by decide) rfl rfl,
    signalled_slot_has_item_unless_woken.1 ⟨[], [], [(7, ⟨none, true⟩)]⟩ 7 ⟨none, true⟩
      (NotificationQueue.Reachable.step .wakeUpAll
        (NotificationQueue.Reachable.step (.waitDequeueNotification_enter 7) .init rfl) rfl)
      rfl rfl,
    signalled_slot_has_item_unless_woken.2.2.2.1 ⟨[], [], [(7, ⟨none, true⟩)]⟩ 7 ⟨none, true⟩
      (PriorityNotificationQueue.Reachable.step .wakeUpAll
        (PriorityNotificationQueue.Reachable.step (.waitDequeueNotification_enter 7) .init rfl)
        rfl)
      rfl rfl,
    signalled_slot_has_item_unless_woken.2.2.1
      [.waitDequeueNotification_enter 7, .enqueueNotification (some 1)] _
      ⟨[], [], [(7, ⟨some 1, true⟩)]⟩ 7 ⟨some 1, true⟩ rfl (by decide) rfl rfl,
    signalled_slot_has_item_unless_woken.2.2.2.2.2
      [.waitDequeueNotification_enter 7, .enqueueNotification (some 2) 0] _
      ⟨[], [], [(7, ⟨some 2, true⟩)]⟩ 7 ⟨some 2, true⟩ rfl (by decide) rfl rfl⟩

/-- C16. Single-writer wait slots, both flavors.  In every reachable state every slot in
the wait queue is allocated with an empty item field and an unset event, and the wait queue
holds no slot twice.  For every step from a reachable state and every slot that is
allocated before and after it: if the step changes the slot's item field, the slot was the
front of the wait queue with an empty item field, and the step pops it from the wait queue
and sets its event; if the slot was not in the wait queue, the step leaves its record as it
is and the slot stays out of the wait queue.  Hence, along any schedule that does not
contain the owner's own resumption, the record of a slot that has left the wait queue never
changes again: its item field is written at most once. -/
theorem single_writer_wait_slots :
    (∀ q : NotificationQueue, NotificationQueue.Reachable q →
      (∀ b ∈ q._waitQueue, Heap.deref b q.heap = some { pNf := none, nfAvailable := false }) ∧
      q._waitQueue.Nodup ∧
      (∀ (a : NotificationQueue.Action) (e : Outcome) (q' : NotificationQueue)
          (b : WaitInfoPtr) (w w' : WaitInfo),
        NotificationQueue.step a q = some (e, q') →
        Heap.deref b q.heap = some w → Heap.deref b q'.heap = some w' →
        (w'.pNf ≠ w.pNf →
          (∃ rest, q._waitQueue = b :: rest ∧ q'._waitQueue = rest) ∧ b ∉ q'._waitQueue ∧
            w = { pNf := none, nfAvailable := false } ∧ w'.nfAvailable = true) ∧
        (b ∉ q._waitQueue → w' = w ∧ b ∉ q'._waitQueue)) ∧
      (∀ (acts : List NotificationQueue.Action) (es : List Outcome) (q' : NotificationQueue)
          (b : WaitInfoPtr) (w : WaitInfo),
        NotificationQueue.run acts q = some (es, q') →
        Heap.deref b q.heap = some w → b ∉ q._waitQueue →
        (∀ a ∈ acts, a ≠ .waitDequeueNotification_signalled b ∧
          a ≠ .waitDequeueNotification_timeout b) →
        Heap.deref b q'.heap = some w)) ∧
    (∀ q : PriorityNotificationQueue, PriorityNotificationQueue.Reachable q →
      (∀ b ∈ q._waitQueue, Heap.deref b q.heap = some { pNf := none, nfAvailable := false }) ∧
      q._waitQueue.Nodup ∧
      (∀ (a : PriorityNotificationQueue.Action) (e : Outcome) (q' : PriorityNotificationQueue)
          (b : WaitInfoPtr) (w w' : WaitInfo),
        PriorityNotificationQueue.step a q = some (e, q') →
        Heap.deref b q.heap = some w → Heap.deref b q'.heap = some w' →
        (w'.pNf ≠ w.pNf →
          (∃ rest, q._waitQueue = b :: rest ∧ q'._waitQueue = rest) ∧ b ∉ q'._waitQueue ∧
            w = { pNf := none, nfAvailable := false } ∧ w'.nfAvailable = true) ∧
        (b ∉ q._waitQueue → w' = w ∧ b ∉ q'._waitQueue)) ∧
      (∀ (acts : List PriorityNotificationQueue.Action) (es : List Outcome)
          (q' : PriorityNotificationQueue) (b : WaitInfoPtr) (w : WaitInfo),
        PriorityNotificationQueue.run acts q = some (es, q') →
        Heap.deref b q.heap = some w → b ∉ q._waitQueue →
        (∀ a ∈ acts, a ≠ .waitDequeueNotification_signalled b ∧
          a ≠ .waitDequeueNotification_timeout b) →
        Heap.deref b q'.heap = some w)) := by
  constructor
  · intro q hq
    have inv := NotificationQueue.nq_inv_of_reachable hq
    refine ⟨inv.wait.parked, inv.wait.waitNodup, ?_, ?_⟩
    · intro a e q' b w w' hs hd hd'
      have inv' := NotificationQueue.nq_inv_step inv hs
      refine slot_write_cases inv.wait inv'.wait ?_ hd hd'
      rcases NotificationQueue.nq_step_cases hs with ⟨-, h1, h2⟩ | ⟨-, h⟩
      · exact Or.inl ⟨h1, h2⟩
      · exact Or.inr h
    · intro acts es q' b w hr hd hb hacts
      exact NotificationQueue.nq_run_signalled_stable inv hr hd (inv.wait.detached b w hd hb)
        hacts
  · intro q hq
    have inv := PriorityNotificationQueue.pnq_inv_of_reachable hq
    refine ⟨inv.wait.parked, inv.wait.waitNodup, ?_, ?_⟩
    · intro a e q' b w w' hs hd hd'
      have inv' := PriorityNotificationQueue.pnq_inv_step inv hs
      refine slot_write_cases inv.wait inv'.wait ?_ hd hd'
      rcases PriorityNotificationQueue.pnq_step_cases hs with ⟨-, h1, h2⟩ | ⟨-, h⟩
      · exact Or.inl ⟨h1, h2⟩
      · exact Or.inr h
    · intro acts es q' b w hr hd hb hacts
      exact PriorityNotificationQueue.pnq_run_signalled_stable inv hr hd
        (inv.wait.detached b w hd hb) hacts

/-- C16 at concrete states: slots 7 and 8 are parked; an enqueue writes slot 7, the front
one, and pops it; slot 8 stays parked and untouched. -/
theorem single_writer_wait_slots_witness :
    (((∃ rest, (NotificationQueue.mk [] [7, 8]
            [(7, ⟨none, false⟩), (8, ⟨none, false⟩)])._waitQueue = 7 :: rest ∧
          (NotificationQueue.mk [] [8]
            [(7, ⟨some 1, true⟩), (8, ⟨none, false⟩)])._waitQueue = rest) ∧
        7 ∉ (NotificationQueue.mk [] [8]
            [(7, ⟨some 1, true⟩), (8, ⟨none, false⟩)])._waitQueue ∧
        WaitInfo.mk none false = { pNf := none, nfAvailable := false } ∧
        (WaitInfo.mk (some 1) true).nfAvailable = true)) ∧
    (((∃ rest, (PriorityNotificationQueue.mk [] [7, 8]
            [(7, ⟨none, false⟩), (8, ⟨none, false⟩)])._waitQueue = 7 :: rest ∧
          (PriorityNotificationQueue.mk [] [8]
            [(7, ⟨some 1, true⟩), (8, ⟨none, false⟩)])._waitQueue = rest) ∧
        7 ∉ (PriorityNotificationQueue.mk [] [8]
            [(7, ⟨some 1, true⟩), (8, ⟨none, false⟩)])._waitQueue ∧
        WaitInfo.mk none false = { pNf := none, nfAvailable := false } ∧
        (WaitInfo.mk (some 1) true).nfAvailable = true)) :=
  ⟨((single_writer_wait_slots.1 ⟨[], [7, 8], [(7, ⟨none, false⟩), (8, ⟨none, false⟩)]⟩
      (NotificationQueue.Reachable.step (.waitDequeueNotification_enter 8)
        (NotificationQueue.Reachable.step (.waitDequeueNotification_enter 7) .init rfl)
        rfl)).2.2.1 (.enqueueNotification (some 1)) _
      ⟨[], [8], [(7, ⟨some 1, true⟩), (8, ⟨none, false⟩)]⟩ 7 ⟨none, false⟩ ⟨some 1, true⟩
      rfl rfl rfl).1 (by decide),
    ((single_writer_wait_slots.2 ⟨[], [7, 8], [(7, ⟨none, false⟩), (8, ⟨none, false⟩)]⟩
      (PriorityNotificationQueue.Reachable.step (.waitDequeueNotification_enter 8)
        (PriorityNotificationQueue.Reachable.step (.waitDequeueNotification_enter 7) .init rfl)
        rfl)).2.2.1 (.enqueueNotification (some 1) 0) _
      ⟨[], [8], [(7, ⟨some 1, true⟩), (8, ⟨none, false⟩)]⟩ 7 ⟨none, false⟩ ⟨some 1, true⟩
      rfl rfl rfl).1 (by decide)⟩

/-- C17. Blocking-dequeue fast path, both flavors.  In every reachable state whose backing
store is non-empty, the first critical section of `waitDequeueNotification()` and of
`waitDequeueNotification(milliseconds)`, for every timeout value and whatever address
`new` would yield, returns at once with the item and the resulting state of
`dequeueNotification()`: the head entry is removed, no slot is created, the wait queue is
unchanged.  Conversely, if the call parks its caller in a reachable state, the backing store
was empty, and the fresh slot is appended at the back of the wait queue. -/
theorem blocking_dequeue_fast_path :
    (∀ (q : NotificationQueue) (pWI : WaitInfoPtr) (milliseconds : Int),
      NotificationQueue.Reachable q → q._nfQueue ≠ [] →
      NotificationQueue.waitDequeueNotification_enter pWI q =
        (.returned (NotificationQueue.dequeueNotification q).1,
          (NotificationQueue.dequeueNotification q).2) ∧
      NotificationQueue.waitDequeueNotification_ms_enter milliseconds pWI q =
        (.returned (NotificationQueue.dequeueNotification q).1,
          (NotificationQueue.dequeueNotification q).2) ∧
      (NotificationQueue.dequeueNotification q).2 = { q with _nfQueue := q._nfQueue.tail } ∧
      (NotificationQueue.dequeueNotification q).1 ≠ none) ∧
    (∀ (q q' : NotificationQueue) (pWI a : WaitInfoPtr) (milliseconds : Int),
      NotificationQueue.Reachable q →
      (NotificationQueue.waitDequeueNotification_enter pWI q = (.parked a, q') ∨
        NotificationQueue.waitDequeueNotification_ms_enter milliseconds pWI q =
          (.parked a, q')) →
      q._nfQueue = [] ∧ a = pWI ∧
        q' = ⟨[], q._waitQueue ++ [pWI], Heap.alloc pWI q.heap⟩) ∧
    (∀ (q : PriorityNotificationQueue) (pWI : WaitInfoPtr) (milliseconds : Int),
      PriorityNotificationQueue.Reachable q → q._nfQueue ≠ [] →
      PriorityNotificationQueue.waitDequeueNotification_enter pWI q =
        (.returned (PriorityNotificationQueue.dequeueNotification q).1,
          (PriorityNotificationQueue.dequeueNotification q).2) ∧
      PriorityNotificationQueue.waitDequeueNotification_ms_enter milliseconds pWI q =
        (.returned (PriorityNotificationQueue.dequeueNotification q).1,
          (PriorityNotificationQueue.dequeueNotification q).2) ∧
      (PriorityNotificationQueue.dequeueNotification q).2 =
        { q with _nfQueue := q._nfQueue.tail } ∧
      (PriorityNotificationQueue.dequeueNotification q).1 ≠ none) ∧
    (∀ (q q' : PriorityNotificationQueue) (pWI a : WaitInfoPtr) (milliseconds : Int),
      PriorityNotificationQueue.Reachable q →
      (PriorityNotificationQueue.waitDequeueNotification_enter pWI q = (.parked a, q') ∨
        PriorityNotificationQueue.waitDequeueNotification_ms_enter milliseconds pWI q =
          (.parked a, q')) →
      q._nfQueue = [] ∧ a = pWI ∧
        q' = ⟨[], q._waitQueue ++ [pWI], Heap.alloc pWI q.heap⟩) := by
  refine ⟨?_, ?_, ?_, ?_⟩
  · intro q pWI ms hq hne
    have hnn := (NotificationQueue.nq_inv_of_reachable hq).noNull
    obtain ⟨store, wq, h⟩ := q
    cases store with
    | nil => exact absurd rfl hne
    | cons p t =>
      cases p with
      | none => simp at hnn
      | some n =>
        simp [NotificationQueue.waitDequeueNotification_enter,
          NotificationQueue.waitDequeueNotification_ms_enter,
          NotificationQueue.dequeueNotification, NotificationQueue.dequeueOne, Ptr.duplicate]
  · intro q q' pWI a ms hq hpark
    have hnn := (NotificationQueue.nq_inv_of_reachable hq).noNull
    obtain ⟨store, wq, h⟩ := q
    cases store with
    | nil =>
      rcases hpark with hp | hp <;>
        simp [NotificationQueue.waitDequeueNotification_enter,
          NotificationQueue.waitDequeueNotification_ms_enter,
          NotificationQueue.dequeueOne] at hp <;>
        exact ⟨rfl, hp.1.symm, hp.2.symm⟩
    | cons p t =>
      cases p with
      | none => simp at hnn
      | some n =>
        rcases hpark with hp | hp <;>
          simp [NotificationQueue.waitDequeueNotification_enter,
            NotificationQueue.waitDequeueNotification_ms_enter,
            NotificationQueue.dequeueOne] at hp
  · intro q pWI ms hq hne
    have hnn := (PriorityNotificationQueue.pnq_inv_of_reachable hq).noNull
    obtain ⟨store, wq, h⟩ := q
    cases store with
    | nil => exact absurd rfl hne
    | cons e t =>
      obtain ⟨k, p⟩ := e
      cases p with
      | none => simpa using hnn (k, none) (by simp)
      | some n =>
        simp [PriorityNotificationQueue.waitDequeueNotification_enter,
          PriorityNotificationQueue.waitDequeueNotification_ms_enter,
          PriorityNotificationQueue.dequeueNotification, PriorityNotificationQueue.dequeueOne,
          Ptr.duplicate]
  · intro q q' pWI a ms hq hpark
    have hnn := (PriorityNotificationQueue.pnq_inv_of_reachable hq).noNull
    obtain ⟨store, wq, h⟩ := q
    cases store with
    | nil =>
      rcases hpark with hp | hp <;>
        simp [PriorityNotificationQueue.waitDequeueNotification_enter,
          PriorityNotificationQueue.waitDequeueNotification_ms_enter,
          PriorityNotificationQueue.dequeueOne] at hp <;>
        exact ⟨rfl, hp.1.symm, hp.2.symm⟩
    | cons e t =>
      obtain ⟨k, p⟩ := e
      cases p with
      | none => simpa using hnn (k, none) (by simp)
      | some n =>
        rcases hpark with hp | hp <;>
          simp [PriorityNotificationQueue.waitDequeueNotification_enter,
            PriorityNotificationQueue.waitDequeueNotification_ms_enter,
            PriorityNotificationQueue.dequeueOne] at hp

/-- C17 at concrete states: stores `[1, 2]` and `[(1, 11), (5, 10)]`, timeout 250 ms; and a
caller parking on slot 7 of the fresh queue. -/
theorem blocking_dequeue_fast_path_witness :
    NotificationQueue.waitDequeueNotification_ms_enter 250 7 ⟨[some 1, some 2], [], []⟩ =
      (.returned (NotificationQueue.dequeueNotification ⟨[some 1, some 2], [], []⟩).1,
        (NotificationQueue.dequeueNotification ⟨[some 1, some 2], [], []⟩).2) ∧
    PriorityNotificationQueue.waitDequeueNotification_ms_enter 250 7
        ⟨[(1, some 11), (5, some 10)], [], []⟩ =
      (.returned (PriorityNotificationQueue.dequeueNotification
          ⟨[(1, some 11), (5, some 10)], [], []⟩).1,
        (PriorityNotificationQueue.dequeueNotification
          ⟨[(1, some 11), (5, some 10)], [], []⟩).2) ∧
    (NotificationQueue.new._nfQueue = [] ∧ 7 = 7 ∧
      NotificationQueue.mk [] [7] [(7, ⟨none, false⟩)] =
        ⟨[], NotificationQueue.new._waitQueue ++ [7],
          Heap.alloc 7 NotificationQueue.new.heap⟩) ∧
    (PriorityNotificationQueue.new._nfQueue = [] ∧ 7 = 7 ∧
      PriorityNotificationQueue.mk [] [7] [(7, ⟨none, false⟩)] =
        ⟨[], PriorityNotificationQueue.new._waitQueue ++ [7],
          Heap.alloc 7 PriorityNotificationQueue.new.heap⟩) :=
  ⟨(blocking_dequeue_fast_path.1 ⟨[some 1, some 2], [], []⟩ 7 250
      (NotificationQueue.Reachable.step (.enqueueNotification (some 2))
        (NotificationQueue.Reachable.step (.enqueueNotification (some 1)) .init rfl) rfl)
      (by decide)).2.1,
    (blocking_dequeue_fast_path.2.2.1 ⟨[(1, some 11), (5, some 10)], [], []⟩ 7 250
      (PriorityNotificationQueue.Reachable.step (.enqueueNotification (some 11) 1)
        (PriorityNotificationQueue.Reachable.step (.enqueueNotification (some 10) 5) .init rfl)
        rfl)
      (by decide)).2.1,
    blocking_dequeue_fast_path.2.1 NotificationQueue.new ⟨[], [7], [(7, ⟨none, false⟩)]⟩ 7 7
      250 .init (Or.inl rfl),
    blocking_dequeue_fast_path.2.2.2 PriorityNotificationQueue.new
      ⟨[], [7], [(7, ⟨none, false⟩)]⟩ 7 7 250 .init (Or.inl rfl)⟩

/-- C18. No null is ever buffered, both flavors: in every reachable state the backing
store holds no null item; hence `dequeueOne` returns null if and only if the store is
empty; `dispatch` does not stop before the store is drained (it posts every buffered item
and leaves the store empty); and the first critical section of a blocking dequeue parks its
caller only when the store is empty. -/
theorem no_null_buffered :
    (∀ q : NotificationQueue, NotificationQueue.Reachable q →
      none ∉ q._nfQueue ∧
      ((NotificationQueue.dequeueOne q).1 = none ↔ q._nfQueue = []) ∧
      (∀ notificationCenter : NotificationCenter,
        (NotificationQueue.dispatch notificationCenter q).2._nfQueue = [] ∧
        (NotificationQueue.dispatch notificationCenter q).1 =
          notificationCenter ++ q._nfQueue) ∧
      (∀ (pWI a : WaitInfoPtr) (q' : NotificationQueue),
        NotificationQueue.waitDequeueNotification_enter pWI q = (.parked a, q') →
        q._nfQueue = [])) ∧
    (∀ q : PriorityNotificationQueue, PriorityNotificationQueue.Reachable q →
      (∀ e ∈ q._nfQueue, e.2 ≠ none) ∧
      ((PriorityNotificationQueue.dequeueOne q).1 = none ↔ q._nfQueue = []) ∧
      (∀ notificationCenter : NotificationCenter,
        (PriorityNotificationQueue.dispatch notificationCenter q).2._nfQueue = [] ∧
        (PriorityNotificationQueue.dispatch notificationCenter q).1 =
          notificationCenter ++ q._nfQueue.map Prod.snd) ∧
      (∀ (pWI a : WaitInfoPtr) (q' : PriorityNotificationQueue),
        PriorityNotificationQueue.waitDequeueNotification_enter pWI q = (.parked a, q') →
        q._nfQueue = [])) := by
  constructor
  · intro q hq
    have hnn := (NotificationQueue.nq_inv_of_reachable hq).noNull
    refine ⟨hnn, ?_, ?_, ?_⟩
    · obtain ⟨store, wq, h⟩ := q
      cases store with
      | nil => simp [NotificationQueue.dequeueOne]
      | cons p t =>
        have hp : p ≠ none := fun e => hnn (by simp [e])
        simp [NotificationQueue.dequeueOne, hp]
    · intro nc
      rw [NotificationQueue.nq_dispatch_eq,
        NotificationQueue.nq_takeWhile_isSome_of_noNull hnn,
        NotificationQueue.nq_dropWhile_isSome_of_noNull hnn]
      exact ⟨rfl, rfl⟩
    · intro pWI a q' hp
      obtain ⟨store, wq, h⟩ := q
      cases store with
      | nil => rfl
      | cons p t =>
        cases p with
        | none => simp at hnn
        | some n =>
          simp [NotificationQueue.waitDequeueNotification_enter,
            NotificationQueue.dequeueOne] at hp
  · intro q hq
    have hnn := (PriorityNotificationQueue.pnq_inv_of_reachable hq).noNull
    refine ⟨hnn, ?_, ?_, ?_⟩
    · obtain ⟨store, wq, h⟩ := q
      cases store with
      | nil => simp [PriorityNotificationQueue.dequeueOne]
      | cons e t =>
        have hp : e.2 ≠ none := hnn e (by simp)
        simp [PriorityNotificationQueue.dequeueOne, hp]
    · intro nc
      rw [PriorityNotificationQueue.pnq_dispatch_eq,
        PriorityNotificationQueue.pnq_takeWhile_isSome_of_noNull hnn,
        PriorityNotificationQueue.pnq_dropWhile_isSome_of_noNull hnn]
      exact ⟨rfl, rfl⟩
    · intro pWI a q' hp
      obtain ⟨store, wq, h⟩ := q
      cases store with
      | nil => rfl
      | cons e t =>
        obtain ⟨k, p⟩ := e
        cases p with
        | none => simpa using hnn (k, none) (by simp)
        | some n =>
          simp [PriorityNotificationQueue.waitDequeueNotification_enter,
            PriorityNotificationQueue.dequeueOne] at hp

/-- C18 at concrete states: stores `[1, 2]` and `[(1, 11), (5, 10)]`. -/
theorem no_null_buffered_witness :
    none ∉ (NotificationQueue.mk [some 1, some 2] [] [])._nfQueue ∧
    ∀ e ∈ (PriorityNotificationQueue.mk [(1, some 11), (5, some 10)] [] [])._nfQueue,
      e.2 ≠ none :=
  ⟨(no_null_buffered.1 ⟨[some 1, some 2], [], []⟩
      (NotificationQueue.Reachable.step (.enqueueNotification (some 2))
        (NotificationQueue.Reachable.step (.enqueueNotification (some 1)) .init rfl)
        rfl)).1,
    (no_null_buffered.2 ⟨[(1, some 11), (5, some 10)], [], []⟩
      (PriorityNotificationQueue.Reachable.step (.enqueueNotification (some 11) 1)
        (PriorityNotificationQueue.Reachable.step (.enqueueNotification (some 10) 5) .init rfl)
        rfl)).1⟩

/-- C19. The timeout branch touches only the caller's own slot, both flavors.  In every
reachable state in which `pWI` is an allocated slot, the timeout branch of
`waitDequeueNotification(milliseconds)` can be taken; afterwards the wait queue is the
previous one with `pWI` erased (the other slots remain in their order: it is the previous
queue filtered by `≠ pWI`, one shorter if `pWI` was queued), every other slot record is
unchanged, and the backing store is unchanged; if `pWI` was no longer queued, the wait queue
is exactly as it was. -/
theorem timeout_frame :
    (∀ (q : NotificationQueue) (pWI : WaitInfoPtr) (w : WaitInfo),
      NotificationQueue.Reachable q → Heap.deref pWI q.heap = some w →
      ∃ q', NotificationQueue.waitDequeueNotification_timeout pWI q = some (w.pNf, q') ∧
        q'._waitQueue = q._waitQueue.erase pWI ∧
        q'._waitQueue = q._waitQueue.filter (fun b => b != pWI) ∧
        (pWI ∈ q._waitQueue → q'._waitQueue.length + 1 = q._waitQueue.length) ∧
        (pWI ∉ q._waitQueue → q'._waitQueue = q._waitQueue) ∧
        (∀ b, b ≠ pWI → Heap.deref b q'.heap = Heap.deref b q.heap) ∧
        q'._nfQueue = q._nfQueue) ∧
    (∀ (q : PriorityNotificationQueue) (pWI : WaitInfoPtr) (w : WaitInfo),
      PriorityNotificationQueue.Reachable q → Heap.deref pWI q.heap = some w →
      ∃ q', PriorityNotificationQueue.waitDequeueNotification_timeout pWI q =
          some (w.pNf, q') ∧
        q'._waitQueue = q._waitQueue.erase pWI ∧
        q'._waitQueue = q._waitQueue.filter (fun b => b != pWI) ∧
        (pWI ∈ q._waitQueue → q'._waitQueue.length + 1 = q._waitQueue.length) ∧
        (pWI ∉ q._waitQueue → q'._waitQueue = q._waitQueue) ∧
        (∀ b, b ≠ pWI → Heap.deref b q'.heap = Heap.deref b q.heap) ∧
        q'._nfQueue = q._nfQueue) := by
  constructor
  · intro q pWI w hq hd
    have hnd := (NotificationQueue.nq_inv_of_reachable hq).wait.waitNodup
    refine ⟨⟨q._nfQueue, eraseFirst pWI q._waitQueue, Heap.free pWI q.heap⟩, ?_,
      eraseFirst_eq_erase _ _, ?_, ?_, ?_, ?_, rfl⟩
    · simp [NotificationQueue.waitDequeueNotification_timeout, hd, Ptr.duplicate]
    · simp only [eraseFirst_eq_erase]
      exact hnd.erase_eq_filter pWI
    · intro hm
      simp only [eraseFirst_eq_erase, List.length_erase_of_mem hm]
      have : 0 < q._waitQueue.length := List.length_pos_of_mem hm
      omega
    · intro hm
      exact eraseFirst_of_not_mem hm
    · intro b hb
      simp only [Heap.deref_free, if_neg hb]
  · intro q pWI w hq hd
    have hnd := (PriorityNotificationQueue.pnq_inv_of_reachable hq).wait.waitNodup
    refine ⟨⟨q._nfQueue, eraseFirst pWI q._waitQueue, Heap.free pWI q.heap⟩, ?_,
      eraseFirst_eq_erase _ _, ?_, ?_, ?_, ?_, rfl⟩
    · simp [PriorityNotificationQueue.waitDequeueNotification_timeout, hd, Ptr.duplicate]
    · simp only [eraseFirst_eq_erase]
      exact hnd.erase_eq_filter pWI
    · intro hm
      simp only [eraseFirst_eq_erase, List.length_erase_of_mem hm]
      have : 0 < q._waitQueue.length := List.length_pos_of_mem hm
      omega
    · intro hm
      exact eraseFirst_of_not_mem hm
    · intro b hb
      simp only [Heap.deref_free, if_neg hb]

/-- C19 at concrete states: slots 7, 8 and 9 are parked and the owner of slot 8 times
out. -/
theorem timeout_frame_witness :
    (∃ q', NotificationQueue.waitDequeueNotification_timeout 8
          ⟨[], [7, 8, 9], [(7, ⟨none, false⟩), (8, ⟨none, false⟩), (9, ⟨none, false⟩)]⟩ =
        some (none, q') ∧ q'._waitQueue = [7, 9]) ∧
    (∃ q', PriorityNotificationQueue.waitDequeueNotification_timeout 8
          ⟨[], [7, 8, 9], [(7, ⟨none, false⟩), (8, ⟨none, false⟩), (9, ⟨none, false⟩)]⟩ =
        some (none, q') ∧ q'._waitQueue = [7, 9]) := by
  constructor
  · obtain ⟨q', h1, h2, -⟩ := timeout_frame.1
      ⟨[], [7, 8, 9], [(7, ⟨none, false⟩), (8, ⟨none, false⟩), (9, ⟨none, false⟩)]⟩ 8
      ⟨none, false⟩
      (NotificationQueue.Reachable.step (.waitDequeueNotification_enter 9)
        (NotificationQueue.Reachable.step (.waitDequeueNotification_enter 8)
          (NotificationQueue.Reachable.step (.waitDequeueNotification_enter 7) .init rfl)
          rfl) rfl) rfl
    exact ⟨q', h1, h2.trans (by decide)⟩
  · obtain ⟨q', h1, h2, -⟩ := timeout_frame.2
      ⟨[], [7, 8, 9], [(7, ⟨none, false⟩), (8, ⟨none, false⟩), (9, ⟨none, false⟩)]⟩ 8
      ⟨none, false⟩
      (PriorityNotificationQueue.Reachable.step (.waitDequeueNotification_enter 9)
        (PriorityNotificationQueue.Reachable.step (.waitDequeueNotification_enter 8)
          (PriorityNotificationQueue.Reachable.step (.waitDequeueNotification_enter 7) .init
            rfl) rfl) rfl) rfl
    exact ⟨q', h1, h2.trans (by decide)⟩

end Poco
